import Mathlib

/-!
# vMIX peripheral devices

A shallow embedding of `src/vMIX/IODevice.hpp`: the device base class and the
seven peripherals (tape, disk, card reader, card writer, line printer,
typewriter, paper tape), followed by theorems about them.

Conventions of the embedding.

* `uint` is a natural number reduced modulo `2 ^ 32` wherever the source
  computes with it.
* `char` is `Char`; a stream is the list of characters still to be read, a
  sink is the list of characters written so far.
* A caller buffer `vWord *addr` is a list of words; the pointer is an index
  into it.  An access outside a buffer or outside the device mirror is
  undefined behaviour in the source and is `none` here.
* The clock `currentTimeMilli()` is an argument `now`, the value the call
  returned.
* A file system maps a path to the content of the file that can be opened
  for reading there, and says which paths can be opened for writing.  A
  binary file of the tape and the disk is the sequence of the word images it
  holds (the byte layout of a word is not modelled); a text file is a
  sequence of characters.
-/

namespace vMIX

/-! ## Words, constants and the character table (from `Mem.hpp`, `Charset.hpp`) -/

/-- Modelled from the spec: the sign of a machine word, declared in `Mem.hpp`
which is not part of the sources at hand; the source writes `P` for the
positive sign. -/
inductive Sign where
  | P
  | N
deriving DecidableEq

/-- Modelled from the spec: the machine word of `Mem.hpp`, a sign and an
unsigned magnitude `data`. -/
structure vWord where
  sign : Sign
  data : Nat
deriving DecidableEq

/-- Modelled from the spec: the value-initialised word `vWord{}`, sign
positive and data zero. -/
def vWord.zero : vWord := ⟨Sign.P, 0⟩

/-- The modulus of the 32-bit type `uint`. -/
def UINT : Nat := 2 ^ 32

/-- Modelled from the spec: the conversion `const uint val = *addr++` of a
word to `uint` (declared in `Mem.hpp`) yields the magnitude, whose five 6-bit
fields the devices decompose. -/
def vWord.toUInt (w : vWord) : Nat := w.data % UINT

/-- Modelled from the spec: the constant `BYTE_MASK` of `Mem.hpp`, the mask of
one 6-bit field. -/
def BYTE_MASK : Nat := 63

/-- The 6-bit field `k` of a word: bits `6k .. 6k+5` of its value. -/
def vWord.field (w : vWord) (k : Nat) : Nat := (w.toUInt >>> (k * 6)) &&& BYTE_MASK

/-- The character table of `Charset.hpp`, an external collaborator: the two
conversions and the two code points the devices name. -/
structure Charset where
  toVal : Char → Nat
  toChar : Nat → Char
  NULLCHAR : Nat
  SPACE : Nat

/-! ## The environment: files -/

/-- A file system over contents of type `α`. -/
structure FS (α : Type) where
  files : String → Option (List α)
  writable : String → Bool

/-- The file system after a stream opened for output on `path` was written
and closed with content `content`. -/
def FS.write {α : Type} (fs : FS α) (path : String) (content : List α) : FS α :=
  { fs with files := fun p => if p = path then some content else fs.files p }

/-- The effect of `inFile.read((char*) buf, n * sizeof(vWord))`: the first `n`
words of the file overwrite the start of the buffer; a shorter file
overwrites only as many words as it holds. -/
def readInto (buf content : List vWord) (n : Nat) : List vWord :=
  content.take n ++ buf.drop (min n content.length)

/-! ## IODevice -/

/-- The members of `class IODevice`. -/
structure IODevice where
  blockSize : Nat
  numBlocks : Nat
  curPage : Nat
  busyUntil : Nat
  data : List vWord

namespace IODevice

/-- The constructor `IODevice(_blockSize, _numBlocks)`. -/
def new (blockSize numBlocks : Nat) : IODevice :=
  { blockSize := blockSize, numBlocks := numBlocks, curPage := 0, busyUntil := 0,
    data := List.replicate ((blockSize * numBlocks) % UINT) vWord.zero }

/-- The overload `cpyPage(vWord *dst, const uint page)`: copies block `page`
of the mirror to the start of `dst`. -/
def cpyPage (d : IODevice) (dst : List vWord) (page : Nat) : Option (List vWord) :=
  let off := (page * d.blockSize) % UINT
  if off + d.blockSize ≤ d.data.length ∧ d.blockSize ≤ dst.length then
    some ((d.data.drop off).take d.blockSize ++ dst.drop d.blockSize)
  else none

/-- The overload `cpyPage(const uint page, const vWord *src)`: copies the
first `blockSize` words of `src` over block `page` of the mirror. -/
def cpyPageIn (d : IODevice) (page : Nat) (src : List vWord) : Option IODevice :=
  let off := (page * d.blockSize) % UINT
  if off + d.blockSize ≤ d.data.length ∧ d.blockSize ≤ src.length then
    some { d with data := d.data.take off ++ src.take d.blockSize ++
                            d.data.drop (off + d.blockSize) }
  else none

/-- The base `in`: returns false. -/
def «in» (d : IODevice) (addr : List vWord) : Bool × IODevice × List vWord :=
  (false, d, addr)

/-- The base `out`: returns false. -/
def out (d : IODevice) (addr : List vWord) : Bool × IODevice × List vWord :=
  (false, d, addr)

/-- The base `ioc`: returns false. -/
def ioc (d : IODevice) (_m : Nat) : Bool × IODevice :=
  (false, d)

/-- The method `busy()` evaluated when the clock reads `now`. -/
def busy (d : IODevice) (now : Nat) : Bool :=
  decide (now < d.busyUntil)

/-- The assignment `busyUntil = currentTimeMilli() + (blockSize * c)`. -/
def setBusy (d : IODevice) (now c : Nat) : IODevice :=
  { d with busyUntil := (now + (d.blockSize * c) % UINT) % UINT }

/-- The statement `curPage++`. -/
def incPage (d : IODevice) : IODevice :=
  { d with curPage := (d.curPage + 1) % UINT }

end IODevice

/-! ## IOTape -/

/-- The members of `class IOTape`. -/
structure IOTape extends IODevice where
  path : String

namespace IOTape

/-- The constructor `IOTape(_path)`. -/
def new (fs : FS vWord) (path : String) : IOTape :=
  let d := IODevice.new 100 2000
  match fs.files path with
  | some content =>
    { toIODevice := { d with data := readInto d.data content (d.blockSize * d.numBlocks) },
      path := path }
  | none => { toIODevice := d, path := path }

/-- The override `IOTape::in`. -/
def «in» (t : IOTape) (now : Nat) (addr : List vWord) : Option (Bool × IOTape × List vWord) :=
  let d1 := t.toIODevice.setBusy now 100
  match d1.cpyPage addr d1.curPage with
  | none => none
  | some addr1 => some (true, { t with toIODevice := d1.incPage }, addr1)

/-- The override `IOTape::out`. -/
def out (t : IOTape) (now : Nat) (fs : FS vWord) (addr : List vWord) :
    Option (Bool × IOTape × FS vWord) :=
  let d1 := t.toIODevice.setBusy now 150
  match d1.cpyPageIn d1.curPage addr with
  | none => none
  | some d2 =>
    let fs1 := if fs.writable t.path then
        fs.write t.path (d2.data.take (d2.blockSize * d2.numBlocks))
      else fs
    some (true, { t with toIODevice := d2.incPage }, fs1)

/-- The inherited `ioc`. -/
def ioc (t : IOTape) (m : Nat) : Bool × IOTape :=
  ((t.toIODevice.ioc m).1, { t with toIODevice := (t.toIODevice.ioc m).2 })

/-- A valid tape object: the constants of the constructor and a mirror of
`blockSize * numBlocks` words. -/
def WF (t : IOTape) : Prop :=
  t.blockSize = 100 ∧ t.numBlocks = 2000 ∧ t.data.length = 200000

end IOTape

/-! ## IODisk -/

/-- The members of `class IODisk`. -/
structure IODisk extends IODevice where
  path : String

namespace IODisk

/-- The constructor `IODisk(_path)`. -/
def new (fs : FS vWord) (path : String) : IODisk :=
  let d := IODevice.new 100 4000
  match fs.files path with
  | some content =>
    { toIODevice := { d with data := readInto d.data content (d.blockSize * d.numBlocks) },
      path := path }
  | none => { toIODevice := d, path := path }

/-- The override `IODisk::in`. -/
def «in» (t : IODisk) (now : Nat) (addr : List vWord) : Option (Bool × IODisk × List vWord) :=
  let d1 := t.toIODevice.setBusy now 100
  match d1.cpyPage addr d1.curPage with
  | none => none
  | some addr1 => some (true, { t with toIODevice := d1 }, addr1)

/-- The override `IODisk::out`. -/
def out (t : IODisk) (now : Nat) (fs : FS vWord) (addr : List vWord) :
    Option (Bool × IODisk × FS vWord) :=
  let d1 := t.toIODevice.setBusy now 150
  match d1.cpyPageIn d1.curPage addr with
  | none => none
  | some d2 =>
    let fs1 := if fs.writable t.path then
        fs.write t.path (d2.data.take (d2.blockSize * d2.numBlocks))
      else fs
    some (true, { t with toIODevice := d2 }, fs1)

/-- The inherited `ioc`. -/
def ioc (t : IODisk) (m : Nat) : Bool × IODisk :=
  ((t.toIODevice.ioc m).1, { t with toIODevice := (t.toIODevice.ioc m).2 })

/-- A valid disk object: the constants of the constructor, a mirror of
`blockSize * numBlocks` words and the cursor on one of its blocks. -/
def WF (t : IODisk) : Prop :=
  t.blockSize = 100 ∧ t.numBlocks = 4000 ∧ t.data.length = 400000 ∧ t.curPage < t.numBlocks

end IODisk

/-! ## Streams and caller buffers -/

/-- The effect of `inFile.read(&tmp, 1)` and of `inStream.get(tmp)`: the next
character and the rest of the stream; at the end of the stream `tmp` keeps its
value. -/
def readChar (tmp : Char) (stream : List Char) : Char × List Char :=
  match stream with
  | [] => (tmp, [])
  | c :: rest => (c, rest)

/-- The statement `val.data |= x` through the reference `val` to the word at
index `r` of the caller buffer. -/
def orData (buf : List vWord) (r : Nat) (x : Nat) : List vWord :=
  match buf[r]? with
  | some w => buf.set r { w with data := w.data ||| x }
  | none => buf

/-- The outcome of a loop or of a call that is run with a bound on the number
of iterations of its innermost loop. -/
inductive Run (ρ σ : Type) where
  /-- It finished with result `r`. -/
  | done (r : ρ)
  /-- It is still running after the given number of iterations, in state `s`. -/
  | running (s : σ)
  /-- It read outside the caller buffer. -/
  | undefined

/-! ## IOCardReader -/

/-- The members of `class IOCardReader`. -/
structure IOCardReader extends IODevice where
  dir : String

namespace IOCardReader

/-- The constructor `IOCardReader(path)`. -/
def new (path : String) : IOCardReader :=
  { toIODevice := IODevice.new 16 1, dir := path }

/-- One iteration of the loop `for (int j = 0; j < 5; ++j)` on the word at
index `r` of the buffer. -/
def field (cs : Charset) (r j : Nat) (buf : List vWord) (inFile : List Char) :
    List vWord × List Char :=
  let rd := readChar (Char.ofNat 0) inFile
  let v0 := cs.toVal rd.1
  let v := if v0 = cs.NULLCHAR then cs.SPACE else v0
  let buf1 := orData buf r (((v &&& BYTE_MASK) <<< (j * 6)) % UINT)
  if j > 0 ∧ j % 4 = 0 then (buf1, (readChar rd.1 rd.2).2) else (buf1, rd.2)

/-- The loop `for (int j = 0; j < 5; ++j)` from index `j` on, `n` iterations
left. -/
def fields (cs : Charset) (r : Nat) : Nat → Nat → List vWord → List Char →
    List vWord × List Char
  | 0, _, buf, inFile => (buf, inFile)
  | n + 1, j, buf, inFile =>
    fields cs r n (j + 1) (field cs r j buf inFile).1 (field cs r j buf inFile).2

/-- The loop `for (int i = 0; i < blockSize; ++i)`, `n` iterations left, with
`addr` at index `ptr` of the buffer. -/
def words (cs : Charset) : Nat → Nat → List vWord → List Char →
    Option (List vWord × List Char)
  | 0, _, buf, inFile => some (buf, inFile)
  | n + 1, ptr, buf, inFile =>
    if ptr < buf.length then
      let buf1 := buf.set ptr ⟨Sign.P, 0⟩
      words cs n (ptr + 1) (fields cs ptr 5 0 buf1 inFile).1 (fields cs ptr 5 0 buf1 inFile).2
    else none

/-- The override `IOCardReader::in`. -/
def «in» (cs : Charset) (t : IOCardReader) (now : Nat) (fs : FS Char) (addr : List vWord) :
    Option (Bool × IOCardReader × List vWord) :=
  let d1 := t.toIODevice.setBusy now 150
  match fs.files (t.dir ++ toString d1.curPage ++ ".card") with
  | some inFile =>
    match words cs d1.blockSize 0 addr inFile with
    | none => none
    | some res => some (true, { t with toIODevice := d1.incPage }, res.1)
  | none => some (true, { t with toIODevice := d1.incPage }, addr)

/-- The inherited `out`. -/
def out (t : IOCardReader) (addr : List vWord) : Bool × IOCardReader × List vWord :=
  ((t.toIODevice.out addr).1, { t with toIODevice := (t.toIODevice.out addr).2.1 },
    (t.toIODevice.out addr).2.2)

/-- The inherited `ioc`. -/
def ioc (t : IOCardReader) (m : Nat) : Bool × IOCardReader :=
  ((t.toIODevice.ioc m).1, { t with toIODevice := (t.toIODevice.ioc m).2 })

end IOCardReader

/-! ## IOCardWriter -/

/-- The members of `class IOCardWriter`. -/
structure IOCardWriter extends IODevice where
  dir : String

namespace IOCardWriter

/-- The constructor `IOCardWriter(path)`. -/
def new (path : String) : IOCardWriter :=
  { toIODevice := IODevice.new 16 1, dir := path }

/-- The loop `for (int k = 4; k >= 0; -k)` from the value `k`, cut after
`fuel` iterations.  The iteration expression `-k` computes the negation of
`k` and leaves `k` as it is. -/
def kLoop (cs : Charset) (val : Nat) : Nat → Int → List Char → Run (List Char) (List Char)
  | 0, k, outFile => if 0 ≤ k then Run.running outFile else Run.done outFile
  | fuel + 1, k, outFile =>
    if 0 ≤ k then
      kLoop cs val fuel k (outFile ++ [cs.toChar ((val >>> (k.toNat * 6)) &&& BYTE_MASK)])
    else Run.done outFile

/-- The loop `for (int j = 0; j < blockSize; ++j)` from index `j` on, `n`
iterations left, with `addr` at index `ptr` of the buffer. -/
def jLoop (cs : Charset) (fuel : Nat) (addr : List vWord) : Nat → Nat → Nat → List Char →
    Run (Nat × List Char) (List Char)
  | 0, _, ptr, outFile => Run.done (ptr, outFile)
  | n + 1, j, ptr, outFile =>
    match addr[ptr]? with
    | none => Run.undefined
    | some w =>
      match kLoop cs w.toUInt fuel 4 outFile with
      | Run.done out1 =>
        jLoop cs fuel addr n (j + 1) (ptr + 1)
          (if j > 0 ∧ j % 4 = 0 then out1 ++ ['\n'] else out1)
      | Run.running out1 => Run.running out1
      | Run.undefined => Run.undefined

/-- The loop `for (int i = 0; i < numBlocks; ++i)`, `n` iterations left. -/
def iLoop (cs : Charset) (fuel : Nat) (addr : List vWord) (blockSize : Nat) :
    Nat → Nat → List Char → Run (Nat × List Char) (List Char)
  | 0, ptr, outFile => Run.done (ptr, outFile)
  | n + 1, ptr, outFile =>
    match jLoop cs fuel addr blockSize 0 ptr outFile with
    | Run.done res => iLoop cs fuel addr blockSize n res.1 res.2
    | Run.running out1 => Run.running out1
    | Run.undefined => Run.undefined

/-- The override `IOCardWriter::out`, with every run of its innermost loop cut
after `fuel` iterations.  While it runs, the state is the device and the file
system with the characters written so far. -/
def out (cs : Charset) (t : IOCardWriter) (now : Nat) (fs : FS Char) (addr : List vWord)
    (fuel : Nat) : Run (Bool × IOCardWriter × FS Char) (IOCardWriter × FS Char) :=
  let d1 := t.toIODevice.setBusy now 250
  let path := t.dir ++ toString d1.curPage ++ ".card"
  if fs.writable path then
    match iLoop cs fuel addr d1.blockSize d1.numBlocks 0 [] with
    | Run.done res =>
      Run.done (true, { t with toIODevice := d1.incPage }, fs.write path res.2)
    | Run.running out1 => Run.running ({ t with toIODevice := d1 }, fs.write path out1)
    | Run.undefined => Run.undefined
  else Run.done (true, { t with toIODevice := d1.incPage }, fs)

/-- The inherited `in`. -/
def «in» (t : IOCardWriter) (addr : List vWord) : Bool × IOCardWriter × List vWord :=
  ((t.toIODevice.in addr).1, { t with toIODevice := (t.toIODevice.in addr).2.1 },
    (t.toIODevice.in addr).2.2)

/-- The inherited `ioc`. -/
def ioc (t : IOCardWriter) (m : Nat) : Bool × IOCardWriter :=
  ((t.toIODevice.ioc m).1, { t with toIODevice := (t.toIODevice.ioc m).2 })

end IOCardWriter

/-! ## IOLinePrinter -/

/-- The members of `class IOLinePrinter`; the sink `outStream` writes to is
owned by the caller and passed to `out`. -/
structure IOLinePrinter extends IODevice

namespace IOLinePrinter

/-- The constructor `IOLinePrinter(_out)`. -/
def new : IOLinePrinter :=
  { toIODevice := IODevice.new 24 1 }

/-- The loop `for (int j = 4; j >= 0; --j)`: the five characters written for
the value `val`. -/
def wordChars (cs : Charset) (val : Nat) : List Char :=
  [4, 3, 2, 1, 0].map fun j => cs.toChar ((val >>> (j * 6)) &&& BYTE_MASK)

/-- The loop `for (int i = 0; i < blockSize; ++i)`, `n` iterations left, with
`addr` at index `ptr` of the buffer. -/
def words (cs : Charset) (addr : List vWord) : Nat → Nat → List Char → Option (List Char)
  | 0, _, outStream => some outStream
  | n + 1, ptr, outStream =>
    match addr[ptr]? with
    | none => none
    | some w => words cs addr n (ptr + 1) (outStream ++ wordChars cs w.toUInt)

/-- The override `IOLinePrinter::out`; the last component of the result is the
sink. -/
def out (cs : Charset) (t : IOLinePrinter) (now : Nat) (outStream : List Char)
    (addr : List vWord) : Option (Bool × IOLinePrinter × List Char) :=
  let d1 := t.toIODevice.setBusy now 100
  match words cs addr d1.blockSize 0 outStream with
  | none => none
  | some out1 => some (true, { t with toIODevice := d1 }, out1 ++ ['\n'])

/-- The inherited `in`. -/
def «in» (t : IOLinePrinter) (addr : List vWord) : Bool × IOLinePrinter × List vWord :=
  ((t.toIODevice.in addr).1, { t with toIODevice := (t.toIODevice.in addr).2.1 },
    (t.toIODevice.in addr).2.2)

/-- The inherited `ioc`. -/
def ioc (t : IOLinePrinter) (m : Nat) : Bool × IOLinePrinter :=
  ((t.toIODevice.ioc m).1, { t with toIODevice := (t.toIODevice.ioc m).2 })

end IOLinePrinter

/-! ## IOTypeWriter -/

/-- The members of `class IOTypeWriter`; the source `inStream` reads from is
owned by the caller and passed to `in`. -/
structure IOTypeWriter extends IODevice

/-- The locals of `IOTypeWriter::in` that live across its loops: the flag
`esc`, the caller buffer with `addr` as the index `ptr` into it, and what is
left of the input stream. -/
structure TWState where
  esc : Bool
  buf : List vWord
  ptr : Nat
  inStream : List Char

namespace IOTypeWriter

/-- The constructor `IOTypeWriter(_in)`. -/
def new : IOTypeWriter :=
  { toIODevice := IODevice.new 14 1 }

/-- The loop `for (int j = i + 1; j < blockSize; ++j) *addr++ = vWord{}`,
`n` iterations left. -/
def zeroFill : Nat → TWState → Option TWState
  | 0, s => some s
  | n + 1, s =>
    if s.ptr < s.buf.length then
      zeroFill n { s with buf := s.buf.set s.ptr vWord.zero, ptr := s.ptr + 1 }
    else none

/-- The loop `for (int j = 4; j >= 0; --j)` of word `i`, whose reference `val`
is the word at index `r` of the buffer; the first argument is `j + 1`, the
number of iterations left. -/
def fields (cs : Charset) (blockSize i r : Nat) : Nat → TWState → Option TWState
  | 0, s => some s
  | j + 1, s =>
    let rd := readChar (Char.ofNat 0) s.inStream
    if cs.toVal rd.1 = cs.NULLCHAR then
      match zeroFill (blockSize - (i + 1))
          { s with inStream := rd.2,
                   buf := orData s.buf r (((cs.SPACE &&& BYTE_MASK) <<< (j * 6)) % UINT) } with
      | none => none
      | some s2 => some { s2 with esc := true }
    else
      fields cs blockSize i r j
        { s with inStream := rd.2,
                 buf := orData s.buf r (((cs.toVal rd.1 &&& BYTE_MASK) <<< (j * 6)) % UINT) }

/-- The loop `for (int i = 0; !esc && i < blockSize; ++i)` from index `i` on,
`n` iterations left. -/
def words (cs : Charset) (blockSize : Nat) : Nat → Nat → TWState → Option TWState
  | 0, _, s => some s
  | n + 1, i, s =>
    if s.esc then some s
    else if s.ptr < s.buf.length then
      match fields cs blockSize i s.ptr 5
          { s with buf := s.buf.set s.ptr vWord.zero, ptr := s.ptr + 1 } with
      | none => none
      | some s2 => words cs blockSize n (i + 1) s2
    else none

/-- The override `IOTypeWriter::in`; the result holds the rest of the input
stream and the caller buffer. -/
def «in» (cs : Charset) (t : IOTypeWriter) (inStream : List Char) (addr : List vWord) :
    Option (Bool × IOTypeWriter × List Char × List vWord) :=
  match words cs t.blockSize t.blockSize 0
      { esc := false, buf := addr, ptr := 0, inStream := inStream } with
  | none => none
  | some s => some (true, t, s.inStream, s.buf)

/-- The inherited `out`. -/
def out (t : IOTypeWriter) (addr : List vWord) : Bool × IOTypeWriter × List vWord :=
  ((t.toIODevice.out addr).1, { t with toIODevice := (t.toIODevice.out addr).2.1 },
    (t.toIODevice.out addr).2.2)

/-- The inherited `ioc`. -/
def ioc (t : IOTypeWriter) (m : Nat) : Bool × IOTypeWriter :=
  ((t.toIODevice.ioc m).1, { t with toIODevice := (t.toIODevice.ioc m).2 })

end IOTypeWriter

/-! ## IOPaperTape -/

/-- The members of `class IOPaperTape`. -/
structure IOPaperTape extends IODevice where
  path : String

namespace IOPaperTape

/-- The constructor `IOPaperTape(_path)`. -/
def new (path : String) : IOPaperTape :=
  { toIODevice := IODevice.new 14 1000, path := path }

/-- The loop `for (int k = 0; k < 5; ++k)`: the five characters written for
the value `val`. -/
def wordChars (cs : Charset) (val : Nat) : List Char :=
  [0, 1, 2, 3, 4].map fun k => cs.toChar (((val <<< (k * 6)) % UINT) &&& BYTE_MASK)

/-- The loop `for (int j = 0; j < blockSize; ++j)`, `n` iterations left, with
`addr` at index `ptr` of the buffer. -/
def jLoop (cs : Charset) (addr : List vWord) : Nat → Nat → List Char →
    Option (Nat × List Char)
  | 0, ptr, outFile => some (ptr, outFile)
  | n + 1, ptr, outFile =>
    match addr[ptr]? with
    | none => none
    | some w => jLoop cs addr n (ptr + 1) (outFile ++ wordChars cs w.toUInt)

/-- The loop `for (int i = 0; i < numBlocks; ++i)`, `n` iterations left. -/
def iLoop (cs : Charset) (addr : List vWord) (blockSize : Nat) : Nat → Nat → List Char →
    Option (Nat × List Char)
  | 0, ptr, outFile => some (ptr, outFile)
  | n + 1, ptr, outFile =>
    match jLoop cs addr blockSize ptr outFile with
    | none => none
    | some res => iLoop cs addr blockSize n res.1 res.2

/-- The override `IOPaperTape::out`. -/
def out (cs : Charset) (t : IOPaperTape) (now : Nat) (fs : FS Char) (addr : List vWord) :
    Option (Bool × IOPaperTape × FS Char) :=
  let d1 := t.toIODevice.setBusy now 200
  if fs.writable t.path then
    match iLoop cs addr d1.blockSize d1.numBlocks 0 [] with
    | none => none
    | some res => some (true, { t with toIODevice := d1 }, fs.write t.path res.2)
  else some (true, { t with toIODevice := d1 }, fs)

/-- The inherited `in`. -/
def «in» (t : IOPaperTape) (addr : List vWord) : Bool × IOPaperTape × List vWord :=
  ((t.toIODevice.in addr).1, { t with toIODevice := (t.toIODevice.in addr).2.1 },
    (t.toIODevice.in addr).2.2)

/-- The inherited `ioc`. -/
def ioc (t : IOPaperTape) (m : Nat) : Bool × IOPaperTape :=
  ((t.toIODevice.ioc m).1, { t with toIODevice := (t.toIODevice.ioc m).2 })

end IOPaperTape

/-! ## Closed forms of the typewriter loops -/

/-- The magnitude the field loop of the typewriter builds from the magnitude
`d` when it stores the codes of the characters of `l` in the fields `n - 1`,
`n - 2`, and so on, one field per character, as long as fields and characters
last. -/
def packFields (cs : Charset) : Nat → List Char → Nat → Nat
  | 0, _, d => d
  | _ + 1, [], d => d
  | j + 1, c :: l, d =>
    packFields cs j l (d ||| (((cs.toVal c &&& BYTE_MASK) <<< (j * 6)) % UINT))

/-- The words the typewriter builds from the first `5 * k` characters of `l`,
five characters to a word. -/
def fullWords (cs : Charset) : Nat → List Char → List vWord
  | 0, _ => []
  | k + 1, l => ⟨Sign.P, packFields cs 5 l 0⟩ :: fullWords cs k (l.drop 5)

/-- The function `packFields` on codes instead of characters. -/
def packCodes : Nat → List Nat → Nat → Nat
  | 0, _, d => d
  | _ + 1, [], d => d
  | j + 1, x :: xs, d => packCodes j xs (d ||| (((x &&& BYTE_MASK) <<< (j * 6)) % UINT))

/-- The number whose base-64 digits, from digit `n - 1` downwards, are the
codes `xs` reduced to six bits. -/
def codeVal : Nat → List Nat → Nat
  | 0, _ => 0
  | _ + 1, [] => 0
  | j + 1, x :: xs => (x % 64) * 64 ^ j + codeVal j xs

/-- Character `q` of a stream as the devices read it: past the end of the
stream a read leaves the zero-initialised `tmp`, the character 0. -/
def charAt (l : List Char) (q : Nat) : Char := l.getD q (Char.ofNat 0)

/-! ## Closed forms of the card reader loops -/

/-- The code the card reader stores for a character: its `toVal`, with
`NULLCHAR` replaced by `SPACE`. -/
def readerCode (cs : Charset) (c : Char) : Nat :=
  if cs.toVal c = cs.NULLCHAR then cs.SPACE else cs.toVal c

/-- The magnitude the field loop of the card reader builds from zero out of
the five characters of the file `X` from position `c` on, the first
character in field 0. -/
def readerData (cs : Charset) (X : List Char) (c : Nat) : Nat :=
  ((((0 ||| (((readerCode cs (charAt X c) &&& BYTE_MASK) <<< (0 * 6)) % UINT))
    ||| (((readerCode cs (charAt X (c + 1)) &&& BYTE_MASK) <<< (1 * 6)) % UINT))
    ||| (((readerCode cs (charAt X (c + 2)) &&& BYTE_MASK) <<< (2 * 6)) % UINT))
    ||| (((readerCode cs (charAt X (c + 3)) &&& BYTE_MASK) <<< (3 * 6)) % UINT))
    ||| (((readerCode cs (charAt X (c + 4)) &&& BYTE_MASK) <<< (4 * 6)) % UINT)

/-- The words the card reader builds from the file `X` from position `c` on,
six characters of the file to a word. -/
def readerWords (cs : Charset) (X : List Char) : Nat → Nat → List vWord
  | 0, _ => []
  | n + 1, c => ⟨Sign.P, readerData cs X c⟩ :: readerWords cs X n (c + 6)

/-! ## Successive reads of the tape -/

/-- The calls `in` issued `n` times in a row on a tape, each at clock time
`now` into the buffer `addr`: the tape after the last call, and `none` when
one of the calls accesses memory outside the mirror. -/
def IOTape.inTimes (now : Nat) (addr : List vWord) : Nat → IOTape → Option IOTape
  | 0, t => some t
  | n + 1, t =>
    match t.in now addr with
    | none => none
    | some res => IOTape.inTimes now addr n res.2.1

/-! ## Sample environment for the concrete instances -/

/-- A file system without files in which every path can be opened for
writing. -/
def emptyFS (α : Type) : FS α :=
  { files := fun _ => none, writable := fun _ => true }

/-- A file system without files in which no path can be opened for writing. -/
def lockedFS (α : Type) : FS α :=
  { files := fun _ => none, writable := fun _ => false }

/-- The buffer of the tape scenario: 100 words of value 42. -/
def buf42 : List vWord := List.replicate 100 ⟨Sign.P, 42⟩

/-- A sample character table: blank is code 0, the letters are 1 to 26, the
digits are 30 to 39, and every other character is the unassigned code 63. -/
def sampleCharset : Charset :=
  { toVal := fun c =>
      if c = ' ' then 0
      else if 65 ≤ c.toNat ∧ c.toNat ≤ 90 then c.toNat - 64
      else if 48 ≤ c.toNat ∧ c.toNat ≤ 57 then c.toNat - 18
      else 63,
    toChar := fun n =>
      if n = 0 then ' '
      else if n ≤ 26 then Char.ofNat (n + 64)
      else if 30 ≤ n ∧ n ≤ 39 then Char.ofNat (n + 18)
      else '?',
    NULLCHAR := 63,
    SPACE := 0 }

/-- A typed line: HELLO WORLD and the end of the line, which the sample
table maps to the unassigned code. -/
def helloLine : List Char :=
  ['H', 'E', 'L', 'L', 'O', ' ', 'W', 'O', 'R', 'L', 'D', '\n']

/-- A stream of 71 letters: 70 times A, then B. -/
def letters71 : List Char := List.replicate 70 'A' ++ ['B']

/-! ## Cursor of the tape and of the disk -/

theorem readInto_length (buf content : List vWord) (n : Nat) (h : buf.length = n) :
    (readInto buf content n).length = n := by
  simp only [readInto, List.length_append, List.length_take, List.length_drop]
  omega

theorem IODevice.new_data_length (b n : Nat) (h : b * n < UINT) :
    (IODevice.new b n).data.length = b * n := by
  simp only [IODevice.new, List.length_replicate, Nat.mod_eq_of_lt h]

/-- A freshly constructed tape is valid and its cursor is 0, whatever the
file system holds. -/
theorem IOTape_new_WF (fs : FS vWord) (path : String) :
    (IOTape.new fs path).WF ∧ (IOTape.new fs path).curPage = 0 := by
  have hl : (IODevice.new 100 2000).data.length = 200000 :=
    IODevice.new_data_length 100 2000 (by simp only [UINT]; norm_num)
  unfold IOTape.new
  cases fs.files path with
  | none => exact ⟨⟨rfl, rfl, hl⟩, rfl⟩
  | some content =>
    exact ⟨⟨rfl, rfl, readInto_length _ content _ hl⟩, rfl⟩

/-- A freshly constructed disk is valid and its cursor is 0, whatever the
file system holds. -/
theorem IODisk_new_WF (fs : FS vWord) (path : String) :
    (IODisk.new fs path).WF ∧ (IODisk.new fs path).curPage = 0 := by
  have hl : (IODevice.new 100 4000).data.length = 400000 :=
    IODevice.new_data_length 100 4000 (by simp only [UINT]; norm_num)
  unfold IODisk.new
  cases fs.files path with
  | none => exact ⟨⟨rfl, rfl, hl, by show (0 : Nat) < 4000; omega⟩, rfl⟩
  | some content =>
    exact ⟨⟨rfl, rfl, readInto_length _ content _ hl, by show (0 : Nat) < 4000; omega⟩, rfl⟩

theorem IODevice.setBusy_curPage (d : IODevice) (now c : Nat) :
    (d.setBusy now c).curPage = d.curPage := rfl

theorem IODevice.setBusy_blockSize (d : IODevice) (now c : Nat) :
    (d.setBusy now c).blockSize = d.blockSize := rfl

theorem IODevice.setBusy_data (d : IODevice) (now c : Nat) :
    (d.setBusy now c).data = d.data := rfl

theorem IODevice.setBusy_numBlocks (d : IODevice) (now c : Nat) :
    (d.setBusy now c).numBlocks = d.numBlocks := rfl

/-- Inside the mirror and with a full caller buffer, the read overload of
`cpyPage` is defined. -/
theorem IODevice.cpyPage_eq (d : IODevice) (dst : List vWord) (page : Nat)
    (h1 : page * d.blockSize + d.blockSize ≤ d.data.length)
    (h2 : d.data.length < UINT) (h3 : d.blockSize ≤ dst.length) :
    d.cpyPage dst page =
      some ((d.data.drop (page * d.blockSize)).take d.blockSize ++ dst.drop d.blockSize) := by
  have hoff : (page * d.blockSize) % UINT = page * d.blockSize :=
    Nat.mod_eq_of_lt (by omega)
  unfold IODevice.cpyPage
  simp only [hoff]
  rw [if_pos ⟨h1, h3⟩]

/-- Inside the mirror and with a full caller buffer, the write overload of
`cpyPage` is defined: it replaces the block and nothing else. -/
theorem IODevice.cpyPageIn_eq (d : IODevice) (page : Nat) (src : List vWord)
    (h1 : page * d.blockSize + d.blockSize ≤ d.data.length)
    (h2 : d.data.length < UINT) (h3 : d.blockSize ≤ src.length) :
    ∃ d2 : IODevice, d.cpyPageIn page src = some d2 ∧
      d2.curPage = d.curPage ∧ d2.blockSize = d.blockSize ∧ d2.numBlocks = d.numBlocks ∧
      d2.busyUntil = d.busyUntil ∧
      d2.data = d.data.take (page * d.blockSize) ++ src.take d.blockSize ++
                  d.data.drop (page * d.blockSize + d.blockSize) := by
  have hoff : (page * d.blockSize) % UINT = page * d.blockSize :=
    Nat.mod_eq_of_lt (by omega)
  unfold IODevice.cpyPageIn
  simp only [hoff]
  rw [if_pos ⟨h1, h3⟩]
  exact ⟨_, rfl, rfl, rfl, rfl, rfl, rfl⟩

/-- What `IOTape::in` returns on a valid tape whose cursor is on a block. -/
theorem IOTape_in_eq (t : IOTape) (now : Nat) (addr : List vWord)
    (hw : t.WF) (hp : t.curPage < 2000) (ha : addr.length = 100) :
    t.in now addr =
      some (true, { t with toIODevice := (t.toIODevice.setBusy now 100).incPage },
        (t.data.drop (t.curPage * 100)).take 100 ++ addr.drop 100) := by
  obtain ⟨hb, _, hl⟩ := hw
  have h := IODevice.cpyPage_eq (t.toIODevice.setBusy now 100) addr t.curPage
    (by simp only [IODevice.setBusy_blockSize, IODevice.setBusy_data, hb, hl]; omega)
    (by simp only [IODevice.setBusy_data, hl, UINT]; norm_num)
    (by simp only [IODevice.setBusy_blockSize, hb, ha]; omega)
  simp only [IODevice.setBusy_blockSize, IODevice.setBusy_data, hb] at h
  simp only [IOTape.in, IODevice.setBusy_curPage, h]

/-- What `IOTape::out` returns on a valid tape whose cursor is on a block. -/
theorem IOTape_out_eq (t : IOTape) (now : Nat) (fs : FS vWord) (addr : List vWord)
    (hw : t.WF) (hp : t.curPage < 2000) (ha : addr.length = 100) :
    ∃ d2 : IODevice,
      d2.curPage = t.curPage ∧ d2.blockSize = t.blockSize ∧ d2.numBlocks = t.numBlocks ∧
      d2.busyUntil = (t.toIODevice.setBusy now 150).busyUntil ∧
      d2.data = t.data.take (t.curPage * 100) ++ addr.take 100 ++
                  t.data.drop (t.curPage * 100 + 100) ∧
      t.out now fs addr =
        some (true, { t with toIODevice := d2.incPage },
          if fs.writable t.path then
            fs.write t.path (d2.data.take (d2.blockSize * d2.numBlocks))
          else fs) := by
  obtain ⟨hb, _, hl⟩ := hw
  have h := IODevice.cpyPageIn_eq (t.toIODevice.setBusy now 150) t.curPage addr
    (by simp only [IODevice.setBusy_blockSize, IODevice.setBusy_data, hb, hl]; omega)
    (by simp only [IODevice.setBusy_data, hl, UINT]; norm_num)
    (by simp only [IODevice.setBusy_blockSize, hb, ha]; omega)
  obtain ⟨d2, h, e1, e2, e3, e4, e5⟩ := h
  refine ⟨d2, e1, e2, e3, e4, ?_, ?_⟩
  · simpa only [IODevice.setBusy_blockSize, IODevice.setBusy_data, hb] using e5
  · simp only [IOTape.out, IODevice.setBusy_curPage, h]

/-- What `IODisk::in` returns on a valid disk. -/
theorem IODisk_in_eq (t : IODisk) (now : Nat) (addr : List vWord)
    (hw : t.WF) (ha : addr.length = 100) :
    t.in now addr =
      some (true, { t with toIODevice := t.toIODevice.setBusy now 100 },
        (t.data.drop (t.curPage * 100)).take 100 ++ addr.drop 100) := by
  obtain ⟨hb, hn, hl, hp⟩ := hw
  rw [hn] at hp
  have h := IODevice.cpyPage_eq (t.toIODevice.setBusy now 100) addr t.curPage
    (by simp only [IODevice.setBusy_blockSize, IODevice.setBusy_data, hb, hl]; omega)
    (by simp only [IODevice.setBusy_data, hl, UINT]; norm_num)
    (by simp only [IODevice.setBusy_blockSize, hb, ha]; omega)
  simp only [IODevice.setBusy_blockSize, IODevice.setBusy_data, hb] at h
  simp only [IODisk.in, IODevice.setBusy_curPage, h]

/-- What `IODisk::out` returns on a valid disk whose cursor is on a block. -/
theorem IODisk_out_eq (t : IODisk) (now : Nat) (fs : FS vWord) (addr : List vWord)
    (hw : t.WF) (ha : addr.length = 100) :
    ∃ d2 : IODevice,
      d2.curPage = t.curPage ∧ d2.blockSize = t.blockSize ∧ d2.numBlocks = t.numBlocks ∧
      d2.busyUntil = (t.toIODevice.setBusy now 150).busyUntil ∧
      d2.data = t.data.take (t.curPage * 100) ++ addr.take 100 ++
                  t.data.drop (t.curPage * 100 + 100) ∧
      t.out now fs addr =
        some (true, { t with toIODevice := d2 },
          if fs.writable t.path then
            fs.write t.path (d2.data.take (d2.blockSize * d2.numBlocks))
          else fs) := by
  obtain ⟨hb, hn, hl, hp⟩ := hw
  rw [hn] at hp
  have h := IODevice.cpyPageIn_eq (t.toIODevice.setBusy now 150) t.curPage addr
    (by simp only [IODevice.setBusy_blockSize, IODevice.setBusy_data, hb, hl]; omega)
    (by simp only [IODevice.setBusy_data, hl, UINT]; norm_num)
    (by simp only [IODevice.setBusy_blockSize, hb, ha]; omega)
  obtain ⟨d2, h, e1, e2, e3, e4, e5⟩ := h
  refine ⟨d2, e1, e2, e3, e4, ?_, ?_⟩
  · simpa only [IODevice.setBusy_blockSize, IODevice.setBusy_data, hb] using e5
  · simp only [IODisk.out, IODevice.setBusy_curPage, h]

/-- Claim C1. On a valid tape whose cursor is below 2000, `in` and `out` with
a 100-word buffer return true and leave `curPage` one higher; on a valid disk
`in` and `out` with a 100-word buffer return true and leave `curPage` as it
was. -/
theorem tape_advances_disk_stays (t : IOTape) (d : IODisk) (now : Nat) (fs : FS vWord)
    (addr : List vWord) (ht : t.WF) (hp : t.curPage < 2000) (hd : d.WF)
    (ha : addr.length = 100) :
    (∃ t1 addr1, t.in now addr = some (true, t1, addr1) ∧ t1.curPage = t.curPage + 1) ∧
    (∃ t1 fs1, t.out now fs addr = some (true, t1, fs1) ∧ t1.curPage = t.curPage + 1) ∧
    (∃ d1 addr1, d.in now addr = some (true, d1, addr1) ∧ d1.curPage = d.curPage) ∧
    (∃ d1 fs1, d.out now fs addr = some (true, d1, fs1) ∧ d1.curPage = d.curPage) := by
  have hmod : (t.curPage + 1) % UINT = t.curPage + 1 :=
    Nat.mod_eq_of_lt (by simp only [UINT]; omega)
  refine ⟨⟨_, _, IOTape_in_eq t now addr ht hp ha, ?_⟩, ?_, ⟨_, _, IODisk_in_eq d now addr hd ha, rfl⟩, ?_⟩
  · simp only [IODevice.incPage, IODevice.setBusy_curPage, hmod]
  · obtain ⟨d2, hc, _, _, _, _, hout⟩ := IOTape_out_eq t now fs addr ht hp ha
    refine ⟨_, _, hout, ?_⟩
    simp only [IODevice.incPage, hc, hmod]
  · obtain ⟨d2, hc, _, _, _, _, hout⟩ := IODisk_out_eq d now fs addr hd ha
    exact ⟨_, _, hout, hc⟩

/-- Claim C1 at a fresh tape and a fresh disk, with the buffer of 100 words
of value 42. -/
theorem tape_advances_disk_stays_witness :
    (∃ t1 addr1, (IOTape.new (emptyFS vWord) "t.dat").in 0 buf42 = some (true, t1, addr1) ∧
      t1.curPage = (IOTape.new (emptyFS vWord) "t.dat").curPage + 1) ∧
    (∃ t1 fs1, (IOTape.new (emptyFS vWord) "t.dat").out 0 (emptyFS vWord) buf42 =
        some (true, t1, fs1) ∧
      t1.curPage = (IOTape.new (emptyFS vWord) "t.dat").curPage + 1) ∧
    (∃ d1 addr1, (IODisk.new (emptyFS vWord) "d.dat").in 0 buf42 = some (true, d1, addr1) ∧
      d1.curPage = (IODisk.new (emptyFS vWord) "d.dat").curPage) ∧
    (∃ d1 fs1, (IODisk.new (emptyFS vWord) "d.dat").out 0 (emptyFS vWord) buf42 =
        some (true, d1, fs1) ∧
      d1.curPage = (IODisk.new (emptyFS vWord) "d.dat").curPage) :=
  tape_advances_disk_stays (IOTape.new (emptyFS vWord) "t.dat")
    (IODisk.new (emptyFS vWord) "d.dat") 0 (emptyFS vWord) buf42
    (IOTape_new_WF _ _).1 (by decide) (IODisk_new_WF _ _).1 (by simp [buf42])

/-! ## Whole-file round trip of the tape and of the disk -/

theorem FS.write_files_self {α : Type} (fs : FS α) (path : String) (content : List α) :
    (fs.write path content).files path = some content := by
  simp only [FS.write, if_true]

/-- Reading a file that holds at least a whole mirror replaces the mirror by
the first `n` words of the file. -/
theorem readInto_full (buf content : List vWord) (n : Nat) (h : content.length = n)
    (hb : buf.length = n) : readInto buf content n = content := by
  have h1 : content.take n = content := List.take_of_length_le (by omega)
  have h2 : buf.drop (min n content.length) = [] := List.drop_of_length_le (by omega)
  simp only [readInto, h1, h2, List.append_nil]

/-- The mirror of a tape constructed on a file that holds 200000 words is the
content of that file. -/
theorem IOTape_new_of_file (fs : FS vWord) (path : String) (content : List vWord)
    (hf : fs.files path = some content) (hl : content.length = 200000) :
    (IOTape.new fs path).data = content ∧ (IOTape.new fs path).curPage = 0 ∧
      (IOTape.new fs path).WF := by
  have hn : (IODevice.new 100 2000).data.length = 200000 :=
    IODevice.new_data_length 100 2000 (by simp only [UINT]; norm_num)
  refine ⟨?_, (IOTape_new_WF fs path).2, (IOTape_new_WF fs path).1⟩
  unfold IOTape.new
  rw [hf]
  exact readInto_full _ content _ hl hn

/-- The mirror of a disk constructed on a file that holds 400000 words is the
content of that file. -/
theorem IODisk_new_of_file (fs : FS vWord) (path : String) (content : List vWord)
    (hf : fs.files path = some content) (hl : content.length = 400000) :
    (IODisk.new fs path).data = content := by
  have hn : (IODevice.new 100 4000).data.length = 400000 :=
    IODevice.new_data_length 100 4000 (by simp only [UINT]; norm_num)
  unfold IODisk.new
  rw [hf]
  exact readInto_full _ content _ hl hn

/-- Replacing one block of a mirror keeps its length. -/
theorem block_replace_length (data src : List vWord) (off k : Nat)
    (h : off + k ≤ data.length) (hs : k ≤ src.length) :
    (data.take off ++ src.take k ++ data.drop (off + k)).length = data.length := by
  simp only [List.length_append, List.length_take, List.length_drop]
  omega

/-- Claim C2. When the backing file can be opened for writing, `out` at page
`p` leaves the whole mirror in the file, so that a fresh instance constructed
on the same path has the writer's mirror word for word (tape and disk); and
on a tape whose cursor is 0, `out b` followed by constructing a new tape on
the path and `in` into a fresh 100-word buffer yields exactly `b`. -/
theorem whole_file_round_trip (t : IOTape) (d : IODisk) (now now2 : Nat) (fs : FS vWord)
    (b fresh : List vWord) (ht : t.WF) (hp : t.curPage < 2000) (hd : d.WF)
    (hb : b.length = 100) (hfresh : fresh.length = 100)
    (hwt : fs.writable t.path = true) (hwd : fs.writable d.path = true) :
    (∃ t1 fs1, t.out now fs b = some (true, t1, fs1) ∧
      fs1.files t.path = some t1.data ∧ (IOTape.new fs1 t.path).data = t1.data) ∧
    (∃ d1 fs1, d.out now fs b = some (true, d1, fs1) ∧
      fs1.files d.path = some d1.data ∧ (IODisk.new fs1 d.path).data = d1.data) ∧
    (t.curPage = 0 → ∃ t1 fs1 t2, t.out now fs b = some (true, t1, fs1) ∧
      (IOTape.new fs1 t.path).in now2 fresh = some (true, t2, b)) := by
  obtain ⟨d2, hc, hbs, hnb, _, hdata, hout⟩ := IOTape_out_eq t now fs b ht hp hb
  obtain ⟨e2, ec, ebs, enb, _, edata, eout⟩ := IODisk_out_eq d now fs b hd hb
  have htl : d2.data.length = 200000 := by
    rw [hdata, block_replace_length _ _ _ _ (by rw [ht.2.2]; omega) (by omega)]
    exact ht.2.2
  have hdl : e2.data.length = 400000 := by
    have := hd.2.2.2
    rw [hd.2.1] at this
    rw [edata, block_replace_length _ _ _ _ (by rw [hd.2.2.1]; omega) (by omega)]
    exact hd.2.2.1
  have htake : d2.data.take (d2.blockSize * d2.numBlocks) = d2.data :=
    List.take_of_length_le (by rw [hbs, hnb, ht.1, ht.2.1, htl])
  have etake : e2.data.take (e2.blockSize * e2.numBlocks) = e2.data :=
    List.take_of_length_le (by rw [ebs, enb, hd.1, hd.2.1, hdl])
  rw [if_pos hwt, htake] at hout
  rw [if_pos hwd, etake] at eout
  have hfile : (fs.write t.path d2.data).files t.path = some d2.data :=
    FS.write_files_self _ _ _
  have hnew := IOTape_new_of_file _ t.path d2.data hfile htl
  refine ⟨⟨_, _, hout, hfile, hnew.1⟩,
    ⟨_, _, eout, FS.write_files_self _ _ _,
      IODisk_new_of_file _ d.path e2.data (FS.write_files_self _ _ _) hdl⟩, ?_⟩
  intro h0
  have hin := IOTape_in_eq (IOTape.new (fs.write t.path d2.data) t.path) now2 fresh
    hnew.2.2 (by rw [hnew.2.1]; omega) hfresh
  have hb1 : b.take 100 = b := List.take_of_length_le (by omega)
  have hf1 : fresh.drop 100 = [] := List.drop_of_length_le (by omega)
  have hres : List.take 100
        (List.drop ((IOTape.new (fs.write t.path d2.data) t.path).curPage * 100)
          (IOTape.new (fs.write t.path d2.data) t.path).data) ++ List.drop 100 fresh = b := by
    rw [hnew.1, hnew.2.1, hdata, h0]
    simp only [Nat.zero_mul, List.take_zero, List.nil_append, List.drop_zero, hb1, hf1,
      List.append_nil]
    rw [List.take_append_of_le_length (by omega), hb1]
  rw [hres] at hin
  exact ⟨_, _, _, hout, hin⟩

/-- Claim C2 at the scenario of the spec: a fresh tape on `t.dat`, a fresh
disk, and the buffer of 100 words of value 42, read back into a buffer of 100
zero words. -/
theorem whole_file_round_trip_witness :
    (∃ t1 fs1, (IOTape.new (emptyFS vWord) "t.dat").out 0 (emptyFS vWord) buf42 =
        some (true, t1, fs1) ∧
      fs1.files (IOTape.new (emptyFS vWord) "t.dat").path = some t1.data ∧
      (IOTape.new fs1 (IOTape.new (emptyFS vWord) "t.dat").path).data = t1.data) ∧
    (∃ d1 fs1, (IODisk.new (emptyFS vWord) "d.dat").out 0 (emptyFS vWord) buf42 =
        some (true, d1, fs1) ∧
      fs1.files (IODisk.new (emptyFS vWord) "d.dat").path = some d1.data ∧
      (IODisk.new fs1 (IODisk.new (emptyFS vWord) "d.dat").path).data = d1.data) ∧
    ((IOTape.new (emptyFS vWord) "t.dat").curPage = 0 → ∃ t1 fs1 t2,
      (IOTape.new (emptyFS vWord) "t.dat").out 0 (emptyFS vWord) buf42 = some (true, t1, fs1) ∧
      (IOTape.new fs1 (IOTape.new (emptyFS vWord) "t.dat").path).in 20000
          (List.replicate 100 vWord.zero) = some (true, t2, buf42)) :=
  whole_file_round_trip (IOTape.new (emptyFS vWord) "t.dat")
    (IODisk.new (emptyFS vWord) "d.dat") 0 20000 (emptyFS vWord) buf42
    (List.replicate 100 vWord.zero)
    (IOTape_new_WF _ _).1 (by decide) (IODisk_new_WF _ _).1 (by simp [buf42])
    (by simp) rfl rfl

/-! ## Line printer -/

/-- Indexing a concatenation of groups of five. -/
theorem flatMap_five_getElem? {α β : Type} (f : α → List β) (hf : ∀ a, (f a).length = 5) :
    ∀ (l : List α) (i m : Nat), i < l.length → m < 5 →
      (l.flatMap f)[5 * i + m]? = (l[i]?).bind fun a => (f a)[m]?
  | [], i, m, hi, _ => by simp at hi
  | a :: l, 0, m, _, hm => by
    simp only [List.flatMap_cons, Nat.mul_zero, Nat.zero_add, List.getElem?_cons_zero,
      Option.some_bind]
    rw [List.getElem?_append_left (by rw [hf]; exact hm)]
  | a :: l, i + 1, m, hi, hm => by
    have hi1 : i < l.length := by simpa using hi
    simp only [List.flatMap_cons, List.getElem?_cons_succ]
    rw [List.getElem?_append_right (by rw [hf]; omega), hf]
    have : 5 * (i + 1) + m - 5 = 5 * i + m := by omega
    rw [this]
    exact flatMap_five_getElem? f hf l i m hi1 hm

theorem flatMap_five_length {α β : Type} (f : α → List β) (hf : ∀ a, (f a).length = 5) :
    ∀ l : List α, (l.flatMap f).length = 5 * l.length
  | [] => rfl
  | a :: l => by
    simp only [List.flatMap_cons, List.length_append, hf, List.length_cons,
      flatMap_five_length f hf l]
    omega

/-- The word loop of the printer appends the characters of the `n` words from
`ptr` on. -/
theorem IOLinePrinter_words_eq (cs : Charset) (addr : List vWord) :
    ∀ (n ptr : Nat) (outStream : List Char), ptr + n ≤ addr.length →
      IOLinePrinter.words cs addr n ptr outStream =
        some (outStream ++
          ((addr.drop ptr).take n).flatMap fun w => IOLinePrinter.wordChars cs w.toUInt)
  | 0, ptr, outStream, _ => by
    simp only [IOLinePrinter.words, List.take_zero, List.flatMap_nil, List.append_nil]
  | n + 1, ptr, outStream, h => by
    have hp : ptr < addr.length := by omega
    simp only [IOLinePrinter.words, List.getElem?_eq_getElem hp]
    rw [IOLinePrinter_words_eq cs addr n (ptr + 1) _ (by omega),
      List.drop_eq_getElem_cons hp, List.take_succ_cons, List.flatMap_cons,
      List.append_assoc]

theorem IOLinePrinter_wordChars_length (cs : Charset) (val : Nat) :
    (IOLinePrinter.wordChars cs val).length = 5 := rfl

/-- Character `m` of the five written for a word is the character of its
field `4 - m`. -/
theorem IOLinePrinter_wordChars_getElem? (cs : Charset) (w : vWord) (m : Nat) (hm : m < 5) :
    (IOLinePrinter.wordChars cs w.toUInt)[m]? = some (cs.toChar (w.field (4 - m))) := by
  interval_cases m <;> simp [IOLinePrinter.wordChars, vWord.field]

/-- What `IOLinePrinter::out` returns on a 24-word buffer. -/
theorem IOLinePrinter_out_eq (cs : Charset) (t : IOLinePrinter) (now : Nat)
    (outStream : List Char) (addr : List vWord)
    (hbs : t.blockSize = 24) (ha : addr.length = 24) :
    t.out cs now outStream addr =
      some (true, { t with toIODevice := t.toIODevice.setBusy now 100 },
        outStream ++ ((addr.flatMap fun w => IOLinePrinter.wordChars cs w.toUInt) ++ ['\n'])) := by
  have hw := IOLinePrinter_words_eq cs addr 24 0 outStream (by omega)
  have htk : (addr.drop 0).take 24 = addr := by
    rw [List.drop_zero]; exact List.take_of_length_le (by omega)
  rw [htk] at hw
  simp only [IOLinePrinter.out, IODevice.setBusy_blockSize, hbs, hw, List.append_assoc]

/-- Claim C9. For every 24-word buffer, `IOLinePrinter::out` returns true and
appends to the sink exactly 121 characters: the character at offset `5i + m`
is `toChar` of field `4 - m` of word `i`, and the character at offset 120 is
a newline. -/
theorem line_printer_out (cs : Charset) (t : IOLinePrinter) (now : Nat)
    (outStream : List Char) (addr : List vWord)
    (hbs : t.blockSize = 24) (ha : addr.length = 24) :
    ∃ t1 chars, t.out cs now outStream addr = some (true, t1, outStream ++ chars) ∧
      chars.length = 121 ∧
      (∀ i m, i < 24 → m < 5 →
        chars[5 * i + m]? = (addr[i]?).map fun w => cs.toChar (w.field (4 - m))) ∧
      chars[120]? = some '\n' := by
  have hf : ∀ w : vWord, ((fun w : vWord => IOLinePrinter.wordChars cs w.toUInt) w).length = 5 :=
    fun w => IOLinePrinter_wordChars_length cs w.toUInt
  have hlen : (addr.flatMap fun w => IOLinePrinter.wordChars cs w.toUInt).length = 120 := by
    rw [flatMap_five_length (fun w : vWord => IOLinePrinter.wordChars cs w.toUInt) hf addr, ha]
  refine ⟨{ t with toIODevice := t.toIODevice.setBusy now 100 },
    (addr.flatMap fun w => IOLinePrinter.wordChars cs w.toUInt) ++ ['\n'], ?_, ?_, ?_, ?_⟩
  · exact IOLinePrinter_out_eq cs t now outStream addr hbs ha
  · simp only [List.length_append, hlen, List.length_singleton]
  · intro i m hi hm
    rw [List.getElem?_append_left (by rw [hlen]; omega),
      flatMap_five_getElem? (fun w : vWord => IOLinePrinter.wordChars cs w.toUInt) hf addr i m
        (by omega) hm]
    have hi2 : i < addr.length := by omega
    simp only [List.getElem?_eq_getElem hi2, Option.some_bind, Option.map_some']
    exact IOLinePrinter_wordChars_getElem? cs _ m hm
  · rw [List.getElem?_append_right (by rw [hlen]), hlen]
    rfl

/-- Claim C9 at a fresh printer, an empty sink and 24 words of value 42. -/
theorem line_printer_out_witness :
    ∃ t1 chars, IOLinePrinter.new.out sampleCharset 0 [] (List.replicate 24 ⟨Sign.P, 42⟩) =
        some (true, t1, [] ++ chars) ∧
      chars.length = 121 ∧
      (∀ i m, i < 24 → m < 5 →
        chars[5 * i + m]? = ((List.replicate 24 (⟨Sign.P, 42⟩ : vWord))[i]?).map
          fun w => sampleCharset.toChar (w.field (4 - m))) ∧
      chars[120]? = some '\n' :=
  line_printer_out sampleCharset IOLinePrinter.new 0 [] (List.replicate 24 ⟨Sign.P, 42⟩)
    rfl (by simp)

/-! ## Unsupported operations -/

/-- Claim C10. The operations a device does not override return false and
leave the device (cursor, busy-until time, backing buffer) and the caller
buffer as they were: `in` on the card writer, the line printer and the paper
tape, `out` on the card reader and the typewriter, and `ioc` on all seven
devices. -/
theorem unsupported_operations (w : IOCardWriter) (l : IOLinePrinter) (p : IOPaperTape)
    (r : IOCardReader) (y : IOTypeWriter) (t : IOTape) (d : IODisk) (addr : List vWord)
    (m : Nat) :
    w.in addr = (false, w, addr) ∧ l.in addr = (false, l, addr) ∧
    p.in addr = (false, p, addr) ∧
    r.out addr = (false, r, addr) ∧ y.out addr = (false, y, addr) ∧
    t.ioc m = (false, t) ∧ d.ioc m = (false, d) ∧ r.ioc m = (false, r) ∧
    w.ioc m = (false, w) ∧ l.ioc m = (false, l) ∧ y.ioc m = (false, y) ∧
    p.ioc m = (false, p) :=
  ⟨rfl, rfl, rfl, rfl, rfl, rfl, rfl, rfl, rfl, rfl, rfl, rfl⟩

/-! ## The typewriter and the busy-until time -/

/-- Whatever `IOTypeWriter::in` returns, the device is as it was before the
call: the override never assigns `busyUntil`. -/
theorem IOTypeWriter_in_device (cs : Charset) (t t1 : IOTypeWriter) (inStream rest : List Char)
    (addr buf : List vWord) (r : Bool)
    (h : t.in cs inStream addr = some (r, t1, rest, buf)) : t1 = t := by
  unfold IOTypeWriter.in at h
  split at h
  · exact absurd h (by simp)
  · simp only [Option.some.injEq, Prod.mk.injEq] at h
    exact h.2.1.symm

/-- Claim C3 fails on the typewriter. A fresh typewriter reads the line HELLO
into a 14-word buffer: `in` returns true, and `busyUntil` is still 0, so that
`busy()` is false at every clock time, the time of the call included. -/
theorem typewriter_in_not_busy :
    IOTypeWriter.new.in sampleCharset "HELLO".toList (List.replicate 14 ⟨Sign.N, 7⟩) =
      some (true, IOTypeWriter.new, [],
        ⟨Sign.P, 135578383⟩ :: List.replicate 13 vWord.zero) ∧
    IOTypeWriter.new.busyUntil = 0 ∧
    ∀ now, IOTypeWriter.new.busy now = false := by
  refine ⟨rfl, rfl, ?_⟩
  intro now
  simp [IODevice.busy, IOTypeWriter.new, IODevice.new]

/-! ## Loops of the card reader, the card writer and the paper tape -/

theorem orData_length (buf : List vWord) (r x : Nat) : (orData buf r x).length = buf.length := by
  unfold orData
  split
  · exact List.length_set _ _ _
  · rfl

theorem IOCardReader_field_length (cs : Charset) (r j : Nat) (buf : List vWord)
    (inFile : List Char) : (IOCardReader.field cs r j buf inFile).1.length = buf.length := by
  unfold IOCardReader.field
  split <;> exact orData_length _ _ _

theorem IOCardReader_fields_length (cs : Charset) (r : Nat) :
    ∀ (n j : Nat) (buf : List vWord) (inFile : List Char),
      (IOCardReader.fields cs r n j buf inFile).1.length = buf.length
  | 0, _, _, _ => rfl
  | n + 1, j, buf, inFile => by
    rw [IOCardReader.fields, IOCardReader_fields_length cs r n, IOCardReader_field_length]

/-- The word loop of the card reader is defined on a buffer that holds the
`n` words from `ptr` on, and keeps the length of the buffer. -/
theorem IOCardReader_words_some (cs : Charset) :
    ∀ (n ptr : Nat) (buf : List vWord) (inFile : List Char), ptr + n ≤ buf.length →
      ∃ res, IOCardReader.words cs n ptr buf inFile = some res ∧ res.1.length = buf.length
  | 0, _, buf, inFile, _ => ⟨(buf, inFile), rfl, rfl⟩
  | n + 1, ptr, buf, inFile, h => by
    have hp : ptr < buf.length := by omega
    have hl : (IOCardReader.fields cs ptr 5 0 (buf.set ptr ⟨Sign.P, 0⟩) inFile).1.length =
        buf.length := by
      rw [IOCardReader_fields_length, List.length_set]
    obtain ⟨res, hres, hlen⟩ := IOCardReader_words_some cs n (ptr + 1)
      (IOCardReader.fields cs ptr 5 0 (buf.set ptr ⟨Sign.P, 0⟩) inFile).1
      (IOCardReader.fields cs ptr 5 0 (buf.set ptr ⟨Sign.P, 0⟩) inFile).2 (by rw [hl]; omega)
    refine ⟨res, ?_, by rw [hlen, hl]⟩
    simp only [IOCardReader.words, if_pos hp, hres]

/-- The field loop of the card writer never leaves a value `k ≥ 0`: after
`fuel` iterations it has written the character of field `k` `fuel` times and
is still running. -/
theorem IOCardWriter_kLoop_running (cs : Charset) (val : Nat) (k : Int) (hk : 0 ≤ k) :
    ∀ (fuel : Nat) (outFile : List Char),
      IOCardWriter.kLoop cs val fuel k outFile =
        Run.running (outFile ++
          List.replicate fuel (cs.toChar ((val >>> (k.toNat * 6)) &&& BYTE_MASK)))
  | 0, outFile => by
    simp only [IOCardWriter.kLoop, if_pos hk, List.replicate_zero, List.append_nil]
  | fuel + 1, outFile => by
    simp only [IOCardWriter.kLoop, if_pos hk, IOCardWriter_kLoop_running cs val k hk fuel,
      List.replicate_succ, List.append_assoc, List.singleton_append]

/-- The field loop of the card writer ends at once from a negative `k`. -/
theorem IOCardWriter_kLoop_done (cs : Charset) (val : Nat) (k : Int) (hk : k < 0)
    (fuel : Nat) (outFile : List Char) :
    IOCardWriter.kLoop cs val fuel k outFile = Run.done outFile := by
  have hk2 : ¬ (0 ≤ k) := by omega
  cases fuel <;> simp only [IOCardWriter.kLoop, if_neg hk2]

/-- What `IOCardWriter::out` has done after `fuel` iterations when the card
file was opened: it is in the field loop of the first word of the buffer. -/
theorem IOCardWriter_out_running (cs : Charset) (t : IOCardWriter) (now : Nat) (fs : FS Char)
    (addr : List vWord) (fuel : Nat) (w0 : vWord) (hbs : 0 < t.blockSize)
    (hnb : 0 < t.numBlocks) (ha : addr[0]? = some w0)
    (hw : fs.writable (t.dir ++ toString t.curPage ++ ".card") = true) :
    t.out cs now fs addr fuel =
      Run.running ({ t with toIODevice := t.toIODevice.setBusy now 250 },
        fs.write (t.dir ++ toString t.curPage ++ ".card")
          (List.replicate fuel (cs.toChar (w0.field 4)))) := by
  obtain ⟨b, hb⟩ : ∃ b, t.blockSize = b + 1 := ⟨t.blockSize - 1, by omega⟩
  obtain ⟨n, hn⟩ : ∃ n, t.numBlocks = n + 1 := ⟨t.numBlocks - 1, by omega⟩
  have hk := IOCardWriter_kLoop_running cs w0.toUInt 4 (by omega) fuel []
  simp only [List.nil_append] at hk
  have hi : IOCardWriter.iLoop cs fuel addr (b + 1) (n + 1) 0 [] =
      Run.running (List.replicate fuel (cs.toChar (w0.field 4))) := by
    simp only [IOCardWriter.iLoop, IOCardWriter.jLoop, ha, hk]
    rfl
  simp only [IOCardWriter.out, IODevice.setBusy_curPage, IODevice.setBusy_blockSize,
    IODevice.setBusy_numBlocks, hw, if_true, hb, hn, hi]

/-- What `IOCardWriter::out` returns when the card file cannot be opened. -/
theorem IOCardWriter_out_closed (cs : Charset) (t : IOCardWriter) (now : Nat) (fs : FS Char)
    (addr : List vWord) (fuel : Nat)
    (hw : fs.writable (t.dir ++ toString t.curPage ++ ".card") = false) :
    t.out cs now fs addr fuel =
      Run.done (true, { t with toIODevice := (t.toIODevice.setBusy now 250).incPage }, fs) := by
  simp only [IOCardWriter.out, IODevice.setBusy_curPage, hw, Bool.false_eq_true, if_false]

/-- The word loop of the paper tape appends the characters of the `n` words
from `ptr` on. -/
theorem IOPaperTape_jLoop_eq (cs : Charset) (addr : List vWord) :
    ∀ (n ptr : Nat) (outFile : List Char), ptr + n ≤ addr.length →
      IOPaperTape.jLoop cs addr n ptr outFile =
        some (ptr + n, outFile ++
          ((addr.drop ptr).take n).flatMap fun w => IOPaperTape.wordChars cs w.toUInt)
  | 0, ptr, outFile, _ => by
    simp only [IOPaperTape.jLoop, List.take_zero, List.flatMap_nil, List.append_nil,
      Nat.add_zero]
  | n + 1, ptr, outFile, h => by
    have hp : ptr < addr.length := by omega
    simp only [IOPaperTape.jLoop, List.getElem?_eq_getElem hp]
    rw [IOPaperTape_jLoop_eq cs addr n (ptr + 1) _ (by omega),
      List.drop_eq_getElem_cons hp, List.take_succ_cons, List.flatMap_cons,
      List.append_assoc]
    have : ptr + 1 + n = ptr + (n + 1) := by omega
    rw [this]

/-- The block loop of the paper tape appends the characters of the
`n * blockSize` words from `ptr` on. -/
theorem IOPaperTape_iLoop_eq (cs : Charset) (addr : List vWord) (bs : Nat) :
    ∀ (n ptr : Nat) (outFile : List Char), ptr + n * bs ≤ addr.length →
      IOPaperTape.iLoop cs addr bs n ptr outFile =
        some (ptr + n * bs, outFile ++
          ((addr.drop ptr).take (n * bs)).flatMap fun w => IOPaperTape.wordChars cs w.toUInt)
  | 0, ptr, outFile, _ => by
    simp only [IOPaperTape.iLoop, Nat.zero_mul, List.take_zero, List.flatMap_nil,
      List.append_nil, Nat.add_zero]
  | n + 1, ptr, outFile, h => by
    have hsplit : (n + 1) * bs = bs + n * bs := by ring
    rw [hsplit] at h
    simp only [IOPaperTape.iLoop, IOPaperTape_jLoop_eq cs addr bs ptr outFile (by omega)]
    rw [IOPaperTape_iLoop_eq cs addr bs n (ptr + bs) _ (by omega), hsplit, List.take_add,
      List.flatMap_append, List.drop_drop, List.append_assoc]
    have h1 : ptr + bs + n * bs = ptr + (bs + n * bs) := by omega
    rw [h1]

/-! ## The busy-until time -/

/-- The value `setBusy` assigns when `blockSize * c` is the constant `K`. -/
theorem IODevice.setBusy_busyUntil (d : IODevice) (now c K : Nat) (h : d.blockSize * c = K)
    (hK : K < 2 ^ 32) : (d.setBusy now c).busyUntil = (now + K) % 2 ^ 32 := by
  simp only [IODevice.setBusy, UINT, h, Nat.mod_eq_of_lt hK]

theorem IODevice.incPage_busyUntil (d : IODevice) : d.incPage.busyUntil = d.busyUntil := rfl

/-- The method `busy()` is true exactly before `busyUntil`. -/
theorem IODevice.busy_iff (d : IODevice) (now : Nat) : d.busy now = true ↔ now < d.busyUntil := by
  simp only [IODevice.busy, decide_eq_true_eq]

/-- After `busyUntil` was set at clock time `t` with latency `K` (no overflow
of the timestamp), the device is busy at every clock time below `t + K`. -/
theorem IODevice.busy_during (d : IODevice) (t K now : Nat)
    (h : d.busyUntil = (t + K) % 2 ^ 32) (ho : t + K < 2 ^ 32) (hn : now < t + K) :
    d.busy now = true := by
  rw [IODevice.busy_iff, h, Nat.mod_eq_of_lt ho]
  exact hn

/-- What `IOCardReader::in` returns on a 16-word buffer. -/
theorem IOCardReader_in_some (cs : Charset) (t : IOCardReader) (now : Nat) (fs : FS Char)
    (addr : List vWord) (hbs : t.blockSize = 16) (ha : addr.length = 16) :
    ∃ a1, t.in cs now fs addr =
      some (true, { t with toIODevice := (t.toIODevice.setBusy now 150).incPage }, a1) ∧
      a1.length = 16 := by
  unfold IOCardReader.in
  simp only [IODevice.setBusy_curPage, IODevice.setBusy_blockSize, hbs]
  cases fs.files (t.dir ++ toString t.curPage ++ ".card") with
  | none => exact ⟨addr, rfl, ha⟩
  | some inFile =>
    obtain ⟨res, hres, hlen⟩ := IOCardReader_words_some cs 16 0 addr inFile (by omega)
    exact ⟨res.1, by simp only [hres], by rw [hlen, ha]⟩

/-- What `IOPaperTape::out` returns on a 14000-word buffer. -/
theorem IOPaperTape_out_eq (cs : Charset) (t : IOPaperTape) (now : Nat) (fs : FS Char)
    (addr : List vWord) (hbs : t.blockSize = 14) (hnb : t.numBlocks = 1000)
    (ha : addr.length = 14000) :
    t.out cs now fs addr =
      some (true, { t with toIODevice := t.toIODevice.setBusy now 200 },
        if fs.writable t.path then
          fs.write t.path (addr.flatMap fun w => IOPaperTape.wordChars cs w.toUInt)
        else fs) := by
  have hi := IOPaperTape_iLoop_eq cs addr 14 1000 0 [] (by omega)
  have htk : (addr.drop 0).take (1000 * 14) = addr := by
    rw [List.drop_zero]; exact List.take_of_length_le (by omega)
  rw [htk] at hi
  unfold IOPaperTape.out
  simp only [IODevice.setBusy_blockSize, IODevice.setBusy_numBlocks, hbs, hnb, hi,
    List.nil_append]
  split <;> rfl

/-- Claim C4. Each operation issued at clock time `now` sets `busyUntil` to
`(now + blockSize * c) mod 2 ^ 32`, with `blockSize * c` equal to 10000 for
`in` and 15000 for `out` of the tape and the disk, 2400 for the card reader,
4000 for the card writer (whether its call has returned or is still in its
loop), 2400 for the line printer and 2800 for the paper tape; and `busy()` at
clock time `t'` is true exactly when `t' < busyUntil`. -/
theorem busy_until_values (cs : Charset) (t : IOTape) (d : IODisk) (r : IOCardReader)
    (w : IOCardWriter) (l : IOLinePrinter) (p : IOPaperTape) (now fuel : Nat)
    (wfs : FS vWord) (cfs : FS Char) (sink : List Char)
    (b100 b16 b24 b14000 : List vWord)
    (ht : t.WF) (hp : t.curPage < 2000) (hd : d.WF) (hr : r.blockSize = 16)
    (hw : w.blockSize = 16) (hwn : w.numBlocks = 1) (hl : l.blockSize = 24)
    (hpb : p.blockSize = 14) (hpn : p.numBlocks = 1000)
    (h100 : b100.length = 100) (h16 : b16.length = 16) (h24 : b24.length = 24)
    (h14000 : b14000.length = 14000) :
    (∃ t1 a1, t.in now b100 = some (true, t1, a1) ∧ t1.busyUntil = (now + 10000) % 2 ^ 32) ∧
    (∃ d1 a1, d.in now b100 = some (true, d1, a1) ∧ d1.busyUntil = (now + 10000) % 2 ^ 32) ∧
    (∃ t1 f1, t.out now wfs b100 = some (true, t1, f1) ∧
      t1.busyUntil = (now + 15000) % 2 ^ 32) ∧
    (∃ d1 f1, d.out now wfs b100 = some (true, d1, f1) ∧
      d1.busyUntil = (now + 15000) % 2 ^ 32) ∧
    (∃ r1 a1, r.in cs now cfs b16 = some (true, r1, a1) ∧
      r1.busyUntil = (now + 2400) % 2 ^ 32) ∧
    ((∃ w1 f1, w.out cs now cfs b16 fuel = Run.done (true, w1, f1) ∧
        w1.busyUntil = (now + 4000) % 2 ^ 32) ∨
      (∃ w1 f1, w.out cs now cfs b16 fuel = Run.running (w1, f1) ∧
        w1.busyUntil = (now + 4000) % 2 ^ 32)) ∧
    (∃ l1 s1, l.out cs now sink b24 = some (true, l1, s1) ∧
      l1.busyUntil = (now + 2400) % 2 ^ 32) ∧
    (∃ p1 f1, p.out cs now cfs b14000 = some (true, p1, f1) ∧
      p1.busyUntil = (now + 2800) % 2 ^ 32) ∧
    (∀ (dev : IODevice) (t' : Nat), dev.busy t' = true ↔ t' < dev.busyUntil) := by
  refine ⟨⟨_, _, IOTape_in_eq t now b100 ht hp h100, ?_⟩,
    ⟨_, _, IODisk_in_eq d now b100 hd h100, ?_⟩, ?_, ?_, ?_, ?_, ?_,
    ⟨_, _, IOPaperTape_out_eq cs p now cfs b14000 hpb hpn h14000, ?_⟩, IODevice.busy_iff⟩
  · exact IODevice.setBusy_busyUntil _ now 100 10000 (by rw [ht.1]) (by norm_num)
  · exact IODevice.setBusy_busyUntil _ now 100 10000 (by rw [hd.1]) (by norm_num)
  · obtain ⟨d2, _, _, _, hbu, _, hout⟩ := IOTape_out_eq t now wfs b100 ht hp h100
    refine ⟨_, _, hout, ?_⟩
    show d2.incPage.busyUntil = _
    rw [IODevice.incPage_busyUntil, hbu]
    exact IODevice.setBusy_busyUntil _ now 150 15000 (by rw [ht.1]) (by norm_num)
  · obtain ⟨d2, _, _, _, hbu, _, hout⟩ := IODisk_out_eq d now wfs b100 hd h100
    refine ⟨_, _, hout, ?_⟩
    show d2.busyUntil = _
    rw [hbu]
    exact IODevice.setBusy_busyUntil _ now 150 15000 (by rw [hd.1]) (by norm_num)
  · obtain ⟨a1, hin, _⟩ := IOCardReader_in_some cs r now cfs b16 hr h16
    exact ⟨_, _, hin, IODevice.setBusy_busyUntil _ now 150 2400 (by rw [hr]) (by norm_num)⟩
  · have hbu := IODevice.setBusy_busyUntil w.toIODevice now 250 4000 (by rw [hw]) (by norm_num)
    cases hopen : cfs.writable (w.dir ++ toString w.curPage ++ ".card") with
    | false =>
      exact Or.inl ⟨_, _, IOCardWriter_out_closed cs w now cfs b16 fuel hopen, hbu⟩
    | true =>
      have h0 : b16[0]? = some (b16[0]) := List.getElem?_eq_getElem (by omega)
      exact Or.inr ⟨_, _, IOCardWriter_out_running cs w now cfs b16 fuel _ (by omega)
        (by omega) h0 hopen, hbu⟩
  · exact ⟨_, _, IOLinePrinter_out_eq cs l now sink b24 hl h24,
      IODevice.setBusy_busyUntil _ now 100 2400 (by rw [hl]) (by norm_num)⟩
  · exact IODevice.setBusy_busyUntil _ now 200 2800 (by rw [hpb]) (by norm_num)

/-- Claim C4 at freshly constructed devices, clock time 5, and buffers of
words of value 42. -/
theorem busy_until_values_witness :
    (∃ t1 a1, (IOTape.new (emptyFS vWord) "t.dat").in 5 buf42 = some (true, t1, a1) ∧
      t1.busyUntil = (5 + 10000) % 2 ^ 32) ∧
    (∃ d1 a1, (IODisk.new (emptyFS vWord) "d.dat").in 5 buf42 = some (true, d1, a1) ∧
      d1.busyUntil = (5 + 10000) % 2 ^ 32) ∧
    (∃ t1 f1, (IOTape.new (emptyFS vWord) "t.dat").out 5 (emptyFS vWord) buf42 =
        some (true, t1, f1) ∧
      t1.busyUntil = (5 + 15000) % 2 ^ 32) ∧
    (∃ d1 f1, (IODisk.new (emptyFS vWord) "d.dat").out 5 (emptyFS vWord) buf42 =
        some (true, d1, f1) ∧
      d1.busyUntil = (5 + 15000) % 2 ^ 32) ∧
    (∃ r1 a1, (IOCardReader.new "/tmp/").in sampleCharset 5 (emptyFS Char)
        (List.replicate 16 ⟨Sign.P, 42⟩) = some (true, r1, a1) ∧
      r1.busyUntil = (5 + 2400) % 2 ^ 32) ∧
    ((∃ w1 f1, (IOCardWriter.new "/tmp/").out sampleCharset 5 (emptyFS Char)
          (List.replicate 16 ⟨Sign.P, 42⟩) 7 = Run.done (true, w1, f1) ∧
        w1.busyUntil = (5 + 4000) % 2 ^ 32) ∨
      (∃ w1 f1, (IOCardWriter.new "/tmp/").out sampleCharset 5 (emptyFS Char)
          (List.replicate 16 ⟨Sign.P, 42⟩) 7 = Run.running (w1, f1) ∧
        w1.busyUntil = (5 + 4000) % 2 ^ 32)) ∧
    (∃ l1 s1, IOLinePrinter.new.out sampleCharset 5 [] (List.replicate 24 ⟨Sign.P, 42⟩) =
        some (true, l1, s1) ∧
      l1.busyUntil = (5 + 2400) % 2 ^ 32) ∧
    (∃ p1 f1, (IOPaperTape.new "p.dat").out sampleCharset 5 (emptyFS Char)
        (List.replicate 14000 ⟨Sign.P, 42⟩) = some (true, p1, f1) ∧
      p1.busyUntil = (5 + 2800) % 2 ^ 32) ∧
    (∀ (dev : IODevice) (t' : Nat), dev.busy t' = true ↔ t' < dev.busyUntil) :=
  busy_until_values sampleCharset (IOTape.new (emptyFS vWord) "t.dat")
    (IODisk.new (emptyFS vWord) "d.dat") (IOCardReader.new "/tmp/") (IOCardWriter.new "/tmp/")
    IOLinePrinter.new (IOPaperTape.new "p.dat") 5 7 (emptyFS vWord) (emptyFS Char) []
    buf42 (List.replicate 16 ⟨Sign.P, 42⟩) (List.replicate 24 ⟨Sign.P, 42⟩)
    (List.replicate 14000 ⟨Sign.P, 42⟩)
    (IOTape_new_WF _ _).1 (by decide) (IODisk_new_WF _ _).1 rfl rfl rfl rfl rfl rfl
    (List.length_replicate _ _) (List.length_replicate _ _) (List.length_replicate _ _)
    (List.length_replicate _ _)

/-! ## Paper tape: the characters of a word -/

theorem and_63 (x : Nat) : x &&& 63 = x % 64 := Nat.and_pow_two_sub_one_eq_mod x 6

/-- The five characters `IOPaperTape::out` writes for a word: the character
of its field 0, then four times the character of code 0, because
`(val << (k * 6)) & BYTE_MASK` is 0 for every `k ≥ 1`. -/
theorem IOPaperTape_wordChars_eq (cs : Charset) (w : vWord) :
    IOPaperTape.wordChars cs w.toUInt =
      [cs.toChar (w.field 0), cs.toChar 0, cs.toChar 0, cs.toChar 0, cs.toChar 0] := by
  have h0 : (w.toUInt <<< (0 * 6)) % UINT &&& BYTE_MASK = w.field 0 := by
    have : w.toUInt % UINT = w.toUInt := by
      simp only [vWord.toUInt, Nat.mod_mod]
    simp only [vWord.field, Nat.zero_mul, Nat.shiftLeft_zero, Nat.shiftRight_zero, this]
  have hk : ∀ k, 1 ≤ k → k ≤ 4 → (w.toUInt <<< (k * 6)) % UINT &&& BYTE_MASK = 0 := by
    intro k h1 h4
    simp only [BYTE_MASK, and_63, UINT, Nat.shiftLeft_eq]
    interval_cases k <;> omega
  simp only [IOPaperTape.wordChars, List.map_cons, List.map_nil, h0, hk 1 (by omega) (by omega),
    hk 2 (by omega) (by omega), hk 3 (by omega) (by omega), hk 4 (by omega) (by omega)]

theorem IOPaperTape_wordChars_length (cs : Charset) (val : Nat) :
    (IOPaperTape.wordChars cs val).length = 5 := rfl

/-- Claim C8 fails on the code. A fresh paper tape writes 14000 words of value
64 (field 1 is code 1, every other field is code 0) to a writable path: `out`
returns true and the file holds 70000 characters, but the second character of
the file is the character of code 0, a blank, where the claim has the
character of field 1 of the first word, the letter A. -/
theorem paper_tape_out_drops_fields :
    ∃ p1 f1 chars,
      (IOPaperTape.new "p.dat").out sampleCharset 0 (emptyFS Char)
          (List.replicate 14000 ⟨Sign.P, 64⟩) = some (true, p1, f1) ∧
      f1.files "p.dat" = some chars ∧ chars.length = 70000 ∧
      chars[1]? = some ' ' ∧
      sampleCharset.toChar ((⟨Sign.P, 64⟩ : vWord).field 1) = 'A' := by
  have hlen : (List.replicate 14000 (⟨Sign.P, 64⟩ : vWord)).length = 14000 :=
    List.length_replicate _ _
  have hf : ∀ w : vWord,
      ((fun w : vWord => IOPaperTape.wordChars sampleCharset w.toUInt) w).length = 5 :=
    fun w => IOPaperTape_wordChars_length sampleCharset w.toUInt
  have hout := IOPaperTape_out_eq sampleCharset (IOPaperTape.new "p.dat") 0 (emptyFS Char)
    (List.replicate 14000 ⟨Sign.P, 64⟩) rfl rfl hlen
  have hw : (emptyFS Char).writable (IOPaperTape.new "p.dat").path = true := rfl
  rw [if_pos hw] at hout
  refine ⟨_, _, _, hout, FS.write_files_self _ _ _, ?_, ?_, by decide⟩
  · rw [flatMap_five_length _ hf, hlen]
  · have h := flatMap_five_getElem? _ hf (List.replicate 14000 (⟨Sign.P, 64⟩ : vWord)) 0 1
      (by rw [hlen]; omega) (by omega)
    rw [show 5 * 0 + 1 = 1 from rfl] at h
    rw [h, List.getElem?_eq_getElem (by rw [hlen]; omega), List.getElem_replicate,
      Option.some_bind, IOPaperTape_wordChars_eq]
    rfl

/-! ## Card writer: the call that does not return -/

/-- Claim C6 fails on the code. A fresh card writer on the writable directory
`/tmp/` is given 16 words whose fields are the codes of HELLO: after any
number of iterations `out` has not returned, it is still in the field loop of
the first word, and the file `/tmp/0.card` holds only copies of the letter H,
the character of field 4 of that word. -/
theorem card_writer_out_never_returns (fuel : Nat) :
    (IOCardWriter.new "/tmp/").out sampleCharset 0 (emptyFS Char)
        (List.replicate 16 ⟨Sign.P, 135578383⟩) fuel =
      Run.running
        ({ IOCardWriter.new "/tmp/" with
            toIODevice := (IOCardWriter.new "/tmp/").toIODevice.setBusy 0 250 },
         (emptyFS Char).write "/tmp/0.card" (List.replicate fuel 'H')) :=
  IOCardWriter_out_running sampleCharset (IOCardWriter.new "/tmp/") 0 (emptyFS Char)
    (List.replicate 16 ⟨Sign.P, 135578383⟩) fuel ⟨Sign.P, 135578383⟩ (by decide) (by decide)
    rfl rfl

/-- Claim C5 fails on the code. On a writable directory the card writer given
16 words of assigned code points (the codes of HELLO) never returns from
`out`, whatever the number of iterations it is granted, so that no written
card exists for the reader to read back.  And on a card that holds the
characters of these words most-significant field first, four words to a
line, the reader returns the fields of the first word in reverse order (the
codes of OLLEH), not the word that was to be written. -/
theorem card_round_trip_writer_diverges :
    (∀ fuel res, (IOCardWriter.new "/tmp/").out sampleCharset 0 (emptyFS Char)
        (List.replicate 16 ⟨Sign.P, 135578383⟩) fuel ≠ Run.done res) ∧
    ∃ r1 a1, (IOCardReader.new "/tmp/").in sampleCharset 0
        ((emptyFS Char).write "/tmp/0.card"
          ("HELLOHELLOHELLOHELLO\nHELLOHELLOHELLOHELLO\n".toList ++
            "HELLOHELLOHELLOHELLO\nHELLOHELLOHELLOHELLO".toList))
        (List.replicate 16 vWord.zero) = some (true, r1, a1) ∧
      a1[0]? = some ⟨Sign.P, 254853448⟩ ∧
      (⟨Sign.P, 254853448⟩ : vWord) ≠ ⟨Sign.P, 135578383⟩ := by
  refine ⟨?_, _, _, rfl, rfl, by decide⟩
  intro fuel res h
  rw [IOCardWriter_out_running sampleCharset (IOCardWriter.new "/tmp/") 0 (emptyFS Char)
    (List.replicate 16 ⟨Sign.P, 135578383⟩) fuel ⟨Sign.P, 135578383⟩ (by decide) (by decide)
    rfl rfl] at h
  exact Run.noConfusion h

/-! ## Typewriter: the loops -/

theorem set_of_getElem? {α : Type} (l : List α) (r : Nat) (w : α) (h : l[r]? = some w) :
    l.set r w = l := by
  apply List.ext_getElem?
  intro n
  rw [List.getElem?_set]
  split
  · next hrn =>
    subst hrn
    obtain ⟨hl, _⟩ := List.getElem?_eq_some.mp h
    rw [if_pos hl, h]
  · rfl

theorem orData_eq_set (buf : List vWord) (r x : Nat) (w : vWord) (h : buf[r]? = some w) :
    orData buf r x = buf.set r { w with data := w.data ||| x } := by
  simp only [orData, h]

theorem getElem?_set_self_of_some {α : Type} (l : List α) (r : Nat) (w v : α)
    (h : l[r]? = some w) : (l.set r v)[r]? = some v := by
  obtain ⟨hl, _⟩ := List.getElem?_eq_some.mp h
  rw [List.getElem?_set, if_pos rfl, if_pos hl]

/-- The field loop of the typewriter on `n` characters none of which is mapped
to `NULLCHAR`: it consumes them and stores their codes in the word at `r`. -/
theorem IOTypeWriter_fields_plain (cs : Charset) (bs i r : Nat) :
    ∀ (n : Nat) (s : TWState) (w : vWord), s.buf[r]? = some w → n ≤ s.inStream.length →
      (∀ c ∈ s.inStream.take n, cs.toVal c ≠ cs.NULLCHAR) →
      IOTypeWriter.fields cs bs i r n s =
        some { s with inStream := s.inStream.drop n,
                      buf := s.buf.set r { w with data := packFields cs n s.inStream w.data } }
  | 0, s, w, hw, _, _ => by
    simp only [IOTypeWriter.fields, List.drop_zero, packFields, set_of_getElem? _ _ _ hw]
  | j + 1, s, w, hw, hlen, hno => by
    obtain ⟨esc, buf, ptr, inStream⟩ := s
    cases inStream with
    | nil => simp at hlen
    | cons c l =>
      have hc : cs.toVal c ≠ cs.NULLCHAR := hno c (by simp)
      have hl : ∀ c' ∈ l.take j, cs.toVal c' ≠ cs.NULLCHAR := fun c' hc' =>
        hno c' (by simp only [List.take_succ_cons, List.mem_cons]; exact Or.inr hc')
      simp only at hw
      have ih := IOTypeWriter_fields_plain cs bs i r j
        { esc := esc,
          buf := buf.set r
            { w with data := w.data ||| (((cs.toVal c &&& BYTE_MASK) <<< (j * 6)) % UINT) },
          ptr := ptr, inStream := l }
        { w with data := w.data ||| (((cs.toVal c &&& BYTE_MASK) <<< (j * 6)) % UINT) }
        (getElem?_set_self_of_some _ _ _ _ hw) (by simpa using hlen) hl
      simp only [IOTypeWriter.fields, readChar, if_neg hc, orData_eq_set _ _ _ _ hw, ih,
        List.set_set, List.drop_succ_cons, packFields]

/-- The field loop of the typewriter when the first character mapped to
`NULLCHAR` comes after the characters `pre`, inside the word: the codes of
`pre` and the masked `SPACE` code are stored in the word at `r`, the
remaining words are zero-filled and `esc` is set. -/
theorem IOTypeWriter_fields_escape (cs : Charset) (bs i r : Nat) (c : Char) (rest : List Char)
    (hc : cs.toVal c = cs.NULLCHAR) :
    ∀ (pre : List Char) (n : Nat) (s s2 : TWState) (w : vWord), s.buf[r]? = some w →
      s.inStream = pre ++ c :: rest → pre.length < n →
      (∀ c' ∈ pre, cs.toVal c' ≠ cs.NULLCHAR) →
      IOTypeWriter.zeroFill (bs - (i + 1))
        { s with inStream := rest,
                 buf := s.buf.set r { w with data := packFields cs n pre w.data |||
                   (((cs.SPACE &&& BYTE_MASK) <<< ((n - 1 - pre.length) * 6)) % UINT) } } =
        some s2 →
      IOTypeWriter.fields cs bs i r n s = some { s2 with esc := true }
  | [], 0, _, _, _, _, _, hn, _, _ => by simp at hn
  | [], j + 1, s, s2, w, hw, hs, _, _, hz => by
    obtain ⟨esc, buf, ptr, inStream⟩ := s
    simp only [List.nil_append] at hs
    subst hs
    simp only at hw
    simp only [packFields, List.length_nil, Nat.add_sub_cancel, Nat.sub_zero] at hz
    simp only [IOTypeWriter.fields, readChar, hc, if_true, orData_eq_set _ _ _ _ hw, hz]
  | c' :: pre, 0, _, _, _, _, _, hn, _, _ => by simp at hn
  | c' :: pre, j + 1, s, s2, w, hw, hs, hn, hno, hz => by
    obtain ⟨esc, buf, ptr, inStream⟩ := s
    simp only [List.cons_append] at hs
    subst hs
    simp only at hw
    have hc' : cs.toVal c' ≠ cs.NULLCHAR := hno c' (by simp)
    have hsub : j + 1 - 1 - (c' :: pre).length = j - 1 - pre.length := by
      simp only [List.length_cons]; omega
    simp only [packFields, hsub] at hz
    have ih := IOTypeWriter_fields_escape cs bs i r c rest hc pre j
      { esc := esc,
        buf := buf.set r
          { w with data := w.data ||| (((cs.toVal c' &&& BYTE_MASK) <<< (j * 6)) % UINT) },
        ptr := ptr, inStream := pre ++ c :: rest } s2
      { w with data := w.data ||| (((cs.toVal c' &&& BYTE_MASK) <<< (j * 6)) % UINT) }
      (getElem?_set_self_of_some _ _ _ _ hw)
      rfl (by simpa using hn) (fun x hx => hno x (by simp [hx]))
      (by simpa only [List.set_set] using hz)
    simp only [IOTypeWriter.fields, readChar, if_neg hc', orData_eq_set _ _ _ _ hw, ih]

theorem take_set_succ {α : Type} (l : List α) (p : Nat) (z : α) (hp : p < l.length) :
    (l.set p z).take (p + 1) = l.take p ++ [z] := by
  rw [List.take_succ, List.getElem?_set, if_pos rfl, if_pos hp]
  congr 1
  apply List.ext_getElem?
  intro n
  simp only [List.getElem?_take, List.getElem?_set]
  split
  · next h => rw [if_neg (by omega)]
  · rfl

theorem drop_set_succ {α : Type} (l : List α) (p n : Nat) (z : α) :
    (l.set p z).drop (p + 1 + n) = l.drop (p + 1 + n) := by
  rw [List.drop_set, if_pos (by omega)]

/-- The zero-fill loop of the typewriter inside the buffer. -/
theorem IOTypeWriter_zeroFill_eq :
    ∀ (n : Nat) (s : TWState), s.ptr + n ≤ s.buf.length →
      IOTypeWriter.zeroFill n s =
        some { s with buf := s.buf.take s.ptr ++ List.replicate n vWord.zero ++
                               s.buf.drop (s.ptr + n),
                      ptr := s.ptr + n }
  | 0, s, _ => by
    simp only [IOTypeWriter.zeroFill, List.replicate_zero, List.append_nil, Nat.add_zero,
      List.take_append_drop]
  | n + 1, s, h => by
    have hp : s.ptr < s.buf.length := by omega
    have ih := IOTypeWriter_zeroFill_eq n
      { s with buf := s.buf.set s.ptr vWord.zero, ptr := s.ptr + 1 }
      (by simp only [List.length_set]; omega)
    simp only [IOTypeWriter.zeroFill, if_pos hp, ih, take_set_succ _ _ _ hp, drop_set_succ,
      List.replicate_succ, List.append_assoc, List.singleton_append]
    have : s.ptr + 1 + n = s.ptr + (n + 1) := by omega
    rw [this]

theorem IOTypeWriter_words_esc (cs : Charset) (bs n i : Nat) (s : TWState) (h : s.esc = true) :
    IOTypeWriter.words cs bs n i s = some s := by
  cases n <;> simp only [IOTypeWriter.words, h, if_true]

theorem length_of_drop_eq_cons {α : Type} (l : List α) (n : Nat) (c : α) (rest : List α)
    (h : l.drop n = c :: rest) : n < l.length := by
  by_contra hn
  rw [List.drop_of_length_le (by omega)] at h
  exact List.noConfusion h

/-- The word loop of the typewriter when the first character mapped to
`NULLCHAR` is character `m` of the word `k` words ahead: `k` full words, the
word of the escape, zero words up to the end of the buffer, and `esc` set. -/
theorem IOTypeWriter_words_escape (cs : Charset) (bs m : Nat) (c0 : Char) (rest : List Char)
    (hm : m < 5) (hc0 : cs.toVal c0 = cs.NULLCHAR) :
    ∀ (k n i : Nat) (buf : List vWord) (inStream : List Char),
      buf.length = bs → i + k < bs → i + n = bs →
      (∀ c ∈ inStream.take (5 * k + m), cs.toVal c ≠ cs.NULLCHAR) →
      inStream.drop (5 * k + m) = c0 :: rest →
      IOTypeWriter.words cs bs n i { esc := false, buf := buf, ptr := i, inStream := inStream } =
        some { esc := true, inStream := rest, ptr := bs,
               buf := buf.take i ++ fullWords cs k inStream ++
                 [⟨Sign.P, packFields cs 5 ((inStream.drop (5 * k)).take m) 0 |||
                    (((cs.SPACE &&& BYTE_MASK) <<< ((4 - m) * 6)) % UINT)⟩] ++
                 List.replicate (bs - (i + k + 1)) vWord.zero }
  | 0, n, i, buf, inStream, hlen, hik, hin, hno, hdrop => by
    obtain ⟨n', rfl⟩ : ∃ n', n = n' + 1 := ⟨n - 1, by omega⟩
    have hi : i < buf.length := by omega
    simp only [Nat.mul_zero, Nat.zero_add] at hno hdrop
    have hml : m < inStream.length := length_of_drop_eq_cons _ _ _ _ hdrop
    have hpre : (inStream.take m).length = m := by
      rw [List.length_take]; omega
    have hsplit : inStream = inStream.take m ++ c0 :: rest := by
      rw [← hdrop, List.take_append_drop]
    have hz := IOTypeWriter_zeroFill_eq (bs - (i + 1))
      { esc := false, ptr := i + 1, inStream := rest,
        buf := (buf.set i vWord.zero).set i
          { vWord.zero with data := packFields cs 5 (inStream.take m) vWord.zero.data |||
              (((cs.SPACE &&& BYTE_MASK) <<< ((5 - 1 - (inStream.take m).length) * 6)) % UINT) } }
      (by simp only [List.length_set]; omega)
    have hf := IOTypeWriter_fields_escape cs bs i i c0 rest hc0 (inStream.take m) 5
      { esc := false, buf := buf.set i vWord.zero, ptr := i + 1, inStream := inStream } _
      vWord.zero (by rw [List.getElem?_set, if_pos rfl, if_pos hi]) hsplit
      (by rw [hpre]; exact hm) hno hz
    simp only [IOTypeWriter.words, Bool.false_eq_true, if_false, if_pos hi, hf]
    rw [IOTypeWriter_words_esc _ _ _ _ _ rfl]
    simp only [List.set_set, take_set_succ _ _ _ hi, hpre, fullWords, List.append_nil,
      Nat.mul_zero, List.drop_zero, Nat.add_zero]
    have e1 : i + 1 + (bs - (i + 1)) = bs := by omega
    have e2 : List.drop bs (buf.set i
        { sign := vWord.zero.sign,
          data := packFields cs 5 (List.take m inStream) vWord.zero.data |||
            (cs.SPACE &&& BYTE_MASK) <<< ((5 - 1 - m) * 6) % UINT }) = [] :=
      List.drop_of_length_le (by simp only [List.length_set]; omega)
    rw [e1, e2, List.append_nil]
    rfl
  | k + 1, n, i, buf, inStream, hlen, hik, hin, hno, hdrop => by
    obtain ⟨n', rfl⟩ : ∃ n', n = n' + 1 := ⟨n - 1, by omega⟩
    have hi : i < buf.length := by omega
    have hsum : 5 * (k + 1) + m = 5 + (5 * k + m) := by ring
    rw [hsum] at hno hdrop
    have hll : 5 + (5 * k + m) < inStream.length := length_of_drop_eq_cons _ _ _ _ hdrop
    have hno5 : ∀ c ∈ inStream.take 5, cs.toVal c ≠ cs.NULLCHAR := fun c hc =>
      hno c (by rw [List.take_add]; exact List.mem_append_left _ hc)
    have hnor : ∀ c ∈ (inStream.drop 5).take (5 * k + m), cs.toVal c ≠ cs.NULLCHAR :=
      fun c hc => hno c (by rw [List.take_add]; exact List.mem_append_right _ hc)
    have hf := IOTypeWriter_fields_plain cs bs i i 5
      { esc := false, buf := buf.set i vWord.zero, ptr := i + 1, inStream := inStream }
      vWord.zero (by rw [List.getElem?_set, if_pos rfl, if_pos hi]) (by simp only; omega) hno5
    have ih := IOTypeWriter_words_escape cs bs m c0 rest hm hc0 k n' (i + 1)
      (buf.set i ⟨Sign.P, packFields cs 5 inStream 0⟩) (inStream.drop 5)
      (by rw [List.length_set]; exact hlen) (by omega) (by omega) hnor
      (by rw [List.drop_drop]; exact hdrop)
    simp only [IOTypeWriter.words, Bool.false_eq_true, if_false, if_pos hi, hf, List.set_set]
    have e0 : ({ sign := vWord.zero.sign, data := packFields cs 5 inStream vWord.zero.data } :
        vWord) = ⟨Sign.P, packFields cs 5 inStream 0⟩ := rfl
    rw [e0, ih, take_set_succ _ _ _ hi, List.drop_drop]
    have e1 : bs - (i + 1 + k + 1) = bs - (i + (k + 1) + 1) := by omega
    have e2 : 5 + 5 * k = 5 * (k + 1) := by ring
    simp only [fullWords, e1, e2, List.append_assoc, List.singleton_append]

/-! ## Typewriter: the fields of the words -/

/-- Storing a 6-bit code in field `j` of a magnitude whose fields `0 .. j` are
zero adds the code at digit `j`. -/
theorem lor_field (d x j : Nat) (hj : j ≤ 4) (hd : d % 64 ^ (j + 1) = 0) :
    d ||| (((x &&& BYTE_MASK) <<< (j * 6)) % UINT) = d + (x % 64) * 64 ^ j := by
  simp only [BYTE_MASK, UINT]
  rw [and_63, Nat.shiftLeft_eq]
  have hx : x % 64 < 64 := Nat.mod_lt _ (by omega)
  obtain ⟨a, rfl⟩ : ∃ a, d = 2 ^ (6 * (j + 1)) * a := by
    refine ⟨d / 2 ^ (6 * (j + 1)), ?_⟩
    have : (64 : Nat) ^ (j + 1) = 2 ^ (6 * (j + 1)) := by
      rw [pow_mul]; norm_num
    rw [this] at hd
    rw [Nat.mul_div_cancel' (Nat.dvd_of_mod_eq_zero hd)]
  have e1 : (2 : Nat) ^ (j * 6) = 64 ^ j := by rw [Nat.mul_comm, pow_mul]; norm_num
  rw [e1]
  have hy : x % 64 * 64 ^ j < 2 ^ (6 * (j + 1)) := by
    have : (2 : Nat) ^ (6 * (j + 1)) = 64 * 64 ^ j := by
      rw [pow_mul, pow_succ]; norm_num; ring
    rw [this]
    exact Nat.mul_lt_mul_of_pos_right hx (by positivity)
  have hlt : x % 64 * 64 ^ j < 2 ^ 32 := by
    interval_cases j <;> omega
  rw [Nat.mod_eq_of_lt hlt]
  exact (Nat.mul_add_lt_is_or hy a).symm

theorem packCodes_eq_add : ∀ (n : Nat) (xs : List Nat) (d : Nat), n ≤ 5 → d % 64 ^ n = 0 →
    packCodes n xs d = d + codeVal n xs
  | 0, _, d, _, _ => by simp only [packCodes, codeVal, Nat.add_zero]
  | _ + 1, [], d, _, _ => by simp only [packCodes, codeVal, Nat.add_zero]
  | j + 1, x :: xs, d, hn, hd => by
    have hdj : d % 64 ^ j = 0 :=
      Nat.mod_eq_zero_of_dvd
        (Dvd.dvd.trans (pow_dvd_pow 64 (Nat.le_succ j)) (Nat.dvd_of_mod_eq_zero hd))
    rw [packCodes, lor_field d x j (by omega) hd,
      packCodes_eq_add j xs _ (by omega) (by rw [Nat.add_mul_mod_self_right]; exact hdj),
      codeVal, Nat.add_assoc]

theorem packCodes_snoc (y : Nat) : ∀ (n : Nat) (xs : List Nat) (d : Nat), xs.length < n →
    packCodes n (xs ++ [y]) d =
      packCodes n xs d ||| (((y &&& BYTE_MASK) <<< ((n - 1 - xs.length) * 6)) % UINT)
  | 0, _, _, h => by simp at h
  | j + 1, [], d, _ => by
    cases j <;> simp [packCodes]
  | j + 1, x :: xs, d, h => by
    have hs : j + 1 - 1 - (x :: xs).length = j - 1 - xs.length := by
      simp only [List.length_cons]; omega
    rw [List.cons_append, packCodes, packCodes, hs]
    exact packCodes_snoc y j xs _ (by simpa using h)

/-- Field `4 - j` of a word packed from the codes `xs` is code `j` reduced to
six bits, and zero when there is no code `j`. -/
theorem packCodes_field (s : Sign) (xs : List Nat) (j : Nat) (hj : j < 5) :
    (⟨s, packCodes 5 xs 0⟩ : vWord).field (4 - j) = (xs[j]?.getD 0) % 64 := by
  rw [packCodes_eq_add 5 xs 0 (by omega) (by norm_num)]
  simp only [vWord.field, vWord.toUInt, UINT, BYTE_MASK, and_63, Nat.shiftRight_eq_div_pow]
  rcases xs with _ | ⟨x0, _ | ⟨x1, _ | ⟨x2, _ | ⟨x3, _ | ⟨x4, r⟩⟩⟩⟩⟩ <;>
    interval_cases j <;> simp [codeVal] <;> omega

theorem packFields_eq_packCodes (cs : Charset) : ∀ (n : Nat) (l : List Char) (d : Nat),
    packFields cs n l d = packCodes n (l.map cs.toVal) d
  | 0, _, _ => by simp only [packFields, packCodes]
  | _ + 1, [], _ => by simp only [packFields, packCodes, List.map_nil]
  | j + 1, c :: l, d => by
    simp only [packFields, packCodes, List.map_cons, packFields_eq_packCodes cs j l]

theorem fullWords_length (cs : Charset) : ∀ (k : Nat) (l : List Char),
    (fullWords cs k l).length = k
  | 0, _ => rfl
  | k + 1, l => by simp only [fullWords, List.length_cons, fullWords_length cs k]

theorem fullWords_getElem? (cs : Charset) : ∀ (k : Nat) (l : List Char) (a : Nat), a < k →
    (fullWords cs k l)[a]? = some ⟨Sign.P, packFields cs 5 (l.drop (5 * a)) 0⟩
  | 0, _, _, h => by simp at h
  | k + 1, l, 0, _ => by
    simp only [fullWords, List.getElem?_cons_zero, Nat.mul_zero, List.drop_zero]
  | k + 1, l, a + 1, h => by
    simp only [fullWords, List.getElem?_cons_succ]
    rw [fullWords_getElem? cs k (l.drop 5) a (by omega), List.drop_drop]
    have : 5 + 5 * a = 5 * (a + 1) := by ring
    rw [this]

theorem mem_take_getElem? {α : Type} (l : List α) (n : Nat) (c : α) (h : c ∈ l.take n) :
    ∃ q, q < n ∧ l[q]? = some c := by
  obtain ⟨q, hq⟩ := List.mem_iff_getElem?.mp h
  rw [List.getElem?_take] at hq
  by_cases hqn : q < n
  · rw [if_pos hqn] at hq
    exact ⟨q, hqn, hq⟩
  · rw [if_neg hqn] at hq
    exact Option.noConfusion hq

/-- What `IOTypeWriter::in` returns when the first character mapped to
`NULLCHAR` is at position `p < 70` of the stream: the full words, the word of
the escape, and zero words. -/
theorem IOTypeWriter_in_escape (cs : Charset) (t : IOTypeWriter) (inStream : List Char)
    (addr : List vWord) (p : Nat) (c0 : Char)
    (hbs : t.blockSize = 14) (ha : addr.length = 14) (hp : p < 70)
    (hc : inStream[p]? = some c0) (hnull : cs.toVal c0 = cs.NULLCHAR)
    (hfirst : ∀ q c, q < p → inStream[q]? = some c → cs.toVal c ≠ cs.NULLCHAR) :
    t.in cs inStream addr = some (true, t, inStream.drop (p + 1),
      fullWords cs (p / 5) inStream ++
        [⟨Sign.P, packCodes 5
          (((inStream.drop (5 * (p / 5))).take (p % 5)).map cs.toVal ++ [cs.SPACE]) 0⟩] ++
        List.replicate (13 - p / 5) vWord.zero) := by
  have hpe : 5 * (p / 5) + p % 5 = p := Nat.div_add_mod p 5
  have hm : p % 5 < 5 := Nat.mod_lt _ (by omega)
  obtain ⟨hpl, hget⟩ := List.getElem?_eq_some.mp hc
  have hdrop : inStream.drop (5 * (p / 5) + p % 5) = c0 :: inStream.drop (p + 1) := by
    rw [hpe, List.drop_eq_getElem_cons hpl, hget]
  have hno : ∀ c ∈ inStream.take (5 * (p / 5) + p % 5), cs.toVal c ≠ cs.NULLCHAR := by
    intro c hmem
    rw [hpe] at hmem
    obtain ⟨q, hq, hqc⟩ := mem_take_getElem? _ _ _ hmem
    exact hfirst q c hq hqc
  have hw := IOTypeWriter_words_escape cs 14 (p % 5) c0 (inStream.drop (p + 1)) hm hnull
    (p / 5) 14 0 addr inStream ha (by omega) (by omega) hno hdrop
  have hpre : ((inStream.drop (5 * (p / 5))).take (p % 5)).length = p % 5 := by
    rw [List.length_take, List.length_drop]; omega
  have hdata : packFields cs 5 ((inStream.drop (5 * (p / 5))).take (p % 5)) 0 |||
      (((cs.SPACE &&& BYTE_MASK) <<< ((4 - p % 5) * 6)) % UINT) =
      packCodes 5 (((inStream.drop (5 * (p / 5))).take (p % 5)).map cs.toVal ++ [cs.SPACE]) 0 := by
    rw [packCodes_snoc cs.SPACE 5 _ 0 (by rw [List.length_map, hpre]; exact hm),
      packFields_eq_packCodes, List.length_map, hpre]
  have h13 : 14 - (0 + p / 5 + 1) = 13 - p / 5 := by omega
  rw [hdata, h13, List.take_zero, List.nil_append] at hw
  simp only [IOTypeWriter.in, hbs, hw]

/-- Claim C7. When the first character of the stream that `toVal` maps to
`NULLCHAR` is at position `p < 70`, `IOTypeWriter::in` returns true, consumes
exactly `p + 1` characters and leaves 14 words: every word has sign positive;
the words before word `p / 5` hold the codes of their five characters, first
character in field 4; word `p / 5` holds the codes of its first `p % 5`
characters in the fields from 4 downwards, the `SPACE` code in field
`4 - p % 5` and zero in every lower field; every later word is the zero word.
Codes are the values of `toVal` and `SPACE` reduced by `BYTE_MASK`. -/
theorem typewriter_escape (cs : Charset) (t : IOTypeWriter) (inStream : List Char)
    (addr : List vWord) (p : Nat) (c0 : Char)
    (hbs : t.blockSize = 14) (ha : addr.length = 14) (hp : p < 70)
    (hc : inStream[p]? = some c0) (hnull : cs.toVal c0 = cs.NULLCHAR)
    (hfirst : ∀ q c, q < p → inStream[q]? = some c → cs.toVal c ≠ cs.NULLCHAR) :
    ∃ buf, t.in cs inStream addr = some (true, t, inStream.drop (p + 1), buf) ∧
      buf.length = 14 ∧
      (∀ (idx : Nat) (w : vWord), buf[idx]? = some w → w.sign = Sign.P) ∧
      (∀ (a j : Nat) (w : vWord) (c : Char), a < p / 5 → j < 5 → buf[a]? = some w →
        inStream[5 * a + j]? = some c → w.field (4 - j) = cs.toVal c &&& BYTE_MASK) ∧
      (∃ w : vWord, buf[p / 5]? = some w ∧
        (∀ (j : Nat) (c : Char), j < p % 5 → inStream[5 * (p / 5) + j]? = some c →
          w.field (4 - j) = cs.toVal c &&& BYTE_MASK) ∧
        w.field (4 - p % 5) = cs.SPACE &&& BYTE_MASK ∧
        (∀ f : Nat, f < 4 - p % 5 → w.field f = 0)) ∧
      (∀ idx : Nat, p / 5 < idx → idx < 14 → buf[idx]? = some vWord.zero) := by
  have hm : p % 5 < 5 := Nat.mod_lt _ (by omega)
  have hk : p / 5 < 14 := by omega
  have hfl := fullWords_length cs (p / 5) inStream
  have hpre : ((inStream.drop (5 * (p / 5))).take (p % 5)).length = p % 5 := by
    obtain ⟨hpl, _⟩ := List.getElem?_eq_some.mp hc
    have hpe : 5 * (p / 5) + p % 5 = p := Nat.div_add_mod p 5
    rw [List.length_take, List.length_drop]; omega
  refine ⟨_, IOTypeWriter_in_escape cs t inStream addr p c0 hbs ha hp hc hnull hfirst,
    ?_, ?_, ?_, ?_, ?_⟩
  · simp only [List.length_append, hfl, List.length_singleton, List.length_replicate]
    omega
  · intro idx w hw
    rw [List.append_assoc, List.getElem?_append] at hw
    split at hw
    · next hlt =>
      rw [hfl] at hlt
      rw [fullWords_getElem? cs _ _ _ hlt] at hw
      rw [← Option.some.inj hw]
    · rw [hfl, List.getElem?_append] at hw
      split at hw
      · next hlt =>
        have h0 : idx - p / 5 = 0 := by simpa using hlt
        rw [h0, List.getElem?_cons_zero] at hw
        rw [← Option.some.inj hw]
      · rw [List.getElem?_replicate] at hw
        split at hw
        · rw [← Option.some.inj hw]; rfl
        · exact Option.noConfusion hw
  · intro a j w c hak hj hw hcj
    rw [List.append_assoc, List.getElem?_append_left (by rw [hfl]; exact hak),
      fullWords_getElem? cs _ _ _ hak] at hw
    rw [← Option.some.inj hw, packFields_eq_packCodes, packCodes_field _ _ _ hj,
      List.getElem?_map, List.getElem?_drop, hcj]
    simp only [Option.map_some', Option.getD_some, BYTE_MASK, and_63]
  · refine ⟨⟨Sign.P, packCodes 5
        (((inStream.drop (5 * (p / 5))).take (p % 5)).map cs.toVal ++ [cs.SPACE]) 0⟩,
      ?_, ?_, ?_, ?_⟩
    · rw [List.append_assoc, List.getElem?_append_right (by rw [hfl]), hfl, Nat.sub_self,
        List.singleton_append, List.getElem?_cons_zero]
    · intro j c hj hcj
      rw [packCodes_field _ _ _ (by omega),
        List.getElem?_append_left (by rw [List.length_map, hpre]; exact hj),
        List.getElem?_map, List.getElem?_take, if_pos hj, List.getElem?_drop, hcj]
      simp only [Option.map_some', Option.getD_some, BYTE_MASK, and_63]
    · rw [packCodes_field _ _ _ hm,
        List.getElem?_append_right (by rw [List.length_map, hpre]), List.length_map, hpre,
        Nat.sub_self]
      simp only [List.getElem?_cons_zero, Option.getD_some, BYTE_MASK, and_63]
    · intro f hf
      have hf4 : f = 4 - (4 - f) := by omega
      rw [hf4, packCodes_field _ _ _ (by omega),
        List.getElem?_eq_none (by
          simp only [List.length_append, List.length_map, hpre, List.length_singleton]
          omega)]
      rfl
  · intro idx h1 h2
    rw [List.getElem?_append_right (by
      simp only [List.length_append, hfl, List.length_singleton]; omega)]
    rw [List.getElem?_replicate, if_pos (by
      simp only [List.length_append, hfl, List.length_singleton]; omega)]

/-- Claim C7 at a fresh typewriter, the line HELLO WORLD ended by a newline
(position 11, word 2, field 3) and a buffer of 14 words. -/
theorem typewriter_escape_witness :
    ∃ buf, IOTypeWriter.new.in sampleCharset helloLine (List.replicate 14 ⟨Sign.N, 7⟩) =
        some (true, IOTypeWriter.new, helloLine.drop (11 + 1), buf) ∧
      buf.length = 14 ∧
      (∀ (idx : Nat) (w : vWord), buf[idx]? = some w → w.sign = Sign.P) ∧
      (∀ (a j : Nat) (w : vWord) (c : Char), a < 11 / 5 → j < 5 → buf[a]? = some w →
        helloLine[5 * a + j]? = some c →
        w.field (4 - j) = sampleCharset.toVal c &&& BYTE_MASK) ∧
      (∃ w : vWord, buf[11 / 5]? = some w ∧
        (∀ (j : Nat) (c : Char), j < 11 % 5 → helloLine[5 * (11 / 5) + j]? = some c →
          w.field (4 - j) = sampleCharset.toVal c &&& BYTE_MASK) ∧
        w.field (4 - 11 % 5) = sampleCharset.SPACE &&& BYTE_MASK ∧
        (∀ f : Nat, f < 4 - 11 % 5 → w.field f = 0)) ∧
      (∀ idx : Nat, 11 / 5 < idx → idx < 14 → buf[idx]? = some vWord.zero) :=
  typewriter_escape sampleCharset IOTypeWriter.new helloLine (List.replicate 14 ⟨Sign.N, 7⟩)
    11 '\n' rfl (List.length_replicate _ _) (by decide) rfl (by decide)
    (by
      intro q c hq h
      have hmem : c ∈ helloLine.take 11 := by
        apply List.mem_iff_getElem?.mpr
        exact ⟨q, by rw [List.getElem?_take, if_pos hq]; exact h⟩
      have hall : ∀ x ∈ helloLine.take 11, sampleCharset.toVal x ≠ sampleCharset.NULLCHAR := by
        decide
      exact hall c hmem)

/-! ## Validity of the disk is kept by its operations -/

/-- The operation `IODisk::in` returns a valid disk on a valid disk. -/
theorem IODisk_in_WF (d : IODisk) (now : Nat) (addr : List vWord) (hw : d.WF)
    (ha : addr.length = 100) :
    ∃ d1 a1, d.in now addr = some (true, d1, a1) ∧ d1.WF :=
  ⟨_, _, IODisk_in_eq d now addr hw ha, hw⟩

/-- The operation `IODisk::out` returns a valid disk on a valid disk. -/
theorem IODisk_out_WF (d : IODisk) (now : Nat) (fs : FS vWord) (addr : List vWord)
    (hw : d.WF) (ha : addr.length = 100) :
    ∃ d1 f1, d.out now fs addr = some (true, d1, f1) ∧ d1.WF := by
  obtain ⟨d2, hc, hbs, hnb, _, hdata, hout⟩ := IODisk_out_eq d now fs addr hw ha
  obtain ⟨h1, h2, h3, h4⟩ := hw
  refine ⟨_, _, hout, ?_, ?_, ?_, ?_⟩
  · exact hbs.trans h1
  · exact hnb.trans h2
  · show d2.data.length = 400000
    rw [h2] at h4
    rw [hdata, block_replace_length _ _ _ _ (by rw [h3]; omega) (by omega)]
    exact h3
  · show d2.curPage < d2.numBlocks
    rw [hc, hnb]
    exact h4

/-! ## Cursor of the card reader and of the card writer -/

/-- Whenever `IOCardWriter::out` returns, it returns true and has executed
`curPage++`. -/
theorem IOCardWriter_out_done_curPage (cs : Charset) (t : IOCardWriter) (now : Nat)
    (fs : FS Char) (addr : List vWord) (fuel : Nat) (res : Bool × IOCardWriter × FS Char)
    (h : t.out cs now fs addr fuel = Run.done res) :
    res.1 = true ∧ res.2.1.curPage = (t.curPage + 1) % UINT := by
  simp only [IOCardWriter.out] at h
  split at h
  · split at h
    · cases h; exact ⟨rfl, rfl⟩
    · cases h
    · cases h
  · cases h; exact ⟨rfl, rfl⟩

/-- Claim C11 fails on the card writer. A fresh card writer whose card file
cannot be opened returns true from `out` with `curPage` equal to 1, not to
its previous value 0. -/
theorem card_writer_out_advances_cursor :
    ∃ w1 f1, (IOCardWriter.new "/tmp/").out sampleCharset 0 (lockedFS Char)
        (List.replicate 16 vWord.zero) 0 = Run.done (true, w1, f1) ∧
      (IOCardWriter.new "/tmp/").curPage = 0 ∧ w1.curPage = 1 ∧
      w1.curPage ≠ (IOCardWriter.new "/tmp/").curPage :=
  ⟨_, _, rfl, rfl, rfl, by decide⟩

/-- Claim C11, amended. With a cursor below the maximum of its unsigned type,
every call of `IOCardReader::in` on a 16-word buffer returns true and leaves
`curPage` one higher, whether or not the card file opens; and every call of
`IOCardWriter::out` that returns leaves `curPage` one higher as well. -/
theorem card_cursor_advances (cs : Charset) (r : IOCardReader) (w : IOCardWriter)
    (now fuel : Nat) (fs : FS Char) (addr : List vWord) (res : Bool × IOCardWriter × FS Char)
    (hr : r.blockSize = 16) (ha : addr.length = 16)
    (hrc : r.curPage + 1 < 2 ^ 32) (hwc : w.curPage + 1 < 2 ^ 32)
    (hret : w.out cs now fs addr fuel = Run.done res) :
    (∃ r1 a1, r.in cs now fs addr = some (true, r1, a1) ∧ r1.curPage = r.curPage + 1) ∧
    res.1 = true ∧ res.2.1.curPage = w.curPage + 1 := by
  obtain ⟨a1, hin, _⟩ := IOCardReader_in_some cs r now fs addr hr ha
  obtain ⟨h1, h2⟩ := IOCardWriter_out_done_curPage cs w now fs addr fuel res hret
  refine ⟨⟨_, _, hin, ?_⟩, h1, ?_⟩
  · show (r.curPage + 1) % UINT = r.curPage + 1
    exact Nat.mod_eq_of_lt hrc
  · rw [h2]
    exact Nat.mod_eq_of_lt hwc

/-- Claim C11, amended, at a fresh card reader and a fresh card writer on a
directory in which no file can be opened. -/
theorem card_cursor_advances_witness :
    (∃ r1 a1, (IOCardReader.new "/tmp/").in sampleCharset 0 (lockedFS Char)
        (List.replicate 16 vWord.zero) = some (true, r1, a1) ∧
      r1.curPage = (IOCardReader.new "/tmp/").curPage + 1) ∧
    (true, ({ IOCardWriter.new "/tmp/" with
        toIODevice := ((IOCardWriter.new "/tmp/").toIODevice.setBusy 0 250).incPage } :
          IOCardWriter), lockedFS Char).1 = true ∧
    (true, ({ IOCardWriter.new "/tmp/" with
        toIODevice := ((IOCardWriter.new "/tmp/").toIODevice.setBusy 0 250).incPage } :
          IOCardWriter), lockedFS Char).2.1.curPage = (IOCardWriter.new "/tmp/").curPage + 1 :=
  card_cursor_advances sampleCharset (IOCardReader.new "/tmp/") (IOCardWriter.new "/tmp/")
    0 0 (lockedFS Char) (List.replicate 16 vWord.zero) _ rfl (List.length_replicate _ _)
    (by decide) (by decide) (IOCardWriter_out_closed _ _ _ _ _ _ rfl)

/-! ## Files that cannot be opened -/

/-- A block of a mirror of zero words is 100 zero words. -/
theorem zero_mirror_block (n a : Nat) (h : a + 100 ≤ n) :
    ((List.replicate n vWord.zero).drop a).take 100 = List.replicate 100 vWord.zero := by
  rw [List.drop_replicate, List.take_replicate]
  congr 1
  omega

/-- The mirror of a tape constructed on a missing file is 200000 zero words. -/
theorem IOTape_new_missing (fs : FS vWord) (path : String) (h : fs.files path = none) :
    (IOTape.new fs path).data = List.replicate 200000 vWord.zero := by
  unfold IOTape.new
  rw [h]
  rfl

/-- The mirror of a disk constructed on a missing file is 400000 zero words. -/
theorem IODisk_new_missing (fs : FS vWord) (path : String) (h : fs.files path = none) :
    (IODisk.new fs path).data = List.replicate 400000 vWord.zero := by
  unfold IODisk.new
  rw [h]
  rfl

/-- On a tape whose mirror is all zero words, `in` returns 100 zero words. -/
theorem IOTape_in_zero (t : IOTape) (now : Nat) (fresh : List vWord) (hw : t.WF)
    (hp : t.curPage < 2000) (hf : fresh.length = 100)
    (hz : t.data = List.replicate 200000 vWord.zero) :
    ∃ t1, t.in now fresh = some (true, t1, List.replicate 100 vWord.zero) := by
  have hin := IOTape_in_eq t now fresh hw hp hf
  have hres : (t.data.drop (t.curPage * 100)).take 100 ++ fresh.drop 100 =
      List.replicate 100 vWord.zero := by
    rw [hz, zero_mirror_block _ _ (by omega), List.drop_of_length_le (by omega),
      List.append_nil]
  rw [hres] at hin
  exact ⟨_, hin⟩

/-- On a disk whose mirror is all zero words, `in` returns 100 zero words. -/
theorem IODisk_in_zero (t : IODisk) (now : Nat) (fresh : List vWord) (hw : t.WF)
    (hf : fresh.length = 100) (hz : t.data = List.replicate 400000 vWord.zero) :
    ∃ t1, t.in now fresh = some (true, t1, List.replicate 100 vWord.zero) := by
  have hin := IODisk_in_eq t now fresh hw hf
  have hp : t.curPage < 4000 := by have := hw.2.2.2; rw [hw.2.1] at this; exact this
  have hres : (t.data.drop (t.curPage * 100)).take 100 ++ fresh.drop 100 =
      List.replicate 100 vWord.zero := by
    rw [hz, zero_mirror_block _ _ (by omega), List.drop_of_length_le (by omega),
      List.append_nil]
  rw [hres] at hin
  exact ⟨_, hin⟩

/-- Claim C12. When the backing file cannot be opened the call still returns
true.  Read side: `IOCardReader::in` leaves the caller buffer as it was; a
tape or a disk constructed on a missing file has a mirror of zero words, and
`in` at any page of it returns 100 zero words.  Write side: `out` of the
tape, the disk, the card writer and the paper tape leaves the file system as
it was, and `out` of the tape and of the disk still copies the buffer over
the mirror block at `curPage`. -/
theorem silent_degradation (cs : Charset) (r : IOCardReader) (w : IOCardWriter)
    (p : IOPaperTape) (t : IOTape) (d : IODisk) (now fuel pt pd : Nat)
    (cfs : FS Char) (wfs : FS vWord) (tpath dpath : String) (addr b100 fresh : List vWord)
    (hrf : cfs.files (r.dir ++ toString r.curPage ++ ".card") = none)
    (htf : wfs.files tpath = none) (hdf : wfs.files dpath = none)
    (hpt : pt < 2000) (hpd : pd < 4000)
    (hb : b100.length = 100) (hfresh : fresh.length = 100)
    (ht : t.WF) (htp : t.curPage < 2000) (hd : d.WF)
    (htw : wfs.writable t.path = false) (hdw : wfs.writable d.path = false)
    (hww : cfs.writable (w.dir ++ toString w.curPage ++ ".card") = false)
    (hpw : cfs.writable p.path = false) :
    (∃ r1, r.in cs now cfs addr = some (true, r1, addr)) ∧
    (IOTape.new wfs tpath).data = List.replicate 200000 vWord.zero ∧
    (∃ t1, ({ IOTape.new wfs tpath with curPage := pt } : IOTape).in now fresh =
      some (true, t1, List.replicate 100 vWord.zero)) ∧
    (IODisk.new wfs dpath).data = List.replicate 400000 vWord.zero ∧
    (∃ d1, ({ IODisk.new wfs dpath with curPage := pd } : IODisk).in now fresh =
      some (true, d1, List.replicate 100 vWord.zero)) ∧
    (∃ t1, t.out now wfs b100 = some (true, t1, wfs) ∧
      t1.data = t.data.take (t.curPage * 100) ++ b100 ++ t.data.drop (t.curPage * 100 + 100)) ∧
    (∃ d1, d.out now wfs b100 = some (true, d1, wfs) ∧
      d1.data = d.data.take (d.curPage * 100) ++ b100 ++ d.data.drop (d.curPage * 100 + 100)) ∧
    (∃ w1, w.out cs now cfs addr fuel = Run.done (true, w1, cfs)) ∧
    (∃ p1, p.out cs now cfs addr = some (true, p1, cfs)) := by
  have hb1 : b100.take 100 = b100 := List.take_of_length_le (by omega)
  refine ⟨?_, IOTape_new_missing wfs tpath htf, ?_, IODisk_new_missing wfs dpath hdf, ?_,
    ?_, ?_, ⟨_, IOCardWriter_out_closed cs w now cfs addr fuel hww⟩, ?_⟩
  · refine ⟨{ r with toIODevice := (r.toIODevice.setBusy now 150).incPage }, ?_⟩
    simp only [IOCardReader.in, IODevice.setBusy_curPage, hrf]
  · exact IOTape_in_zero _ now fresh (IOTape_new_WF wfs tpath).1 hpt hfresh
      (IOTape_new_missing wfs tpath htf)
  · have hwf0 := (IODisk_new_WF wfs dpath).1
    exact IODisk_in_zero _ now fresh
      ⟨hwf0.1, hwf0.2.1, hwf0.2.2.1, by
        show pd < (IODisk.new wfs dpath).numBlocks
        rw [hwf0.2.1]; exact hpd⟩
      hfresh (IODisk_new_missing wfs dpath hdf)
  · obtain ⟨d2, _, _, _, _, hdata, hout⟩ := IOTape_out_eq t now wfs b100 ht htp hb
    rw [htw] at hout
    refine ⟨_, hout, ?_⟩
    show d2.incPage.data = _
    rw [← hb1]
    exact hdata.trans (by rw [hb1])
  · obtain ⟨d2, _, _, _, _, hdata, hout⟩ := IODisk_out_eq d now wfs b100 hd hb
    rw [hdw] at hout
    refine ⟨_, hout, ?_⟩
    show d2.data = _
    rw [hdata, hb1]
  · refine ⟨{ p with toIODevice := p.toIODevice.setBusy now 200 }, ?_⟩
    simp only [IOPaperTape.out, hpw, Bool.false_eq_true, if_false]

/-- Claim C12 at fresh devices on a file system without files in which no
path can be opened for writing. -/
theorem silent_degradation_witness :
    (∃ r1, (IOCardReader.new "/tmp/").in sampleCharset 0 (lockedFS Char) buf42 =
      some (true, r1, buf42)) ∧
    (IOTape.new (lockedFS vWord) "t.dat").data = List.replicate 200000 vWord.zero ∧
    (∃ t1, ({ IOTape.new (lockedFS vWord) "t.dat" with curPage := 1999 } : IOTape).in 0 buf42 =
      some (true, t1, List.replicate 100 vWord.zero)) ∧
    (IODisk.new (lockedFS vWord) "d.dat").data = List.replicate 400000 vWord.zero ∧
    (∃ d1, ({ IODisk.new (lockedFS vWord) "d.dat" with curPage := 3999 } : IODisk).in 0 buf42 =
      some (true, d1, List.replicate 100 vWord.zero)) ∧
    (∃ t1, (IOTape.new (lockedFS vWord) "t.dat").out 0 (lockedFS vWord) buf42 =
        some (true, t1, lockedFS vWord) ∧
      t1.data = (IOTape.new (lockedFS vWord) "t.dat").data.take
          ((IOTape.new (lockedFS vWord) "t.dat").curPage * 100) ++ buf42 ++
        (IOTape.new (lockedFS vWord) "t.dat").data.drop
          ((IOTape.new (lockedFS vWord) "t.dat").curPage * 100 + 100)) ∧
    (∃ d1, (IODisk.new (lockedFS vWord) "d.dat").out 0 (lockedFS vWord) buf42 =
        some (true, d1, lockedFS vWord) ∧
      d1.data = (IODisk.new (lockedFS vWord) "d.dat").data.take
          ((IODisk.new (lockedFS vWord) "d.dat").curPage * 100) ++ buf42 ++
        (IODisk.new (lockedFS vWord) "d.dat").data.drop
          ((IODisk.new (lockedFS vWord) "d.dat").curPage * 100 + 100)) ∧
    (∃ w1, (IOCardWriter.new "/tmp/").out sampleCharset 0 (lockedFS Char) buf42 3 =
      Run.done (true, w1, lockedFS Char)) ∧
    (∃ p1, (IOPaperTape.new "p.dat").out sampleCharset 0 (lockedFS Char) buf42 =
      some (true, p1, lockedFS Char)) :=
  silent_degradation sampleCharset (IOCardReader.new "/tmp/") (IOCardWriter.new "/tmp/")
    (IOPaperTape.new "p.dat") (IOTape.new (lockedFS vWord) "t.dat")
    (IODisk.new (lockedFS vWord) "d.dat") 0 3 1999 3999 (lockedFS Char) (lockedFS vWord)
    "t.dat" "d.dat" buf42 buf42 buf42 rfl rfl rfl (by decide) (by decide)
    (List.length_replicate _ _) (List.length_replicate _ _)
    (IOTape_new_WF _ _).1 (by decide) (IODisk_new_WF _ _).1 rfl rfl rfl rfl

/-! ## Timing of the tape scenario -/

/-- What `out` on a freshly constructed tape returns: true, cursor 1, and
`busyUntil` 15000 after the clock time of the call. -/
theorem IOTape_new_out (fs fs0 : FS vWord) (path : String) (now : Nat) (b : List vWord)
    (hb : b.length = 100) :
    ∃ t1 f1, (IOTape.new fs0 path).out now fs b = some (true, t1, f1) ∧
      t1.busyUntil = (now + 15000) % 2 ^ 32 ∧ t1.curPage = 1 := by
  obtain ⟨hwf, hc0⟩ := IOTape_new_WF fs0 path
  obtain ⟨d2, hc, _, _, hbu, _, hout⟩ :=
    IOTape_out_eq (IOTape.new fs0 path) now fs b hwf (by rw [hc0]; omega) hb
  refine ⟨_, _, hout, ?_, ?_⟩
  · show d2.incPage.busyUntil = _
    rw [IODevice.incPage_busyUntil, hbu]
    exact IODevice.setBusy_busyUntil _ now 150 15000 (by rw [hwf.1]) (by norm_num)
  · show (d2.curPage + 1) % UINT = 1
    rw [hc, hc0]
    rfl

/-- Claim C14 fails on the code. After `out` on a fresh tape at clock time 0
the tape is still busy at clock time 10000: `busyUntil` is 15000. -/
theorem tape_out_busy_at_10000 :
    ∃ t1 f1, (IOTape.new (emptyFS vWord) "t.dat").out 0 (emptyFS vWord) buf42 =
        some (true, t1, f1) ∧
      t1.busyUntil = 15000 ∧ t1.busy 10000 = true := by
  obtain ⟨t1, f1, hout, hbu, _⟩ :=
    IOTape_new_out (emptyFS vWord) (emptyFS vWord) "t.dat" 0 buf42 (List.length_replicate _ _)
  have hbu' : t1.busyUntil = 15000 := by rw [hbu]; rfl
  refine ⟨t1, f1, hout, hbu', ?_⟩
  rw [IODevice.busy_iff, hbu']
  omega

/-- Claim C14, amended. On a fresh tape, after `out` issued at clock time `t`
with a 100-word buffer (no overflow of the timestamp), `busy()` is true at
clock time `t` and at every clock time below `t + 15000`, false at every
clock time from `t + 15000` on, and `curPage` is 1. -/
theorem tape_scenario_timing (fs fs0 : FS vWord) (path : String) (t : Nat) (b : List vWord)
    (hb : b.length = 100) (hov : t + 15000 < 2 ^ 32) :
    ∃ t1 f1, (IOTape.new fs0 path).out t fs b = some (true, t1, f1) ∧
      t1.busy t = true ∧
      (∀ t', t' < t + 15000 → t1.busy t' = true) ∧
      (∀ t', t + 15000 ≤ t' → t1.busy t' = false) ∧
      t1.curPage = 1 := by
  obtain ⟨t1, f1, hout, hbu, hc⟩ := IOTape_new_out fs fs0 path t b hb
  rw [Nat.mod_eq_of_lt hov] at hbu
  refine ⟨t1, f1, hout, ?_, ?_, ?_, hc⟩
  · rw [IODevice.busy_iff, hbu]; omega
  · intro t' h
    rw [IODevice.busy_iff, hbu]; exact h
  · intro t' h
    cases hbusy : t1.busy t' with
    | false => rfl
    | true =>
      rw [IODevice.busy_iff, hbu] at hbusy
      omega

/-- Claim C14, amended, at the scenario of the spec: a fresh tape on `t.dat`,
`out` of 100 words of value 42 at clock time 0. -/
theorem tape_scenario_timing_witness :
    ∃ t1 f1, (IOTape.new (emptyFS vWord) "t.dat").out 0 (emptyFS vWord) buf42 =
        some (true, t1, f1) ∧
      t1.busy 0 = true ∧
      (∀ t', t' < 0 + 15000 → t1.busy t' = true) ∧
      (∀ t', 0 + 15000 ≤ t' → t1.busy t' = false) ∧
      t1.curPage = 1 :=
  tape_scenario_timing (emptyFS vWord) (emptyFS vWord) "t.dat" 0 buf42
    (List.length_replicate _ _) (by decide)

/-! ## The mirror after `out` and `in` -/

theorem block_replace_getElem? {α : Type} (data src : List α) (off k : Nat)
    (h : off + k ≤ data.length) (hs : k ≤ src.length) :
    (∀ q, q < k → (data.take off ++ src.take k ++ data.drop (off + k))[off + q]? = src[q]?) ∧
    (∀ q, q < off ∨ off + k ≤ q →
      (data.take off ++ src.take k ++ data.drop (off + k))[q]? = data[q]?) := by
  have h1 : (data.take off).length = off := by rw [List.length_take]; omega
  have h2 : (src.take k).length = k := by rw [List.length_take]; omega
  constructor
  · intro q hq
    rw [List.append_assoc, List.getElem?_append_right (by omega), h1,
      List.getElem?_append_left (by omega), List.getElem?_take]
    have : off + q - off = q := by omega
    rw [this, if_pos hq]
  · intro q hq
    rcases hq with hq | hq
    · rw [List.append_assoc, List.getElem?_append_left (by omega), List.getElem?_take,
        if_pos hq]
    · rw [List.getElem?_append_right (by rw [List.length_append]; omega), List.length_append,
        h1, h2, List.getElem?_drop]
      congr 1
      omega

theorem block_replace_drop {α : Type} (data src : List α) (off k : Nat)
    (h : off + k ≤ data.length) (hs : k ≤ src.length) :
    (data.take off ++ src.take k ++ data.drop (off + k)).drop (off + k) = data.drop (off + k) := by
  apply List.drop_left'
  rw [List.length_append, List.length_take, List.length_take]; omega

theorem block_replace_block {α : Type} (data src : List α) (off k : Nat)
    (h : off + k ≤ data.length) (hs : k ≤ src.length) :
    ((data.take off ++ src.take k ++ data.drop (off + k)).drop off).take k = src.take k := by
  rw [List.append_assoc, List.drop_left' (by rw [List.length_take]; omega)]
  apply List.take_left'
  rw [List.length_take]; omega

/-- What `IOTape::out` leaves on a valid tape whose cursor is on a block: a
valid tape, the cursor one higher, and the mirror with the block replaced. -/
theorem IOTape_out_full (t : IOTape) (now : Nat) (fs : FS vWord) (b : List vWord)
    (hw : t.WF) (hp : t.curPage < 2000) (hb : b.length = 100) :
    ∃ t1 f1, t.out now fs b = some (true, t1, f1) ∧ t1.WF ∧ t1.curPage = t.curPage + 1 ∧
      t1.data = t.data.take (t.curPage * 100) ++ b.take 100 ++
        t.data.drop (t.curPage * 100 + 100) := by
  obtain ⟨d2, hc, hbs, hnb, _, hdata, hout⟩ := IOTape_out_eq t now fs b hw hp hb
  obtain ⟨h1, h2, h3⟩ := hw
  refine ⟨_, _, hout, ⟨hbs.trans h1, hnb.trans h2, ?_⟩, ?_, hdata⟩
  · show d2.data.length = 200000
    rw [hdata, block_replace_length _ _ _ _ (by rw [h3]; omega) (by omega)]
    exact h3
  · show (d2.curPage + 1) % UINT = t.curPage + 1
    rw [hc]
    exact Nat.mod_eq_of_lt (by simp only [UINT]; omega)

/-- What `IODisk::out` leaves on a valid disk: a valid disk, the cursor where
it was, and the mirror with the block replaced. -/
theorem IODisk_out_full (d : IODisk) (now : Nat) (fs : FS vWord) (b : List vWord)
    (hw : d.WF) (hb : b.length = 100) :
    ∃ d1 f1, d.out now fs b = some (true, d1, f1) ∧ d1.WF ∧ d1.curPage = d.curPage ∧
      d1.data = d.data.take (d.curPage * 100) ++ b.take 100 ++
        d.data.drop (d.curPage * 100 + 100) := by
  obtain ⟨d2, hc, hbs, hnb, _, hdata, hout⟩ := IODisk_out_eq d now fs b hw hb
  obtain ⟨h1, h2, h3, h4⟩ := hw
  refine ⟨_, _, hout, ⟨hbs.trans h1, hnb.trans h2, ?_, ?_⟩, hc, hdata⟩
  · show d2.data.length = 400000
    rw [h2] at h4
    rw [hdata, block_replace_length _ _ _ _ (by rw [h3]; omega) (by omega)]
    exact h3
  · show d2.curPage < d2.numBlocks
    rw [hc, hnb]
    exact h4

/-- On a valid tape with `curPage + 1 < 2000`, `out b` followed at once by
`in` reads block `curPage + 1` of the mirror, which `out` did not change. -/
theorem IOTape_out_in_next (t : IOTape) (now now2 : Nat) (fs : FS vWord)
    (b fresh : List vWord) (ht : t.WF) (htp : t.curPage + 1 < 2000)
    (hb : b.length = 100) (hfresh : fresh.length = 100) :
    ∃ t1 f1 t2, t.out now fs b = some (true, t1, f1) ∧
      t1.in now2 fresh =
        some (true, t2, (t.data.drop (100 * (t.curPage + 1))).take 100) := by
  have hf1 : fresh.drop 100 = [] := List.drop_of_length_le (by omega)
  obtain ⟨t1, f1, hout, hwf, hc, hdata⟩ := IOTape_out_full t now fs b ht (by omega) hb
  have hin := IOTape_in_eq t1 now2 fresh hwf (by rw [hc]; exact htp) hfresh
  have hoff : (t.curPage + 1) * 100 = t.curPage * 100 + 100 := by ring
  have hres : (t1.data.drop (t1.curPage * 100)).take 100 ++ fresh.drop 100 =
      (t.data.drop (100 * (t.curPage + 1))).take 100 := by
    rw [hdata, hc, hoff, block_replace_drop _ _ _ _ (by rw [ht.2.2]; omega) (by omega),
      hf1, List.append_nil]
    congr 2
    ring
  rw [hres] at hin
  exact ⟨_, _, _, hout, hin⟩

/-- Claim C18 fails on the tape as it is worded. On a fresh tape constructed
on a missing file, `out b` with `b` the buffer of 100 zero words followed at
once by `in` into a fresh buffer yields exactly `b`: block 1 of the mirror
already held 100 zero words. -/
theorem tape_out_then_in_yields_b :
    (IOTape.new (emptyFS vWord) "t.dat").curPage + 1 < 2000 ∧
    ∃ t1 f1 t2, (IOTape.new (emptyFS vWord) "t.dat").out 0 (emptyFS vWord)
        (List.replicate 100 vWord.zero) = some (true, t1, f1) ∧
      t1.in 1 (List.replicate 100 vWord.zero) =
        some (true, t2, List.replicate 100 vWord.zero) := by
  obtain ⟨hw, hc⟩ := IOTape_new_WF (emptyFS vWord) "t.dat"
  refine ⟨by rw [hc]; omega, ?_⟩
  obtain ⟨t1, f1, t2, hout, hin⟩ := IOTape_out_in_next (IOTape.new (emptyFS vWord) "t.dat")
    0 1 (emptyFS vWord) (List.replicate 100 vWord.zero) (List.replicate 100 vWord.zero) hw
    (by rw [hc]; omega) (List.length_replicate _ _) (List.length_replicate _ _)
  rw [IOTape_new_missing (emptyFS vWord) "t.dat" rfl, hc,
    zero_mirror_block _ _ (by omega)] at hin
  exact ⟨t1, f1, t2, hout, hin⟩

/-- Claim C18, amended. On a valid disk `out b` followed at once by `in` into
a fresh 100-word buffer yields exactly `b`, whether or not the backing file
could be written; on a valid tape with `curPage + 1 < 2000` the same sequence
yields the previous contents of block `curPage + 1` of the mirror, whatever
`b` is. -/
theorem out_then_in (t : IOTape) (d : IODisk) (now now2 : Nat) (fs : FS vWord)
    (b fresh : List vWord) (ht : t.WF) (htp : t.curPage + 1 < 2000) (hd : d.WF)
    (hb : b.length = 100) (hfresh : fresh.length = 100) :
    (∃ d1 f1 d2, d.out now fs b = some (true, d1, f1) ∧
      d1.in now2 fresh = some (true, d2, b)) ∧
    (∃ t1 f1 t2, t.out now fs b = some (true, t1, f1) ∧
      t1.in now2 fresh =
        some (true, t2, (t.data.drop (100 * (t.curPage + 1))).take 100)) := by
  have hb1 : b.take 100 = b := List.take_of_length_le (by omega)
  have hf1 : fresh.drop 100 = [] := List.drop_of_length_le (by omega)
  constructor
  · obtain ⟨d1, f1, hout, hwf, hc, hdata⟩ := IODisk_out_full d now fs b hd hb
    have hdp : d.curPage < 4000 := by have := hd.2.2.2; rw [hd.2.1] at this; exact this
    have hin := IODisk_in_eq d1 now2 fresh hwf hfresh
    have hres : (d1.data.drop (d1.curPage * 100)).take 100 ++ fresh.drop 100 = b := by
      rw [hdata, hc, block_replace_block _ _ _ _ (by rw [hd.2.2.1]; omega) (by omega), hb1,
        hf1, List.append_nil]
    rw [hres] at hin
    exact ⟨_, _, _, hout, hin⟩
  · exact IOTape_out_in_next t now now2 fs b fresh ht htp hb hfresh

/-- Claim C18, amended, at a fresh disk and a fresh tape, with the buffer of 100 words
of value 42 and a fresh buffer of 100 zero words. -/
theorem out_then_in_witness :
    (∃ d1 f1 d2, (IODisk.new (emptyFS vWord) "d.dat").out 0 (lockedFS vWord) buf42 =
        some (true, d1, f1) ∧
      d1.in 1 (List.replicate 100 vWord.zero) = some (true, d2, buf42)) ∧
    (∃ t1 f1 t2, (IOTape.new (emptyFS vWord) "t.dat").out 0 (lockedFS vWord) buf42 =
        some (true, t1, f1) ∧
      t1.in 1 (List.replicate 100 vWord.zero) =
        some (true, t2, ((IOTape.new (emptyFS vWord) "t.dat").data.drop
          (100 * ((IOTape.new (emptyFS vWord) "t.dat").curPage + 1))).take 100)) :=
  out_then_in (IOTape.new (emptyFS vWord) "t.dat") (IODisk.new (emptyFS vWord) "d.dat") 0 1
    (lockedFS vWord) buf42 (List.replicate 100 vWord.zero)
    (IOTape_new_WF _ _).1 (by decide) (IODisk_new_WF _ _).1 (List.length_replicate _ _)
    (List.length_replicate _ _)

/-- Claim C19. On a valid tape or disk with `curPage = p` on a block, `out b`
changes only the mirror words at the indices `100p .. 100p + 99`, which
become `b`, and leaves every other word of the mirror as it was; `in` changes
no word of the mirror and writes exactly the 100 words of block `p` into the
caller buffer. -/
theorem mirror_frame (t : IOTape) (d : IODisk) (now : Nat) (fs : FS vWord)
    (b addr : List vWord) (ht : t.WF) (htp : t.curPage < 2000) (hd : d.WF)
    (hb : b.length = 100) (ha : addr.length = 100) :
    (∃ t1 f1, t.out now fs b = some (true, t1, f1) ∧ t1.data.length = t.data.length ∧
      (∀ q : Nat, q < 100 → t1.data[100 * t.curPage + q]? = b[q]?) ∧
      (∀ q : Nat, q < 100 * t.curPage ∨ 100 * t.curPage + 100 ≤ q →
        t1.data[q]? = t.data[q]?)) ∧
    (∃ t1 a1, t.in now addr = some (true, t1, a1) ∧ t1.data = t.data ∧ a1.length = 100 ∧
      (∀ q : Nat, q < 100 → a1[q]? = t.data[100 * t.curPage + q]?)) ∧
    (∃ d1 f1, d.out now fs b = some (true, d1, f1) ∧ d1.data.length = d.data.length ∧
      (∀ q : Nat, q < 100 → d1.data[100 * d.curPage + q]? = b[q]?) ∧
      (∀ q : Nat, q < 100 * d.curPage ∨ 100 * d.curPage + 100 ≤ q →
        d1.data[q]? = d.data[q]?)) ∧
    (∃ d1 a1, d.in now addr = some (true, d1, a1) ∧ d1.data = d.data ∧ a1.length = 100 ∧
      (∀ q : Nat, q < 100 → a1[q]? = d.data[100 * d.curPage + q]?)) := by
  have hdp : d.curPage < 4000 := by have := hd.2.2.2; rw [hd.2.1] at this; exact this
  have hblock : ∀ (data : List vWord) (p : Nat), p * 100 + 100 ≤ data.length →
      ((data.drop (p * 100)).take 100 ++ addr.drop 100).length = 100 ∧
      ∀ q : Nat, q < 100 →
        ((data.drop (p * 100)).take 100 ++ addr.drop 100)[q]? = data[100 * p + q]? := by
    intro data p hlen
    have hl : ((data.drop (p * 100)).take 100).length = 100 := by
      rw [List.length_take, List.length_drop]; omega
    refine ⟨by rw [List.length_append, hl, List.length_drop]; omega, ?_⟩
    intro q hq
    rw [List.getElem?_append_left (by omega), List.getElem?_take, if_pos hq,
      List.getElem?_drop, Nat.mul_comm]
  have hrep : ∀ (data : List vWord) (p : Nat), p * 100 + 100 ≤ data.length →
      (∀ q : Nat, q < 100 →
        (data.take (p * 100) ++ b.take 100 ++ data.drop (p * 100 + 100))[100 * p + q]? =
          b[q]?) ∧
      (∀ q : Nat, q < 100 * p ∨ 100 * p + 100 ≤ q →
        (data.take (p * 100) ++ b.take 100 ++ data.drop (p * 100 + 100))[q]? = data[q]?) := by
    intro data p hlen
    obtain ⟨g1, g2⟩ := block_replace_getElem? data b (p * 100) 100 hlen (by omega)
    constructor
    · intro q hq
      rw [Nat.mul_comm 100 p]
      exact g1 q hq
    · intro q hq
      exact g2 q (by omega)
  refine ⟨?_, ?_, ?_, ?_⟩
  · obtain ⟨t1, f1, hout, hwf, _, hdata⟩ := IOTape_out_full t now fs b ht htp hb
    obtain ⟨g1, g2⟩ := hrep t.data t.curPage (by rw [ht.2.2]; omega)
    rw [← hdata] at g1 g2
    exact ⟨_, _, hout, by rw [hwf.2.2, ht.2.2], g1, g2⟩
  · obtain ⟨g0, g1⟩ := hblock t.data t.curPage (by rw [ht.2.2]; omega)
    exact ⟨_, _, IOTape_in_eq t now addr ht htp ha, rfl, g0, g1⟩
  · obtain ⟨d1, f1, hout, hwf, _, hdata⟩ := IODisk_out_full d now fs b hd hb
    obtain ⟨g1, g2⟩ := hrep d.data d.curPage (by rw [hd.2.2.1]; omega)
    rw [← hdata] at g1 g2
    exact ⟨_, _, hout, by rw [hwf.2.2.1, hd.2.2.1], g1, g2⟩
  · obtain ⟨g0, g1⟩ := hblock d.data d.curPage (by rw [hd.2.2.1]; omega)
    exact ⟨_, _, IODisk_in_eq d now addr hd ha, rfl, g0, g1⟩

/-- Claim C19 at a fresh tape and a fresh disk, with the buffer of 100 words
of value 42. -/
theorem mirror_frame_witness :
    (∃ t1 f1, (IOTape.new (emptyFS vWord) "t.dat").out 0 (emptyFS vWord) buf42 =
        some (true, t1, f1) ∧
      t1.data.length = (IOTape.new (emptyFS vWord) "t.dat").data.length ∧
      (∀ q : Nat, q < 100 →
        t1.data[100 * (IOTape.new (emptyFS vWord) "t.dat").curPage + q]? = buf42[q]?) ∧
      (∀ q : Nat, q < 100 * (IOTape.new (emptyFS vWord) "t.dat").curPage ∨
          100 * (IOTape.new (emptyFS vWord) "t.dat").curPage + 100 ≤ q →
        t1.data[q]? = (IOTape.new (emptyFS vWord) "t.dat").data[q]?)) ∧
    (∃ t1 a1, (IOTape.new (emptyFS vWord) "t.dat").in 0 buf42 = some (true, t1, a1) ∧
      t1.data = (IOTape.new (emptyFS vWord) "t.dat").data ∧ a1.length = 100 ∧
      (∀ q : Nat, q < 100 → a1[q]? = (IOTape.new (emptyFS vWord) "t.dat").data[
        100 * (IOTape.new (emptyFS vWord) "t.dat").curPage + q]?)) ∧
    (∃ d1 f1, (IODisk.new (emptyFS vWord) "d.dat").out 0 (emptyFS vWord) buf42 =
        some (true, d1, f1) ∧
      d1.data.length = (IODisk.new (emptyFS vWord) "d.dat").data.length ∧
      (∀ q : Nat, q < 100 →
        d1.data[100 * (IODisk.new (emptyFS vWord) "d.dat").curPage + q]? = buf42[q]?) ∧
      (∀ q : Nat, q < 100 * (IODisk.new (emptyFS vWord) "d.dat").curPage ∨
          100 * (IODisk.new (emptyFS vWord) "d.dat").curPage + 100 ≤ q →
        d1.data[q]? = (IODisk.new (emptyFS vWord) "d.dat").data[q]?)) ∧
    (∃ d1 a1, (IODisk.new (emptyFS vWord) "d.dat").in 0 buf42 = some (true, d1, a1) ∧
      d1.data = (IODisk.new (emptyFS vWord) "d.dat").data ∧ a1.length = 100 ∧
      (∀ q : Nat, q < 100 → a1[q]? = (IODisk.new (emptyFS vWord) "d.dat").data[
        100 * (IODisk.new (emptyFS vWord) "d.dat").curPage + q]?)) :=
  mirror_frame (IOTape.new (emptyFS vWord) "t.dat") (IODisk.new (emptyFS vWord) "d.dat") 0
    (emptyFS vWord) buf42 buf42 (IOTape_new_WF _ _).1 (by decide) (IODisk_new_WF _ _).1
    (List.length_replicate _ _) (List.length_replicate _ _)

/-! ## The cursor invariant -/

/-- What `IOTape::in` leaves on a valid tape whose cursor is on a block: a
valid tape and the cursor one higher. -/
theorem IOTape_in_full (t : IOTape) (now : Nat) (addr : List vWord)
    (hw : t.WF) (hp : t.curPage < 2000) (ha : addr.length = 100) :
    ∃ t1 a1, t.in now addr = some (true, t1, a1) ∧ t1.WF ∧ t1.curPage = t.curPage + 1 := by
  refine ⟨_, _, IOTape_in_eq t now addr hw hp ha, hw, ?_⟩
  show (t.curPage + 1) % UINT = t.curPage + 1
  exact Nat.mod_eq_of_lt (by simp only [UINT]; omega)

/-- With the cursor at or past the last block of the mirror, the page copy of
`IOTape::in` is outside the mirror. -/
theorem IOTape_in_outside (t : IOTape) (now : Nat) (addr : List vWord)
    (hw : t.WF) (hp : 2000 ≤ t.curPage) (hp2 : t.curPage < 40000000) :
    t.in now addr = none := by
  obtain ⟨h1, _, h3⟩ := hw
  have hoff : (t.curPage * 100) % UINT = t.curPage * 100 :=
    Nat.mod_eq_of_lt (by simp only [UINT]; omega)
  have hc : (t.toIODevice.setBusy now 100).cpyPage addr t.curPage = none := by
    unfold IODevice.cpyPage
    simp only [IODevice.setBusy_blockSize, IODevice.setBusy_data, h1, h3, hoff]
    rw [if_neg (by omega)]
  simp only [IOTape.in, IODevice.setBusy_curPage, hc]

/-- A run of `n` reads from a valid tape that stays on the mirror: every call
returns and the cursor is `n` higher. -/
theorem IOTape_inTimes_eq (now : Nat) (addr : List vWord) (ha : addr.length = 100) :
    ∀ (n : Nat) (t : IOTape), t.WF → t.curPage + n ≤ 2000 →
      ∃ t1, IOTape.inTimes now addr n t = some t1 ∧ t1.WF ∧ t1.curPage = t.curPage + n
  | 0, t, hw, _ => ⟨t, rfl, hw, rfl⟩
  | n + 1, t, hw, hp => by
    obtain ⟨t1, a1, hin, hw1, hc1⟩ := IOTape_in_full t now addr hw (by omega) ha
    obtain ⟨t2, hrun, hw2, hc2⟩ := IOTape_inTimes_eq now addr ha n t1 hw1 (by omega)
    refine ⟨t2, ?_, hw2, by omega⟩
    simp only [IOTape.inTimes, hin, hrun]

/-- Claim C15 fails on the tape. After 2000 calls of `in` a fresh tape has
`curPage = 2000 = numBlocks`, so the invariant `curPage < numBlocks` is lost,
and the page copy of the next `in` is outside the mirror. -/
theorem tape_cursor_leaves_mirror :
    ∃ t1, IOTape.inTimes 0 buf42 2000 (IOTape.new (emptyFS vWord) "t.dat") = some t1 ∧
      t1.curPage = 2000 ∧ t1.numBlocks = 2000 ∧ ¬ (t1.curPage < t1.numBlocks) ∧
      t1.in 0 buf42 = none := by
  obtain ⟨hw, hc⟩ := IOTape_new_WF (emptyFS vWord) "t.dat"
  obtain ⟨t1, hrun, hw1, hc1⟩ := IOTape_inTimes_eq 0 buf42 (List.length_replicate _ _) 2000
    (IOTape.new (emptyFS vWord) "t.dat") hw (by rw [hc])
  rw [hc] at hc1
  have hc2 : t1.curPage = 2000 := by omega
  refine ⟨t1, hrun, hc2, hw1.2.1, ?_, ?_⟩
  · rw [hc2, hw1.2.1]; omega
  · exact IOTape_in_outside t1 0 buf42 hw1 (by omega) (by omega)

/-- Claim C15, amended. A freshly constructed tape and a freshly constructed
disk satisfy `curPage < numBlocks`; every `in` and `out` of a valid disk
returns a valid disk, whose cursor is on a block; every `in` and `out` of a
valid tape with `curPage < 2000` copies a page inside the mirror, returns,
and leaves a valid tape with `curPage` one higher, so that the invariant is
kept exactly when `curPage + 1 < 2000`. -/
theorem cursor_invariant (t : IOTape) (d : IODisk) (now : Nat) (fs fs0 : FS vWord)
    (tpath dpath : String) (b : List vWord)
    (ht : t.WF) (htp : t.curPage < t.numBlocks) (hd : d.WF) (hb : b.length = 100) :
    (IOTape.new fs0 tpath).curPage < (IOTape.new fs0 tpath).numBlocks ∧
    (IOTape.new fs0 tpath).numBlocks = 2000 ∧
    (IODisk.new fs0 dpath).curPage < (IODisk.new fs0 dpath).numBlocks ∧
    (IODisk.new fs0 dpath).numBlocks = 4000 ∧
    (∃ d1 a1, d.in now b = some (true, d1, a1) ∧ d1.WF ∧ d1.curPage < d1.numBlocks) ∧
    (∃ d1 f1, d.out now fs b = some (true, d1, f1) ∧ d1.WF ∧ d1.curPage < d1.numBlocks) ∧
    (∃ t1 a1, t.in now b = some (true, t1, a1) ∧ t1.WF ∧ t1.curPage = t.curPage + 1 ∧
      (t1.curPage < t1.numBlocks ↔ t.curPage + 1 < 2000)) ∧
    (∃ t1 f1, t.out now fs b = some (true, t1, f1) ∧ t1.WF ∧ t1.curPage = t.curPage + 1 ∧
      (t1.curPage < t1.numBlocks ↔ t.curPage + 1 < 2000)) := by
  have htp' : t.curPage < 2000 := by rw [ht.2.1] at htp; exact htp
  obtain ⟨hwt, hct⟩ := IOTape_new_WF fs0 tpath
  obtain ⟨hwd, _⟩ := IODisk_new_WF fs0 dpath
  refine ⟨by rw [hct, hwt.2.1]; omega, hwt.2.1, hwd.2.2.2, hwd.2.1, ?_, ?_, ?_, ?_⟩
  · obtain ⟨d1, a1, hin, hw1⟩ := IODisk_in_WF d now b hd hb
    exact ⟨d1, a1, hin, hw1, hw1.2.2.2⟩
  · obtain ⟨d1, f1, hout, hw1⟩ := IODisk_out_WF d now fs b hd hb
    exact ⟨d1, f1, hout, hw1, hw1.2.2.2⟩
  · obtain ⟨t1, a1, hin, hw1, hc1⟩ := IOTape_in_full t now b ht htp' hb
    exact ⟨t1, a1, hin, hw1, hc1, by rw [hc1, hw1.2.1]⟩
  · obtain ⟨t1, f1, hout, hw1, hc1, _⟩ := IOTape_out_full t now fs b ht htp' hb
    exact ⟨t1, f1, hout, hw1, hc1, by rw [hc1, hw1.2.1]⟩

/-- Claim C15, amended, at a fresh tape and a fresh disk, with the buffer of
100 words of value 42. -/
theorem cursor_invariant_witness :
    (IOTape.new (emptyFS vWord) "t.dat").curPage < (IOTape.new (emptyFS vWord) "t.dat").numBlocks ∧
    (IOTape.new (emptyFS vWord) "t.dat").numBlocks = 2000 ∧
    (IODisk.new (emptyFS vWord) "d.dat").curPage < (IODisk.new (emptyFS vWord) "d.dat").numBlocks ∧
    (IODisk.new (emptyFS vWord) "d.dat").numBlocks = 4000 ∧
    (∃ d1 a1, (IODisk.new (emptyFS vWord) "d.dat").in 0 buf42 = some (true, d1, a1) ∧ d1.WF ∧
      d1.curPage < d1.numBlocks) ∧
    (∃ d1 f1, (IODisk.new (emptyFS vWord) "d.dat").out 0 (emptyFS vWord) buf42 =
        some (true, d1, f1) ∧ d1.WF ∧ d1.curPage < d1.numBlocks) ∧
    (∃ t1 a1, (IOTape.new (emptyFS vWord) "t.dat").in 0 buf42 = some (true, t1, a1) ∧ t1.WF ∧
      t1.curPage = (IOTape.new (emptyFS vWord) "t.dat").curPage + 1 ∧
      (t1.curPage < t1.numBlocks ↔ (IOTape.new (emptyFS vWord) "t.dat").curPage + 1 < 2000)) ∧
    (∃ t1 f1, (IOTape.new (emptyFS vWord) "t.dat").out 0 (emptyFS vWord) buf42 =
        some (true, t1, f1) ∧ t1.WF ∧
      t1.curPage = (IOTape.new (emptyFS vWord) "t.dat").curPage + 1 ∧
      (t1.curPage < t1.numBlocks ↔ (IOTape.new (emptyFS vWord) "t.dat").curPage + 1 < 2000)) :=
  cursor_invariant (IOTape.new (emptyFS vWord) "t.dat") (IODisk.new (emptyFS vWord) "d.dat") 0
    (emptyFS vWord) (emptyFS vWord) "t.dat" "d.dat" buf42 (IOTape_new_WF _ _).1 (by decide)
    (IODisk_new_WF _ _).1 (List.length_replicate _ _)

/-! ## Termination -/

/-- Claim C13 fails on the card writer. With its card file opened, a fresh
card writer given 16 zero words is, after any number of iterations, still
running `out`: for no bound does the call return or leave the buffer. -/
theorem card_writer_out_runs_forever :
    ∀ fuel, ∃ s, (IOCardWriter.new "/tmp/").out sampleCharset 0 (emptyFS Char)
      (List.replicate 16 vWord.zero) fuel = Run.running s :=
  fun fuel => ⟨_, IOCardWriter_out_running sampleCharset (IOCardWriter.new "/tmp/") 0
    (emptyFS Char) (List.replicate 16 vWord.zero) fuel vWord.zero (by decide) (by decide)
    rfl rfl⟩

/-! ## Typewriter: a block without escape -/

/-- The word loop of the typewriter on `5 * k` characters none of which is
mapped to `NULLCHAR`: `k` full words, and `esc` still clear. -/
theorem IOTypeWriter_words_plain (cs : Charset) (bs : Nat) :
    ∀ (k i : Nat) (buf : List vWord) (inStream : List Char),
      buf.length = bs → i + k = bs → 5 * k ≤ inStream.length →
      (∀ c ∈ inStream.take (5 * k), cs.toVal c ≠ cs.NULLCHAR) →
      IOTypeWriter.words cs bs k i { esc := false, buf := buf, ptr := i, inStream := inStream } =
        some { esc := false, inStream := inStream.drop (5 * k), ptr := bs,
               buf := buf.take i ++ fullWords cs k inStream }
  | 0, i, buf, inStream, hlen, hik, _, _ => by
    have hi : i = bs := by omega
    subst hi
    simp only [IOTypeWriter.words, Nat.mul_zero, List.drop_zero, fullWords, List.append_nil,
      List.take_of_length_le (Nat.le_of_eq hlen)]
  | k + 1, i, buf, inStream, hlen, hik, hl, hno => by
    have hi : i < buf.length := by omega
    have hsum : 5 * (k + 1) = 5 + 5 * k := by ring
    rw [hsum] at hno hl
    have hno5 : ∀ c ∈ inStream.take 5, cs.toVal c ≠ cs.NULLCHAR := fun c hc =>
      hno c (by rw [List.take_add]; exact List.mem_append_left _ hc)
    have hnor : ∀ c ∈ (inStream.drop 5).take (5 * k), cs.toVal c ≠ cs.NULLCHAR :=
      fun c hc => hno c (by rw [List.take_add]; exact List.mem_append_right _ hc)
    have hf := IOTypeWriter_fields_plain cs bs i i 5
      { esc := false, buf := buf.set i vWord.zero, ptr := i + 1, inStream := inStream }
      vWord.zero (by rw [List.getElem?_set, if_pos rfl, if_pos hi]) (by simp only; omega) hno5
    have ih := IOTypeWriter_words_plain cs bs k (i + 1)
      (buf.set i ⟨Sign.P, packFields cs 5 inStream 0⟩) (inStream.drop 5)
      (by rw [List.length_set]; exact hlen) (by omega)
      (by rw [List.length_drop]; omega) hnor
    simp only [IOTypeWriter.words, Bool.false_eq_true, if_false, if_pos hi, hf, List.set_set]
    have e0 : ({ sign := vWord.zero.sign, data := packFields cs 5 inStream vWord.zero.data } :
        vWord) = ⟨Sign.P, packFields cs 5 inStream 0⟩ := rfl
    rw [e0, ih, take_set_succ _ _ _ hi, List.drop_drop, hsum]
    simp only [fullWords, List.append_assoc, List.singleton_append]

/-- What `IOTypeWriter::in` returns when none of the first 70 characters of
the stream is mapped to `NULLCHAR`: 14 full words. -/
theorem IOTypeWriter_in_plain (cs : Charset) (t : IOTypeWriter) (inStream : List Char)
    (addr : List vWord) (hbs : t.blockSize = 14) (ha : addr.length = 14)
    (hlen : 70 ≤ inStream.length)
    (hno : ∀ (q : Nat) (c : Char), q < 70 → inStream[q]? = some c → cs.toVal c ≠ cs.NULLCHAR) :
    t.in cs inStream addr =
      some (true, t, inStream.drop 70, fullWords cs 14 inStream) := by
  have hmem : ∀ c ∈ inStream.take (5 * 14), cs.toVal c ≠ cs.NULLCHAR := by
    intro c hc
    obtain ⟨q, hq, hqc⟩ := mem_take_getElem? _ _ _ hc
    exact hno q c hq hqc
  have hw := IOTypeWriter_words_plain cs 14 14 0 addr inStream ha (by omega) (by omega) hmem
  rw [List.take_zero, List.nil_append] at hw
  simp only [IOTypeWriter.in, hbs, hw]

theorem charAt_drop (l : List Char) (a q : Nat) : charAt (l.drop a) q = charAt l (a + q) := by
  simp only [charAt, List.getD_eq_getElem?_getD, List.getElem?_drop]

/-- The magnitude packed from five characters is the sum of their masked
codes, the first character shifted to field 4. -/
theorem packFields_five_sum (cs : Charset) (l : List Char) (h : 5 ≤ l.length) :
    packFields cs 5 l 0 =
      ∑ m ∈ Finset.range 5, (cs.toVal (charAt l m) &&& BYTE_MASK) <<< (6 * (4 - m)) := by
  rw [packFields_eq_packCodes, packCodes_eq_add 5 _ 0 (by omega) (by norm_num)]
  rcases l with _ | ⟨c0, _ | ⟨c1, _ | ⟨c2, _ | ⟨c3, _ | ⟨c4, r⟩⟩⟩⟩⟩
  · simp at h
  · simp at h
  · simp at h
  · simp at h
  · simp at h
  · simp [codeVal, Finset.sum_range_succ, charAt, BYTE_MASK, and_63, Nat.shiftLeft_eq]
    ring

/-- Claim C16. When the first 70 characters of the stream are all mapped by
`toVal` to codes other than `NULLCHAR`, `IOTypeWriter::in` returns true,
consumes exactly 70 characters, and sets word `i`, for `i = 0 .. 13`, to sign
positive with data the sum over `m = 0 .. 4` of
`(toVal (c[5i + m]) AND BYTE_MASK)` shifted left by `6 * (4 - m)`. -/
theorem typewriter_full_block (cs : Charset) (t : IOTypeWriter) (inStream : List Char)
    (addr : List vWord) (hbs : t.blockSize = 14) (ha : addr.length = 14)
    (hlen : 70 ≤ inStream.length)
    (hno : ∀ (q : Nat) (c : Char), q < 70 → inStream[q]? = some c → cs.toVal c ≠ cs.NULLCHAR) :
    ∃ buf, t.in cs inStream addr = some (true, t, inStream.drop 70, buf) ∧
      buf.length = 14 ∧
      ∀ i : Nat, i < 14 → buf[i]? = some ⟨Sign.P,
        ∑ m ∈ Finset.range 5,
          (cs.toVal (charAt inStream (5 * i + m)) &&& BYTE_MASK) <<< (6 * (4 - m))⟩ := by
  refine ⟨_, IOTypeWriter_in_plain cs t inStream addr hbs ha hlen hno,
    fullWords_length cs 14 inStream, ?_⟩
  intro i hi
  rw [fullWords_getElem? cs 14 inStream i hi,
    packFields_five_sum cs _ (by rw [List.length_drop]; omega)]
  simp only [charAt_drop]

/-- Claim C16 at a fresh typewriter and a stream of 70 letters A followed by
the letter B. -/
theorem typewriter_full_block_witness :
    ∃ buf, IOTypeWriter.new.in sampleCharset letters71 (List.replicate 14 ⟨Sign.N, 7⟩) =
        some (true, IOTypeWriter.new, letters71.drop 70, buf) ∧
      buf.length = 14 ∧
      ∀ i : Nat, i < 14 → buf[i]? = some ⟨Sign.P,
        ∑ m ∈ Finset.range 5,
          (sampleCharset.toVal (charAt letters71 (5 * i + m)) &&& BYTE_MASK) <<<
            (6 * (4 - m))⟩ :=
  typewriter_full_block sampleCharset IOTypeWriter.new letters71
    (List.replicate 14 ⟨Sign.N, 7⟩) rfl (List.length_replicate _ _)
    (by simp [letters71])
    (by
      intro q c hq h
      have hmem : c ∈ letters71.take 70 := by
        apply List.mem_iff_getElem?.mpr
        exact ⟨q, by rw [List.getElem?_take, if_pos hq]; exact h⟩
      have htake : letters71.take 70 = List.replicate 70 'A' :=
        List.take_left' (List.length_replicate _ _)
      rw [htake] at hmem
      rw [List.eq_of_mem_replicate hmem]
      decide)

/-! ## Typewriter: every stream -/

/-- A read from the stream `X` after `c` characters yields character `c` of
`X`, the character 0 past its end, and leaves `X` after `c + 1` characters. -/
theorem readChar_drop (X : List Char) (c : Nat) :
    readChar (Char.ofNat 0) (X.drop c) = (charAt X c, X.drop (c + 1)) := by
  by_cases hc : c < X.length
  · rw [List.drop_eq_getElem_cons hc]
    simp only [readChar, charAt, List.getD_eq_getElem?_getD, List.getElem?_eq_getElem hc,
      Option.getD_some]
  · rw [List.drop_of_length_le (by omega), List.drop_of_length_le (by omega)]
    simp only [readChar, charAt, List.getD_eq_getElem?_getD,
      List.getElem?_eq_none (Nat.le_of_not_lt hc), Option.getD_none]

/-- The zero-fill loop does not look at the stream. -/
theorem IOTypeWriter_zeroFill_stream :
    ∀ (n : Nat) (esc : Bool) (buf : List vWord) (ptr : Nat),
      (∀ S, IOTypeWriter.zeroFill n ⟨esc, buf, ptr, S⟩ = none) ∨
      ∃ buf1 ptr1, ∀ S, IOTypeWriter.zeroFill n ⟨esc, buf, ptr, S⟩ = some ⟨esc, buf1, ptr1, S⟩
  | 0, esc, buf, ptr => Or.inr ⟨buf, ptr, fun _ => rfl⟩
  | n + 1, esc, buf, ptr => by
    by_cases hp : ptr < buf.length
    · rcases IOTypeWriter_zeroFill_stream n esc (buf.set ptr vWord.zero) (ptr + 1) with h | h
      · left
        intro S
        simp only [IOTypeWriter.zeroFill, if_pos hp, h S]
      · obtain ⟨buf1, ptr1, h⟩ := h
        right
        refine ⟨buf1, ptr1, fun S => ?_⟩
        simp only [IOTypeWriter.zeroFill, if_pos hp, h S]
    · left
      intro S
      simp only [IOTypeWriter.zeroFill, if_neg hp]

/-- On two streams with the same characters at every position, the field
loop of the typewriter behaves alike and consumes the same number of
characters. -/
theorem IOTypeWriter_fields_stream (cs : Charset) (bs i r : Nat) (X Y : List Char)
    (hXY : ∀ q, charAt X q = charAt Y q) :
    ∀ (n : Nat) (esc : Bool) (buf : List vWord) (ptr c : Nat),
      (IOTypeWriter.fields cs bs i r n ⟨esc, buf, ptr, X.drop c⟩ = none ∧
        IOTypeWriter.fields cs bs i r n ⟨esc, buf, ptr, Y.drop c⟩ = none) ∨
      ∃ esc1 buf1 ptr1 c1,
        IOTypeWriter.fields cs bs i r n ⟨esc, buf, ptr, X.drop c⟩ =
          some ⟨esc1, buf1, ptr1, X.drop c1⟩ ∧
        IOTypeWriter.fields cs bs i r n ⟨esc, buf, ptr, Y.drop c⟩ =
          some ⟨esc1, buf1, ptr1, Y.drop c1⟩
  | 0, esc, buf, ptr, c => Or.inr ⟨esc, buf, ptr, c, rfl, rfl⟩
  | j + 1, esc, buf, ptr, c => by
    by_cases hnull : cs.toVal (charAt X c) = cs.NULLCHAR
    · have hnullY : cs.toVal (charAt Y c) = cs.NULLCHAR := by rw [← hXY]; exact hnull
      rcases IOTypeWriter_zeroFill_stream (bs - (i + 1)) esc
        (orData buf r (((cs.SPACE &&& BYTE_MASK) <<< (j * 6)) % UINT)) ptr with h | h
      · left
        simp only [IOTypeWriter.fields, readChar_drop, hnull, hnullY, if_true, h, and_self]
      · obtain ⟨buf1, ptr1, h⟩ := h
        right
        refine ⟨true, buf1, ptr1, c + 1, ?_, ?_⟩
        · simp only [IOTypeWriter.fields, readChar_drop, hnull, if_true, h]
        · simp only [IOTypeWriter.fields, readChar_drop, hnullY, if_true, h]
    · have hnullY : ¬ cs.toVal (charAt Y c) = cs.NULLCHAR := by rw [← hXY]; exact hnull
      have ih := IOTypeWriter_fields_stream cs bs i r X Y hXY j esc
        (orData buf r (((cs.toVal (charAt X c) &&& BYTE_MASK) <<< (j * 6)) % UINT)) ptr (c + 1)
      have hY : IOTypeWriter.fields cs bs i r (j + 1) ⟨esc, buf, ptr, Y.drop c⟩ =
          IOTypeWriter.fields cs bs i r j
            ⟨esc, orData buf r (((cs.toVal (charAt X c) &&& BYTE_MASK) <<< (j * 6)) % UINT),
              ptr, Y.drop (c + 1)⟩ := by
        simp only [IOTypeWriter.fields, readChar_drop, if_neg hnullY, hXY]
      have hX : IOTypeWriter.fields cs bs i r (j + 1) ⟨esc, buf, ptr, X.drop c⟩ =
          IOTypeWriter.fields cs bs i r j
            ⟨esc, orData buf r (((cs.toVal (charAt X c) &&& BYTE_MASK) <<< (j * 6)) % UINT),
              ptr, X.drop (c + 1)⟩ := by
        simp only [IOTypeWriter.fields, readChar_drop, if_neg hnull]
      rw [hX, hY]
      exact ih

/-- On two streams with the same characters at every position, the word loop
of the typewriter behaves alike and consumes the same number of characters. -/
theorem IOTypeWriter_words_stream (cs : Charset) (bs : Nat) (X Y : List Char)
    (hXY : ∀ q, charAt X q = charAt Y q) :
    ∀ (n i : Nat) (esc : Bool) (buf : List vWord) (ptr c : Nat),
      (IOTypeWriter.words cs bs n i ⟨esc, buf, ptr, X.drop c⟩ = none ∧
        IOTypeWriter.words cs bs n i ⟨esc, buf, ptr, Y.drop c⟩ = none) ∨
      ∃ esc1 buf1 ptr1 c1,
        IOTypeWriter.words cs bs n i ⟨esc, buf, ptr, X.drop c⟩ =
          some ⟨esc1, buf1, ptr1, X.drop c1⟩ ∧
        IOTypeWriter.words cs bs n i ⟨esc, buf, ptr, Y.drop c⟩ =
          some ⟨esc1, buf1, ptr1, Y.drop c1⟩
  | 0, _, esc, buf, ptr, c => Or.inr ⟨esc, buf, ptr, c, rfl, rfl⟩
  | n + 1, i, esc, buf, ptr, c => by
    cases esc with
    | true =>
      right
      exact ⟨true, buf, ptr, c, IOTypeWriter_words_esc _ _ _ _ _ rfl,
        IOTypeWriter_words_esc _ _ _ _ _ rfl⟩
    | false =>
      by_cases hp : ptr < buf.length
      · rcases IOTypeWriter_fields_stream cs bs i ptr X Y hXY 5 false
          (buf.set ptr vWord.zero) (ptr + 1) c with h | h
        · left
          simp only [IOTypeWriter.words, Bool.false_eq_true, if_false, if_pos hp, h.1, h.2,
            and_self]
        · obtain ⟨esc1, buf1, ptr1, c1, h1, h2⟩ := h
          have ih := IOTypeWriter_words_stream cs bs X Y hXY n (i + 1) esc1 buf1 ptr1 c1
          simp only [IOTypeWriter.words, Bool.false_eq_true, if_false, if_pos hp, h1, h2]
          exact ih
      · left
        simp only [IOTypeWriter.words, Bool.false_eq_true, if_false, if_neg hp, and_self]

/-- On two streams with the same characters at every position,
`IOTypeWriter::in` returns the same words and consumes the same number of
characters. -/
theorem IOTypeWriter_in_stream (cs : Charset) (t : IOTypeWriter) (X Y : List Char)
    (addr : List vWord) (hXY : ∀ q, charAt X q = charAt Y q) :
    (t.in cs X addr = none ∧ t.in cs Y addr = none) ∨
    ∃ c1 buf1, t.in cs X addr = some (true, t, X.drop c1, buf1) ∧
      t.in cs Y addr = some (true, t, Y.drop c1, buf1) := by
  have h := IOTypeWriter_words_stream cs t.blockSize X Y hXY t.blockSize 0 false addr 0 0
  rw [List.drop_zero, List.drop_zero] at h
  rcases h with h | ⟨esc1, buf1, ptr1, c1, h1, h2⟩
  · left
    simp only [IOTypeWriter.in, h.1, h.2, and_self]
  · right
    refine ⟨c1, buf1, ?_, ?_⟩
    · simp only [IOTypeWriter.in, h1]
    · simp only [IOTypeWriter.in, h2]

theorem charAt_of_getElem? (l : List Char) (q : Nat) (c : Char) (h : l[q]? = some c) :
    charAt l q = c := by
  simp only [charAt, List.getD_eq_getElem?_getD, h, Option.getD_some]

theorem getElem?_charAt (l : List Char) (q : Nat) (h : q < l.length) :
    l[q]? = some (charAt l q) := by
  simp only [charAt, List.getD_eq_getElem?_getD, List.getElem?_eq_getElem h, Option.getD_some]

/-- Padding a stream with characters 0 does not change what a read finds at
any position. -/
theorem charAt_pad (l : List Char) (k q : Nat) :
    charAt l q = charAt (l ++ List.replicate k (Char.ofNat 0)) q := by
  simp only [charAt, List.getD_eq_getElem?_getD]
  by_cases hq : q < l.length
  · rw [List.getElem?_append_left hq]
  · rw [List.getElem?_append_right (by omega), List.getElem?_eq_none (Nat.le_of_not_lt hq),
      List.getElem?_replicate]
    split <;> rfl

theorem exists_first (P : Nat → Prop) : ∀ n, P n → ∃ p, p ≤ n ∧ P p ∧ ∀ q, q < p → ¬ P q := by
  intro n
  induction n using Nat.strong_induction_on with
  | _ n ih =>
    intro h
    by_cases hq : ∃ q, q < n ∧ P q
    · obtain ⟨q, hqn, hP⟩ := hq
      obtain ⟨p, hp, hPp, hmin⟩ := ih q hqn hP
      exact ⟨p, by omega, hPp, hmin⟩
    · exact ⟨n, Nat.le_refl n, h, fun q hqn hP => hq ⟨q, hqn, hP⟩⟩

theorem drop_pad_inj {α : Type} (l pad : List α) (a b : Nat)
    (h : (l ++ pad).drop a = (l ++ pad).drop b) : l.drop a = l.drop b := by
  have hlen := congrArg List.length h
  simp only [List.length_drop, List.length_append] at hlen
  by_cases hab : a = b
  · rw [hab]
  · rw [List.drop_of_length_le (by omega), List.drop_of_length_le (by omega)]

/-- On a stream of at least 70 characters `IOTypeWriter::in` returns true and
14 words that do not depend on the caller buffer. -/
theorem IOTypeWriter_in_long (cs : Charset) (t : IOTypeWriter) (L : List Char)
    (hbs : t.blockSize = 14) (hL : 70 ≤ L.length) :
    ∃ c1 B, B.length = 14 ∧
      ∀ addr : List vWord, addr.length = 14 →
        t.in cs L addr = some (true, t, L.drop c1, B) := by
  by_cases hex : ∃ p, p < 70 ∧ cs.toVal (charAt L p) = cs.NULLCHAR
  · obtain ⟨p0, hp0⟩ := hex
    obtain ⟨p, _, ⟨hp, hnull⟩, hmin⟩ :=
      exists_first (fun q => q < 70 ∧ cs.toVal (charAt L q) = cs.NULLCHAR) p0 hp0
    refine ⟨p + 1, _, ?_, fun addr ha =>
      IOTypeWriter_in_escape cs t L addr p (charAt L p) hbs ha hp
        (getElem?_charAt L p (by omega)) hnull ?_⟩
    · simp only [List.length_append, fullWords_length, List.length_singleton,
        List.length_replicate]
      omega
    · intro q c hq hqc hc
      rw [← charAt_of_getElem? L q c hqc] at hc
      exact hmin q hq ⟨by omega, hc⟩
  · refine ⟨70, fullWords cs 14 L, fullWords_length cs 14 L, fun addr ha =>
      IOTypeWriter_in_plain cs t L addr hbs ha hL ?_⟩
    intro q c hq hqc hc
    rw [← charAt_of_getElem? L q c hqc] at hc
    exact hex ⟨q, hq, hc⟩

/-- On every stream `IOTypeWriter::in` returns true with 14 words, and
neither the words nor the rest of the stream depend on the caller buffer. -/
theorem IOTypeWriter_in_total (cs : Charset) (t : IOTypeWriter) (inStream : List Char)
    (hbs : t.blockSize = 14) :
    ∃ rest B, B.length = 14 ∧
      ∀ addr : List vWord, addr.length = 14 →
        t.in cs inStream addr = some (true, t, rest, B) := by
  obtain ⟨c1, B, hB, hL⟩ := IOTypeWriter_in_long cs t
    (inStream ++ List.replicate 70 (Char.ofNat 0)) hbs
    (by rw [List.length_append, List.length_replicate]; omega)
  refine ⟨inStream.drop c1, B, hB, fun addr ha => ?_⟩
  rcases IOTypeWriter_in_stream cs t inStream (inStream ++ List.replicate 70 (Char.ofNat 0))
    addr (charAt_pad inStream 70) with h | ⟨c2, buf2, h1, h2⟩
  · rw [hL addr ha] at h
    exact Option.noConfusion h.2
  · rw [hL addr ha] at h2
    simp only [Option.some.injEq, Prod.mk.injEq, true_and] at h2
    rw [h1, ← h2.2, drop_pad_inj _ _ _ _ h2.1]

/-- Claim C20. For every input stream, `IOTypeWriter::in` on a caller buffer
of exactly 14 words returns true with 14 words, so that no access falls
outside the buffer, and the 14 words and the rest of the stream are the same
whatever the buffer held before, so that every word was assigned.  On the
escape path at word `i` the zero-fill loop writes exactly the `13 - i` words
`i + 1 .. 13` and leaves `addr` at 14, and with `esc` set the word loop
stops. -/
theorem typewriter_in_no_overrun (cs : Charset) (t : IOTypeWriter) (inStream : List Char)
    (addr addr2 : List vWord) (hbs : t.blockSize = 14) (ha : addr.length = 14)
    (ha2 : addr2.length = 14) :
    ∃ rest buf, t.in cs inStream addr = some (true, t, rest, buf) ∧ buf.length = 14 ∧
      t.in cs inStream addr2 = some (true, t, rest, buf) ∧
      (∀ (i : Nat) (s : TWState), i < 14 → s.ptr = i + 1 → s.buf.length = 14 →
        IOTypeWriter.zeroFill (t.blockSize - (i + 1)) s =
          some { s with buf := s.buf.take (i + 1) ++ List.replicate (13 - i) vWord.zero,
                        ptr := 14 }) ∧
      (∀ (n i : Nat) (s : TWState), s.esc = true →
        IOTypeWriter.words cs t.blockSize n i s = some s) := by
  obtain ⟨rest, B, hB, hall⟩ := IOTypeWriter_in_total cs t inStream hbs
  refine ⟨rest, B, hall addr ha, hB, hall addr2 ha2, ?_,
    fun n i s h => IOTypeWriter_words_esc cs _ n i s h⟩
  intro i s hi hptr hlen
  have hz := IOTypeWriter_zeroFill_eq (t.blockSize - (i + 1)) s (by rw [hbs, hptr, hlen]; omega)
  rw [hz, hbs, hptr]
  have e1 : i + 1 + (14 - (i + 1)) = 14 := by omega
  have e2 : 14 - (i + 1) = 13 - i := by omega
  rw [e1, e2, List.drop_of_length_le (by omega), List.append_nil]

/-- Claim C20 at a fresh typewriter, the empty stream and two different
buffers of 14 words. -/
theorem typewriter_in_no_overrun_witness :
    ∃ rest buf, IOTypeWriter.new.in sampleCharset [] (List.replicate 14 ⟨Sign.N, 7⟩) =
        some (true, IOTypeWriter.new, rest, buf) ∧ buf.length = 14 ∧
      IOTypeWriter.new.in sampleCharset [] (List.replicate 14 vWord.zero) =
        some (true, IOTypeWriter.new, rest, buf) ∧
      (∀ (i : Nat) (s : TWState), i < 14 → s.ptr = i + 1 → s.buf.length = 14 →
        IOTypeWriter.zeroFill (IOTypeWriter.new.blockSize - (i + 1)) s =
          some { s with buf := s.buf.take (i + 1) ++ List.replicate (13 - i) vWord.zero,
                        ptr := 14 }) ∧
      (∀ (n i : Nat) (s : TWState), s.esc = true →
        IOTypeWriter.words sampleCharset IOTypeWriter.new.blockSize n i s = some s) :=
  typewriter_in_no_overrun sampleCharset IOTypeWriter.new [] (List.replicate 14 ⟨Sign.N, 7⟩)
    (List.replicate 14 vWord.zero) rfl (List.length_replicate _ _) (List.length_replicate _ _)

/-! ## Card reader: the words read from a card -/

theorem readChar_snd_drop (tmp : Char) (X : List Char) (c : Nat) :
    (readChar tmp (X.drop c)).2 = X.drop (c + 1) := by
  by_cases hc : c < X.length
  · rw [List.drop_eq_getElem_cons hc]
    rfl
  · rw [List.drop_of_length_le (by omega), List.drop_of_length_le (by omega)]
    rfl

/-- One field of the card reader: the code of the character at position `c`
is stored in field `j`; after field 4 one more character is skipped. -/
theorem IOCardReader_field_eq (cs : Charset) (r j : Nat) (buf : List vWord) (X : List Char)
    (c : Nat) :
    IOCardReader.field cs r j buf (X.drop c) =
      (orData buf r (((readerCode cs (charAt X c) &&& BYTE_MASK) <<< (j * 6)) % UINT),
        X.drop (if j > 0 ∧ j % 4 = 0 then c + 2 else c + 1)) := by
  unfold IOCardReader.field
  simp only [readChar_drop, readChar_snd_drop, readerCode]
  split <;> rfl

/-- The five fields of one word of the card reader: six characters of the
file are consumed, the sixth is skipped. -/
theorem IOCardReader_fields_eq (cs : Charset) (r : Nat) (buf : List vWord) (X : List Char)
    (c : Nat) (hr : r < buf.length) :
    IOCardReader.fields cs r 5 0 (buf.set r ⟨Sign.P, 0⟩) (X.drop c) =
      (buf.set r ⟨Sign.P, readerData cs X c⟩, X.drop (c + 6)) := by
  have h0 : (buf.set r (⟨Sign.P, 0⟩ : vWord))[r]? = some ⟨Sign.P, 0⟩ := by
    rw [List.getElem?_set, if_pos rfl, if_pos hr]
  simp only [IOCardReader.fields, IOCardReader_field_eq]
  simp only [Nat.lt_irrefl, false_and, if_false, Nat.zero_add, Nat.reduceAdd, Nat.reduceMod,
    Nat.reduceGT, Nat.reduceEqDiff, and_false, and_self, if_true, Nat.add_assoc]
  rw [orData_eq_set _ _ _ _ h0]
  rw [orData_eq_set _ _ _ _ (getElem?_set_self_of_some _ _ _ _ h0), List.set_set]
  rw [orData_eq_set _ _ _ _ (getElem?_set_self_of_some _ _ _ _ h0), List.set_set]
  rw [orData_eq_set _ _ _ _ (getElem?_set_self_of_some _ _ _ _ h0), List.set_set]
  rw [orData_eq_set _ _ _ _ (getElem?_set_self_of_some _ _ _ _ h0), List.set_set]
  rw [List.set_set]
  rfl

/-- The word loop of the card reader on the file `X` from position `c` on:
`n` words of six characters each replace the words of the buffer from `ptr`
on. -/
theorem IOCardReader_words_eq (cs : Charset) (X : List Char) :
    ∀ (n ptr : Nat) (buf : List vWord) (c : Nat), ptr + n ≤ buf.length →
      IOCardReader.words cs n ptr buf (X.drop c) =
        some (buf.take ptr ++ readerWords cs X n c ++ buf.drop (ptr + n), X.drop (c + 6 * n))
  | 0, ptr, buf, c, _ => by
    simp only [IOCardReader.words, readerWords, List.append_nil, Nat.add_zero,
      List.take_append_drop, Nat.mul_zero]
  | n + 1, ptr, buf, c, h => by
    have hp : ptr < buf.length := by omega
    have ih := IOCardReader_words_eq cs X n (ptr + 1)
      (buf.set ptr ⟨Sign.P, readerData cs X c⟩) (c + 6)
      (by rw [List.length_set]; omega)
    simp only [IOCardReader.words, if_pos hp, IOCardReader_fields_eq cs ptr buf X c hp, ih,
      take_set_succ _ _ _ hp, drop_set_succ, readerWords, List.append_assoc,
      List.singleton_append]
    have e1 : ptr + 1 + n = ptr + (n + 1) := by omega
    have e2 : c + 6 + 6 * n = c + 6 * (n + 1) := by ring
    rw [e1, e2]

theorem readerWords_length (cs : Charset) (X : List Char) :
    ∀ (n c : Nat), (readerWords cs X n c).length = n
  | 0, _ => rfl
  | n + 1, c => by simp only [readerWords, List.length_cons, readerWords_length cs X n]

theorem readerWords_getElem? (cs : Charset) (X : List Char) :
    ∀ (n c a : Nat), a < n →
      (readerWords cs X n c)[a]? = some ⟨Sign.P, readerData cs X (c + 6 * a)⟩
  | 0, _, _, h => by simp at h
  | n + 1, c, 0, _ => by
    simp only [readerWords, List.getElem?_cons_zero, Nat.mul_zero, Nat.add_zero]
  | n + 1, c, a + 1, h => by
    simp only [readerWords, List.getElem?_cons_succ]
    rw [readerWords_getElem? cs X n (c + 6) a (by omega)]
    have : c + 6 + 6 * a = c + 6 * (a + 1) := by ring
    rw [this]

/-- Storing a 6-bit code in field `j` of a magnitude that fills only the
fields below `j` adds the code at digit `j`. -/
theorem lor_low (d x j : Nat) (hj : j ≤ 4) (hd : d < 64 ^ j) :
    d ||| (((x &&& BYTE_MASK) <<< (j * 6)) % UINT) = d + (x % 64) * 64 ^ j := by
  simp only [BYTE_MASK, UINT]
  rw [and_63, Nat.shiftLeft_eq]
  have e1 : (2 : Nat) ^ (j * 6) = 64 ^ j := by rw [Nat.mul_comm, pow_mul]; norm_num
  rw [e1]
  have hlt : x % 64 * 64 ^ j < 2 ^ 32 := by
    have hx : x % 64 < 64 := Nat.mod_lt _ (by omega)
    interval_cases j <;> omega
  rw [Nat.mod_eq_of_lt hlt, Nat.lor_comm]
  have e2 : (64 : Nat) ^ j = 2 ^ (6 * j) := by rw [pow_mul]; norm_num
  have hd2 : d < 2 ^ (6 * j) := by rw [← e2]; exact hd
  have h := Nat.mul_add_lt_is_or hd2 (x % 64)
  rw [← e2] at h
  rw [Nat.mul_comm (x % 64), ← h, Nat.add_comm]

/-- The magnitude of a word of the card reader is the number whose base-64
digits are the five codes, the first character at digit 0. -/
theorem readerData_eq (cs : Charset) (X : List Char) (c : Nat) :
    readerData cs X c =
      readerCode cs (charAt X c) % 64 + readerCode cs (charAt X (c + 1)) % 64 * 64 +
        readerCode cs (charAt X (c + 2)) % 64 * 64 ^ 2 +
        readerCode cs (charAt X (c + 3)) % 64 * 64 ^ 3 +
        readerCode cs (charAt X (c + 4)) % 64 * 64 ^ 4 := by
  have h0 := Nat.mod_lt (readerCode cs (charAt X c)) (show 64 > 0 by omega)
  have h1 := Nat.mod_lt (readerCode cs (charAt X (c + 1))) (show 64 > 0 by omega)
  have h2 := Nat.mod_lt (readerCode cs (charAt X (c + 2))) (show 64 > 0 by omega)
  have h3 := Nat.mod_lt (readerCode cs (charAt X (c + 3))) (show 64 > 0 by omega)
  unfold readerData
  rw [lor_low 0 _ 0 (by omega) (by omega)]
  rw [lor_low _ _ 1 (by omega) (by omega)]
  rw [lor_low _ _ 2 (by omega) (by omega)]
  rw [lor_low _ _ 3 (by omega) (by omega)]
  rw [lor_low _ _ 4 (by omega) (by omega)]
  omega

/-- The fields and the size of a word of the card reader. -/
theorem readerData_field (cs : Charset) (X : List Char) (c j : Nat) (hj : j < 5) :
    (⟨Sign.P, readerData cs X c⟩ : vWord).field j =
      readerCode cs (charAt X (c + j)) &&& BYTE_MASK ∧
    readerData cs X c < 2 ^ 30 := by
  rw [readerData_eq]
  simp only [vWord.field, vWord.toUInt, UINT, BYTE_MASK, and_63, Nat.shiftRight_eq_div_pow]
  have h0 := Nat.mod_lt (readerCode cs (charAt X c)) (show 64 > 0 by omega)
  have h1 := Nat.mod_lt (readerCode cs (charAt X (c + 1))) (show 64 > 0 by omega)
  have h2 := Nat.mod_lt (readerCode cs (charAt X (c + 2))) (show 64 > 0 by omega)
  have h3 := Nat.mod_lt (readerCode cs (charAt X (c + 3))) (show 64 > 0 by omega)
  have h4 := Nat.mod_lt (readerCode cs (charAt X (c + 4))) (show 64 > 0 by omega)
  interval_cases j <;> simp <;> omega

/-- What `IOCardReader::in` returns on a 16-word buffer when the card file
opens with content `inFile`. -/
theorem IOCardReader_in_eq (cs : Charset) (t : IOCardReader) (now : Nat) (fs : FS Char)
    (addr : List vWord) (inFile : List Char) (hbs : t.blockSize = 16) (ha : addr.length = 16)
    (hf : fs.files (t.dir ++ toString t.curPage ++ ".card") = some inFile) :
    IOCardReader.words cs 16 0 addr inFile =
      some (readerWords cs inFile 16 0, inFile.drop 96) ∧
    t.in cs now fs addr =
      some (true, { t with toIODevice := (t.toIODevice.setBusy now 150).incPage },
        readerWords cs inFile 16 0) := by
  have hw := IOCardReader_words_eq cs inFile 16 0 addr 0 (by omega)
  rw [List.drop_zero, List.take_zero, List.nil_append,
    List.drop_of_length_le (by omega), List.append_nil] at hw
  refine ⟨hw, ?_⟩
  simp only [IOCardReader.in, IODevice.setBusy_curPage, IODevice.setBusy_blockSize, hbs, hf, hw]

/-- Claim C17. When the card file opens, whatever it holds, `IOCardReader::in`
on a 16-word buffer returns true after reading 96 characters, six per word,
and word `i` has sign positive, data below `2 ^ 30`, and in field `j`
(`j = 0 .. 4`) the code of the character at position `6i + j` of the file,
with `NULLCHAR` replaced by `SPACE`, reduced by `BYTE_MASK`; the character at
position `6i + 5`, read after field 4, is discarded, and a position past the
end of the file reads as the character 0.  For a table of 6-bit codes whose
`SPACE` is not `NULLCHAR`, no field holds `NULLCHAR`. -/
theorem card_reader_in_words (cs : Charset) (t : IOCardReader) (now : Nat) (fs : FS Char)
    (addr : List vWord) (inFile : List Char) (hbs : t.blockSize = 16) (ha : addr.length = 16)
    (hf : fs.files (t.dir ++ toString t.curPage ++ ".card") = some inFile) :
    ∃ t1 buf, t.in cs now fs addr = some (true, t1, buf) ∧ buf.length = 16 ∧
      IOCardReader.words cs 16 0 addr inFile = some (buf, inFile.drop 96) ∧
      ∀ i : Nat, i < 16 → ∃ w : vWord, buf[i]? = some w ∧ w.sign = Sign.P ∧
        w.data < 2 ^ 30 ∧
        (∀ j : Nat, j < 5 →
          w.field j = readerCode cs (charAt inFile (6 * i + j)) &&& BYTE_MASK) ∧
        ((∀ c, cs.toVal c < 64) → cs.SPACE < 64 → cs.SPACE ≠ cs.NULLCHAR →
          ∀ j : Nat, j < 5 → w.field j ≠ cs.NULLCHAR) := by
  obtain ⟨hw, hin⟩ := IOCardReader_in_eq cs t now fs addr inFile hbs ha hf
  refine ⟨_, _, hin, readerWords_length cs inFile 16 0, hw, ?_⟩
  intro i hi
  have hfield : ∀ j : Nat, j < 5 →
      (⟨Sign.P, readerData cs inFile (0 + 6 * i)⟩ : vWord).field j =
        readerCode cs (charAt inFile (6 * i + j)) &&& BYTE_MASK := by
    intro j hj
    have h := (readerData_field cs inFile (0 + 6 * i) j hj).1
    rw [Nat.zero_add] at h
    rw [Nat.zero_add]
    exact h
  refine ⟨_, readerWords_getElem? cs inFile 16 0 i hi, rfl,
    (readerData_field cs inFile (0 + 6 * i) 0 (by omega)).2, hfield, ?_⟩
  intro h64 hsp hne j hj
  rw [hfield j hj]
  have hlt : readerCode cs (charAt inFile (6 * i + j)) < 64 := by
    unfold readerCode
    split
    · exact hsp
    · exact h64 _
  have hmask : readerCode cs (charAt inFile (6 * i + j)) &&& BYTE_MASK =
      readerCode cs (charAt inFile (6 * i + j)) := by
    simp only [BYTE_MASK, and_63]
    exact Nat.mod_eq_of_lt hlt
  rw [hmask]
  unfold readerCode
  split
  · exact hne
  · assumption

/-- Claim C17 at a fresh card reader on the directory `/tmp/`, whose card
`/tmp/0.card` holds the line HELLO WORLD, and a buffer of 16 zero words. -/
theorem card_reader_in_words_witness :
    ∃ t1 buf, (IOCardReader.new "/tmp/").in sampleCharset 0
        ((emptyFS Char).write "/tmp/0.card" helloLine) (List.replicate 16 vWord.zero) =
        some (true, t1, buf) ∧ buf.length = 16 ∧
      IOCardReader.words sampleCharset 16 0 (List.replicate 16 vWord.zero) helloLine =
        some (buf, helloLine.drop 96) ∧
      ∀ i : Nat, i < 16 → ∃ w : vWord, buf[i]? = some w ∧ w.sign = Sign.P ∧
        w.data < 2 ^ 30 ∧
        (∀ j : Nat, j < 5 →
          w.field j = readerCode sampleCharset (charAt helloLine (6 * i + j)) &&& BYTE_MASK) ∧
        ((∀ c, sampleCharset.toVal c < 64) → sampleCharset.SPACE < 64 →
          sampleCharset.SPACE ≠ sampleCharset.NULLCHAR →
          ∀ j : Nat, j < 5 → w.field j ≠ sampleCharset.NULLCHAR) :=
  card_reader_in_words sampleCharset (IOCardReader.new "/tmp/") 0
    ((emptyFS Char).write "/tmp/0.card" helloLine) (List.replicate 16 vWord.zero) helloLine
    rfl (List.length_replicate _ _) rfl

/-- The sample table is a table of 6-bit codes whose `SPACE` is not
`NULLCHAR`. -/
theorem sampleCharset_six_bit :
    (∀ c, sampleCharset.toVal c < 64) ∧ sampleCharset.SPACE < 64 ∧
      sampleCharset.SPACE ≠ sampleCharset.NULLCHAR := by
  refine ⟨?_, by decide, by decide⟩
  intro c
  simp only [sampleCharset]
  split_ifs <;> omega

end vMIX
